import Mathlib

/-!
# erigon-lib: transaction-pool packet codec and sub-pool ordering

A shallow embedding of `rlp/encodel.go` and `txpool/packets.go`, with the parts of the
repository they rest on that are not among the sources (`rlp/parse.go`, the hash-list
writer of package rlp, `txpool/pool.go`, `txpool/send.go`) modelled from the specification; each such
definition says so in its doc comment.

Conventions of the embedding.

* A byte is a natural number; every conversion `byte(x)` of the source is an
  explicit `% 256`, every conversion `uint64(x)` an explicit `% 2 ^ 64`.
* Go's `int` lengths and positions are natural numbers.
* A function of the source that can stop with a run-time panic (index or
  slice bound out of range) returns an `Option`, `none` being the panic; the two
  parsers with a `for` loop return a `Run`, which tells a panic from an exhausted
  step budget.
* A Go function writing into a slice argument returns the new visible
  contents of that slice.
* Slice arguments are values: a definition is the function of the source on
  arguments that share no storage. Where storage shared between the arguments
  changes what the source computes (`EncodeHash` and the encoders of packets.go),
  the namespaces `Shared` at the end of the definitions hold the function on slice
  headers over one memory, and the two are proved to agree on arguments that share
  no storage.
* A Go function with several results returns the tuple of them, the `error` last
  as an `Option Err`.
-/

set_option autoImplicit false

/-! ## Go values and builtins -/

namespace Go

/-- A Go `[]byte` value: `data` holds the `len` visible bytes, `spare` the bytes of the
backing array between `len` and `cap`. -/
structure Slice where
  data : List Nat
  spare : List Nat
deriving DecidableEq

/-- Go's `len(s)`. -/
def Slice.len (s : Slice) : Nat := s.data.length

/-- Go's `cap(s)`. -/
def Slice.cap (s : Slice) : Nat := s.data.length + s.spare.length

/-- The `nil` slice. -/
def Slice.nil : Slice := ⟨[], []⟩

/-- Go's builtin `copy(dst, src)`, as the new contents of `dst`: the first
`min(len(dst), len(src))` bytes of `src` overwrite the start of `dst`. -/
def copy (dst src : List Nat) : List Nat :=
  src.take dst.length ++ dst.drop src.length

/-- The assignment `to[i] = v`; it panics when `i` is not below `len(to)`. -/
def setIdx (to_ : List Nat) (i v : Nat) : Option (List Nat) :=
  if i < to_.length then some (to_.set i v) else none

/-- Number of bits needed to write `x`, looking at no more than `fuel` bits. -/
def bitLen : Nat → Nat → Nat
  | 0, _ => 0
  | fuel + 1, x => if x = 0 then 0 else bitLen fuel (x / 2) + 1

/-- Go's `bits.Len64(uint64(x))`: the minimum number of bits that represent `x`, 0 for 0. -/
def Len64 (x : Nat) : Nat := bitLen 64 (x % 2 ^ 64)

/-- The eight bytes `binary.BigEndian.PutUint64` stores for `v`. -/
def be64 (v : Nat) : List Nat :=
  [v / 2 ^ 56 % 256, v / 2 ^ 48 % 256, v / 2 ^ 40 % 256, v / 2 ^ 32 % 256,
   v / 2 ^ 24 % 256, v / 2 ^ 16 % 256, v / 2 ^ 8 % 256, v % 256]

/-- Go's `binary.BigEndian.PutUint64(b, uint64(v))`; it panics when `len(b) < 8`. -/
def PutUint64 (b : List Nat) (v : Nat) : Option (List Nat) :=
  if b.length < 8 then none else some (be64 (v % 2 ^ 64) ++ b.drop 8)

/-- The statement `pos += f(.., buf[pos:])` for a writer `f` that returns the number of
bytes it produced: `f` sees the visible bytes of `buf` from `pos` on and its writes land
in `buf`. Slicing `buf[pos:]` panics when `pos` exceeds `len(buf)`. -/
def writeAt (buf : List Nat) (pos : Nat) (f : List Nat → Option (List Nat × Nat)) :
    Option (List Nat × Nat) :=
  if buf.length < pos then none else
    match f (buf.drop pos) with
    | none => none
    | some (t, n) => some (buf.take pos ++ t, pos + n)

/-- Outcome of a Go function whose loop is run with a step budget. -/
inductive Run (α : Type) where
  | done (a : α)
  | panic
  | outOfFuel
deriving DecidableEq

/-- The `k`-byte big-endian representation of `v`, most significant byte first
(the low `k` bytes of `v`). -/
def beBytes : Nat → Nat → List Nat
  | 0, _ => []
  | k + 1, v => beBytes k (v / 256) ++ [v % 256]

/-- The writer `f` produces the bytes `w` at the start of any destination of at least
`room` bytes: it does not panic, reports `len(w)` bytes and keeps the destination's length. -/
def Writes (f : List Nat → Option (List Nat × Nat)) (w : List Nat) (room : Nat) : Prop :=
  ∀ dst : List Nat, room ≤ dst.length →
    ∃ t, f dst = some (t, w.length) ∧ t.length = dst.length ∧ t.take w.length = w

end Go

/-! ## Errors -/

/-- Errors of the packet codec. `MalformedHashList` is the source's
"hashes len must be multiple of 33"; `hashesLen` and `hashLen` are the wrappers
"hashes len: %w" and "hash len: %w" of packets.go; `TruncatedPacket` and `BadLengthPrefix`
are the decode errors of the primitive codec named in the spec's error taxonomy, and
`WrongKind` is a string where a list is expected or a list where a string is. -/
inductive Err where
  | TruncatedPacket
  | BadLengthPrefix
  | WrongKind
  | MalformedHashList
  | hashesLen (cause : Err)
  | hashLen (cause : Err)
deriving DecidableEq

/-! ## Package rlp -/

namespace rlp

/-- `rlp.ListPrefixLen` (encodel.go:15). -/
def ListPrefixLen (dataLen : Nat) : Nat :=
  if dataLen ≥ 56 then 1 + (Go.Len64 dataLen + 7) / 8 else 1

/-- `rlp.EncodeListPrefix` (encodel.go:21). The second component is the number of prefix
bytes, which the callers in packets.go add to their write position. -/
def EncodeListPrefix (dataLen : Nat) (to_ : List Nat) : Option (List Nat × Nat) :=
  if dataLen ≥ 56 then
    -- _ = to[9]
    if to_.length ≤ 9 then none else
    let beLen := (Go.Len64 dataLen + 7) / 8
    -- binary.BigEndian.PutUint64(to[1:], uint64(dataLen))
    match Go.PutUint64 (to_.drop 1) dataLen with
    | none => none
    | some t =>
      -- to[8-beLen] = 247 + byte(beLen)
      match Go.setIdx (to_.take 1 ++ t) (8 - beLen) ((247 + beLen % 256) % 256) with
      | none => none
      | some to2 =>
        -- copy(to, to[8-beLen:9])
        some (Go.copy to2 ((to2.take 9).drop (8 - beLen)), 1 + beLen)
  else
    -- to[0] = 192 + byte(dataLen)
    match Go.setIdx to_ 0 ((192 + dataLen % 256) % 256) with
    | none => none
    | some to1 => some (to1, 1)

/-- `rlp.U64Len` (encodel.go:32). -/
def U64Len (i : Nat) : Nat :=
  if i > 128 then 1 + (Go.Len64 i + 7) / 8 else 1

/-- `rlp.EncodeU64` (encodel.go:39). The second component is the number of bytes of the
encoding, which the callers in packets.go add to their write position. -/
def EncodeU64 (i : Nat) (to_ : List Nat) : Option (List Nat × Nat) :=
  if i > 128 then
    let l := (Go.Len64 i + 7) / 8
    -- to[0] = 128 + byte(l)
    match Go.setIdx to_ 0 ((128 + l % 256) % 256) with
    | none => none
    | some to1 =>
      -- binary.BigEndian.PutUint64(to[1:], i)
      match Go.PutUint64 (to1.drop 1) i with
      | none => none
      | some t =>
        let to2 := to1.take 1 ++ t
        -- copy(to[1:], to[1+8-l:1+8])
        some (to2.take 1 ++ Go.copy (to2.drop 1) ((to2.take 9).drop (9 - l)), 1 + l)
  else if i = 0 then
    match Go.setIdx to_ 0 128 with
    | none => none
    | some to1 => some (to1, 1)
  else
    match Go.setIdx to_ 0 (i % 256) with
    | none => none
    | some to1 => some (to1, 1)

/-- `rlp.EncodeHash` (encodel.go:80) on a hash `h` that shares no storage with `to`
(`rlp.Shared.EncodeHash` is the function on slices of one memory). The second component is
the 33 bytes written, which the hash-list encoder adds to its write position. -/
def EncodeHash (h to_ : List Nat) : Option (List Nat × Nat) :=
  -- _ = to[32]
  if to_.length ≤ 32 then none else
  -- to[0] = 128 + 32
  let to1 := to_.set 0 (128 + 32)
  -- copy(to[1:33], h)
  some (to1.take 1 ++ Go.copy ((to1.take 33).drop 1) h ++ to1.drop 33, 33)

/-- Modelled from the spec: `rlp.BeInt` of the primitive codec library (rlp/parse.go is
not among the sources). It reads a big-endian integer of `length` bytes at `pos`, after
validating the remaining length, and refuses a non-minimal (leading zero) representation. -/
def BeInt (payload : List Nat) (pos length : Nat) : Except Err Nat :=
  if pos + length > payload.length then .error .TruncatedPacket
  else if length > 0 ∧ payload.getD pos 0 = 0 then .error .BadLengthPrefix
  else .ok (((payload.drop pos).take length).foldl (fun r b => r * 256 + b) 0)

/-- Modelled from the spec: `rlp.Prefix` of the primitive codec library (rlp/parse.go is
not among the sources). It decodes the header written by the encoders of encodel.go:
a first byte below 128 is a one-byte string; 128..183 a string of `first - 128` bytes;
184..191 a string with a big-endian length field of `first - 183` bytes; 192..247 a list
with `first - 192` payload bytes; 248..255 a list with a big-endian length field of
`first - 247` bytes. Result: `(dataPos, dataLen, isList)`. A read that would exceed the
input fails with `TruncatedPacket`; a length that is not in its minimal form (a length
field for less than 56 bytes, a prefixed single byte below 128) with `BadLengthPrefix`. -/
def Prefix (payload : List Nat) (pos : Nat) : Except Err (Nat × Nat × Bool) :=
  if pos ≥ payload.length then .error .TruncatedPacket else
  let first := payload.getD pos 0
  let hdr : Except Err (Nat × Nat × Bool) :=
    if first < 128 then .ok (pos, 1, false)
    else if first < 184 then
      if first - 128 = 1 ∧ pos + 1 < payload.length ∧ payload.getD (pos + 1) 0 < 128 then
        .error .BadLengthPrefix
      else .ok (pos + 1, first - 128, false)
    else if first < 192 then
      match BeInt payload (pos + 1) (first - 183) with
      | .error e => .error e
      | .ok dataLen =>
        if dataLen < 56 then .error .BadLengthPrefix
        else .ok (pos + 1 + (first - 183), dataLen, false)
    else if first < 248 then .ok (pos + 1, first - 192, true)
    else
      match BeInt payload (pos + 1) (first - 247) with
      | .error e => .error e
      | .ok dataLen =>
        if dataLen < 56 then .error .BadLengthPrefix
        else .ok (pos + 1 + (first - 247), dataLen, true)
  match hdr with
  | .error e => .error e
  | .ok (dataPos, dataLen, isList) =>
    if dataPos + dataLen > payload.length then .error .TruncatedPacket
    else .ok (dataPos, dataLen, isList)

/-- Modelled from the spec: `rlp.List` of the primitive codec library (rlp/parse.go is not
among the sources; named `parseList` here because `List` is Lean's list type). It decodes
a header that must be a list header. Result: `(dataPos, dataLen)`. -/
def parseList (payload : List Nat) (pos : Nat) : Except Err (Nat × Nat) :=
  match Prefix payload pos with
  | .error e => .error e
  | .ok (dataPos, dataLen, isList) =>
    if isList then .ok (dataPos, dataLen) else .error .WrongKind

/-- Modelled from the spec: `rlp.U64` of the primitive codec library (rlp/parse.go is not
among the sources). It decodes a string of at most 8 bytes as a big-endian unsigned
integer without leading zero. Result: `(newPos, value)`. -/
def U64 (payload : List Nat) (pos : Nat) : Except Err (Nat × Nat) :=
  match Prefix payload pos with
  | .error e => .error e
  | .ok (dataPos, dataLen, isList) =>
    if isList then .error .WrongKind
    else if dataLen > 8 then .error .BadLengthPrefix
    else if dataLen > 0 ∧ payload.getD dataPos 0 = 0 then .error .BadLengthPrefix
    else .ok (dataPos + dataLen,
      ((payload.drop dataPos).take dataLen).foldl (fun r b => r * 256 + b) 0)

/-- Modelled from the spec: `rlp.ParseHash` of the primitive codec library (rlp/parse.go is
not among the sources). A hash is a 1-byte short-string prefix followed by 32 payload
bytes; the 32 bytes are copied to `hashbuf`. Result: the contents of `hashbuf` and the
position after the hash. -/
def ParseHash (payload : List Nat) (pos : Nat) (hashbuf : List Nat) :
    Except Err (List Nat × Nat) :=
  match Prefix payload pos with
  | .error e => .error e
  | .ok (dataPos, dataLen, isList) =>
    if isList then .error .WrongKind
    else if dataLen ≠ 32 then .error .BadLengthPrefix
    else .ok (Go.copy hashbuf ((payload.drop dataPos).take 32), dataPos + 32)

/-- Loop of the hash-list encoder: `n` hashes remain, hash `i` goes to `to[pos:]`. -/
def encodeHashesLoop (hashes : List Nat) : Nat → Nat → List Nat → Nat → Option (List Nat × Nat)
  | 0, _, to_, pos => some (to_, pos)
  | n + 1, i, to_, pos =>
    match Go.writeAt to_ pos (EncodeHash (hashes.drop (32 * i))) with
    | none => none
    | some (to1, pos1) => encodeHashesLoop hashes n (i + 1) to1 pos1

/-- Modelled from the spec: `rlp.EncodeHashes`, which packets.go calls and encodel.go does
not contain. The hash list is a length-prefixed sequence of total byte length
`33 × count`: the list prefix for `len(hashes) / 32 * 33`, then each hash through
`EncodeHash` (a 1-byte short-string prefix and 32 payload bytes). Result: the contents
of the buffer and the number of bytes produced. -/
def EncodeHashes (hashes : List Nat) (to_ : List Nat) : Option (List Nat × Nat) :=
  let hashesLen := hashes.length / 32 * 33
  match Go.writeAt to_ 0 (EncodeListPrefix hashesLen) with
  | none => none
  | some (to1, pos) => encodeHashesLoop hashes (hashes.length / 32) 0 to1 pos

/-- The list prefix for a payload of `dataLen` bytes as the wire format states it: the
single byte `192 + dataLen` below 56, otherwise the byte `247 + k` followed by the `k`
big-endian length bytes, `k = ListPrefixLen dataLen - 1`. -/
def listPrefix (dataLen : Nat) : List Nat :=
  if dataLen < 56 then [192 + dataLen]
  else (247 + (ListPrefixLen dataLen - 1)) :: Go.beBytes (ListPrefixLen dataLen - 1) dataLen

/-- The payload of an encoded hash list: `n` consecutive 33-byte items, starting with hash
number `i`, each the byte 160 (128 + 32) followed by the 32 bytes of its hash. -/
def hashItems (hashes : List Nat) : Nat → Nat → List Nat
  | 0, _ => []
  | n + 1, i => (160 :: (hashes.drop (32 * i)).take 32) ++ hashItems hashes n (i + 1)

end rlp

/-! ## Package txpool -/

namespace txpool

open Go

/-- `ensureEnoughSize` (packets.go:66). -/
def ensureEnoughSize (in_ : Slice) (size : Nat) : Slice :=
  if in_.cap < size then
    -- newBuf := make([]byte, size); copy(newBuf, in)
    ⟨Go.copy (List.replicate size 0) in_.data, []⟩
  else
    -- in[:size]
    ⟨(in_.data ++ in_.spare).take size, (in_.data ++ in_.spare).drop size⟩

/-- `ParseHashesCount` (packets.go:29) over the list-header decoder `listFn` it calls.
Result: `(count, dataPos, err)`. -/
def ParseHashesCountWith (listFn : List Nat → Nat → Except Err (Nat × Nat))
    (payload : List Nat) (pos : Nat) : Nat × Nat × Option Err :=
  match listFn payload pos with
  | .error e => (0, 0, some (.hashesLen e))
  | .ok (dataPos, dataLen) =>
    if dataLen % 33 ≠ 0 then (0, 0, some .MalformedHashList)
    else (dataLen / 33, dataPos, none)

/-- `ParseHashesCount` (packets.go:29), calling `rlp.List`. -/
def ParseHashesCount (payload : List Nat) (pos : Nat) : Nat × Nat × Option Err :=
  ParseHashesCountWith rlp.parseList payload pos

/-- `EncodeHashes` (packets.go:44), over the encoder `enc` it calls as
`rlp.EncodeHashes(hashes, encodeBuf)`. -/
def EncodeHashesWith (enc : List Nat → List Nat → Option (List Nat × Nat))
    (hashes : List Nat) (encodeBuf : Slice) : Option Slice :=
  let hashesLen := hashes.length / 32 * 33
  let dataLen := hashesLen
  let encodeBuf := ensureEnoughSize encodeBuf (rlp.ListPrefixLen hashesLen + dataLen)
  match enc hashes encodeBuf.data with
  | none => none
  | some (d, _) => some { encodeBuf with data := d }

/-- `EncodeHashes` (packets.go:44), calling `rlp.EncodeHashes`. -/
def EncodeHashes (hashes : List Nat) (encodeBuf : Slice) : Option Slice :=
  EncodeHashesWith rlp.EncodeHashes hashes encodeBuf

/-- `ParseHash` (packets.go:57). Result: `(hashbuf, newPos, err)`, the buffer `nil` on error. -/
def ParseHash (payload : List Nat) (pos : Nat) (hashbuf : Slice) : Slice × Nat × Option Err :=
  let hashbuf := ensureEnoughSize hashbuf 32
  match rlp.ParseHash payload pos hashbuf.data with
  | .error e => (Slice.nil, 0, some (.hashLen e))
  | .ok (d, pos1) => ({ hashbuf with data := d }, pos1, none)

/-- `EncodeGetPooledTransactions66` (packets.go:76), over the encoder `enc` it calls as
`rlp.EncodeHashes(hashes, encodeBuf[pos:])`. -/
def EncodeGetPooledTransactions66With (enc : List Nat → List Nat → Option (List Nat × Nat))
    (hashes : List Nat) (requestId : Nat) (encodeBuf : Slice) : Option (Slice × Option Err) :=
  let pos := 0
  let hashesLen := hashes.length / 32 * 33
  let dataLen := rlp.ListPrefixLen hashesLen + hashesLen + rlp.U64Len requestId
  let encodeBuf := ensureEnoughSize encodeBuf (rlp.ListPrefixLen dataLen + dataLen)
  match writeAt encodeBuf.data pos (rlp.EncodeListPrefix dataLen) with
  | none => none
  | some (d1, pos1) =>
    match writeAt d1 pos1 (rlp.EncodeU64 requestId) with
    | none => none
    | some (d2, pos2) =>
      match writeAt d2 pos2 (enc hashes) with
      | none => none
      | some (d3, _) => some ({ encodeBuf with data := d3 }, none)

/-- `EncodeGetPooledTransactions66` (packets.go:76), calling `rlp.EncodeHashes`. -/
def EncodeGetPooledTransactions66 (hashes : List Nat) (requestId : Nat) (encodeBuf : Slice) :
    Option (Slice × Option Err) :=
  EncodeGetPooledTransactions66With rlp.EncodeHashes hashes requestId encodeBuf

/-- The loop `for i := 0; pos != len(payload); i++` shared by the two pull-request
parsers (packets.go:106 and :128). Result: `(hashes, pos, err)`; the slice expression
`hashes[i*32:]` panics when `i*32` exceeds `len(hashes)`. -/
def parseHashesLoop (payload : List Nat) : Nat → Nat → Nat → Slice → Run (Slice × Nat × Option Err)
  | 0, _, _, _ => .outOfFuel
  | fuel + 1, i, pos, hashes =>
    if pos = payload.length then .done (hashes, pos, none)
    else if hashes.len < i * 32 then .panic
    else
      match rlp.ParseHash payload pos (hashes.data.drop (i * 32)) with
      | .error e => .done (hashes, 0, some e)
      | .ok (t, pos1) =>
        parseHashesLoop payload fuel (i + 1) pos1 { hashes with data := hashes.data.take (i * 32) ++ t }

/-- `ParseGetPooledTransactions66` (packets.go:89). Result:
`(requestID, hashes, newPos, err)`. -/
def ParseGetPooledTransactions66 (payload : List Nat) (pos : Nat) (hashbuf : Slice) :
    Run (Nat × Slice × Nat × Option Err) :=
  match rlp.parseList payload pos with
  | .error e => .done (0, Slice.nil, 0, some e)
  | .ok (pos1, _) =>
    match rlp.U64 payload pos1 with
    | .error e => .done (0, Slice.nil, 0, some e)
    | .ok (pos2, requestID) =>
      match ParseHashesCount payload pos2 with
      | (_, _, some e) => .done (0, Slice.nil, 0, some e)
      | (hashesCount, pos3, none) =>
        let hashes := ensureEnoughSize hashbuf (32 * hashesCount)
        match parseHashesLoop payload (payload.length + 1) 0 pos3 hashes with
        | .outOfFuel => .outOfFuel
        | .panic => .panic
        | .done (hashes1, _, some e) => .done (0, hashes1, 0, some e)
        | .done (hashes1, pos4, none) => .done (requestID, hashes1, pos4, none)

/-- `ParseGetPooledTransactions65` (packets.go:115). Result: `(hashes, newPos, err)`. -/
def ParseGetPooledTransactions65 (payload : List Nat) (pos : Nat) (hashbuf : Slice) :
    Run (Slice × Nat × Option Err) :=
  match rlp.parseList payload pos with
  | .error e => .done (Slice.nil, 0, some e)
  | .ok (pos1, _) =>
    match ParseHashesCount payload pos1 with
    | (_, _, some e) => .done (Slice.nil, 0, some e)
    | (hashesCount, pos2, none) =>
      let hashes := ensureEnoughSize hashbuf (32 * hashesCount)
      match parseHashesLoop payload (payload.length + 1) 0 pos2 hashes with
      | .outOfFuel => .outOfFuel
      | .panic => .panic
      | .done (hashes1, _, some e) => .done (hashes1, 0, some e)
      | .done (hashes1, pos3, none) => .done (hashes1, pos3, none)

/-- The loop `for i := range txsRlp { copy(encodeBuf[pos:], txsRlp[i]); pos += len(txsRlp[i]) }`
of the two pull-response encoders (packets.go:150 and :167), on blobs that share no storage
with `encodeBuf`. -/
def copyBlobs : List (List Nat) → List Nat → Nat → Option (List Nat × Nat)
  | [], buf, pos => some (buf, pos)
  | tx :: rest, buf, pos =>
    if buf.length < pos then none
    else copyBlobs rest (buf.take pos ++ Go.copy (buf.drop pos) tx) (pos + tx.length)

/-- The loop `for i := range txsRlp { n += len(txsRlp[i]) }` (packets.go:139 and :160). -/
def blobsLen (txsRlp : List (List Nat)) : Nat :=
  txsRlp.foldl (fun n tx => n + tx.length) 0

/-- `EncodePooledTransactions66` (packets.go:136) on blobs that share no storage with
`encodeBuf` (`txpool.Shared.EncodePooledTransactions66` is the function on slices of one
memory). -/
def EncodePooledTransactions66 (txsRlp : List (List Nat)) (requestId : Nat) (encodeBuf : Slice) :
    Option Slice :=
  let pos := 0
  let txsRlpLen := blobsLen txsRlp
  let dataLen := rlp.U64Len requestId + rlp.ListPrefixLen txsRlpLen + txsRlpLen
  let encodeBuf := ensureEnoughSize encodeBuf (rlp.ListPrefixLen dataLen + dataLen)
  match writeAt encodeBuf.data pos (rlp.EncodeListPrefix dataLen) with
  | none => none
  | some (d1, pos1) =>
    match writeAt d1 pos1 (rlp.EncodeU64 requestId) with
    | none => none
    | some (d2, pos2) =>
      match writeAt d2 pos2 (rlp.EncodeListPrefix txsRlpLen) with
      | none => none
      | some (d3, pos3) =>
        match copyBlobs txsRlp d3 pos3 with
        | none => none
        | some (d4, _) => some { encodeBuf with data := d4 }

/-- `EncodePooledTransactions65` (packets.go:157) on blobs that share no storage with
`encodeBuf` (`txpool.Shared.EncodePooledTransactions65` is the function on slices of one
memory). -/
def EncodePooledTransactions65 (txsRlp : List (List Nat)) (encodeBuf : Slice) : Option Slice :=
  let pos := 0
  let dataLen := blobsLen txsRlp
  let encodeBuf := ensureEnoughSize encodeBuf (rlp.ListPrefixLen dataLen + dataLen)
  match writeAt encodeBuf.data pos (rlp.EncodeListPrefix dataLen) with
  | none => none
  | some (d1, pos1) =>
    match copyBlobs txsRlp d1 pos1 with
    | none => none
    | some (d2, _) => some { encodeBuf with data := d2 }

/-- Modelled from the spec: `NewSubPoolMarker` (pool.go is not among the sources;
pool_test.go calls it). The marker of five ordered eligibility flags is the binary number
whose bits are the flags, the first flag the most significant bit. -/
def NewSubPoolMarker (f1 f2 f3 f4 f5 : Bool) : Nat :=
  (if f1 then 0b10000 else 0) + (if f2 then 0b01000 else 0) + (if f3 then 0b00100 else 0) +
    (if f4 then 0b00010 else 0) + (if f5 then 0b00001 else 0)

/-- The marker of a vector of five flags, position 0 the first flag. -/
def markerOf (v : Fin 5 → Bool) : Nat :=
  NewSubPoolMarker (v 0) (v 1) (v 2) (v 3) (v 4)

/-- Modelled from the spec: the TransactionRecord (`MetaTx` of pool_test.go; pool.go is not
among the sources): its current marker `SubPool` and a handle of the transaction it
owns. -/
structure MetaTx where
  SubPool : Nat
  Tx : Nat
deriving DecidableEq

/-- Exchange of the entries `i` and `j` of an array-backed heap. -/
def heapSwap (h : List MetaTx) (i j : Nat) : List MetaTx :=
  match h[i]?, h[j]? with
  | some x, some y => (h.set i y).set j x
  | _, _ => h

/-- Modelled from the spec: the incremental restoring of the ordering ("sift toward
correct position") after an insert at index `j` of an array-backed heap: while the entry
at `j` has a parent `(j - 1) / 2` that it must precede (`less`), the two are exchanged.
The first argument bounds the number of exchanges. -/
def heapUp (less : MetaTx → MetaTx → Bool) : Nat → List MetaTx → Nat → List MetaTx
  | 0, h, _ => h
  | fuel + 1, h, j =>
    let i := (j - 1) / 2
    match h[j]?, h[i]? with
    | some x, some y => if i = j ∨ less x y = false then h else heapUp less fuel (heapSwap h i j) i
    | _, _ => h

/-- Insert into an array-backed heap: append, then sift up from the last index. -/
def heapPush (less : MetaTx → MetaTx → Bool) (h : List MetaTx) (x : MetaTx) : List MetaTx :=
  heapUp less (h.length + 1) (h ++ [x]) h.length

/-- Modelled from the spec: the Tier (`SubPool` of pool_test.go; pool.go is not among the
sources), a doubly-extremal priority structure over the same records: a best-ordering
view with the maximal marker at position 0 and a worst-ordering view with the minimal
marker at position 0. -/
structure SubPool where
  best : List MetaTx
  worst : List MetaTx
deriving DecidableEq

/-- Modelled from the spec: `NewSubPool`, the empty Tier. -/
def NewSubPool : SubPool := ⟨[], []⟩

/-- Modelled from the spec: `Add(record)` inserts and maintains both ordering views. -/
def SubPool.Add (p : SubPool) (r : MetaTx) : SubPool :=
  { best := heapPush (fun a b => decide (a.SubPool > b.SubPool)) p.best r,
    worst := heapPush (fun a b => decide (a.SubPool < b.SubPool)) p.worst r }

/-- Modelled from the spec: `Best()` returns the record with the maximal marker without
removing it; `none` is the failure `EmptyTier`. The second component is the Tier after
the call. -/
def SubPool.Best (p : SubPool) : Option MetaTx × SubPool :=
  (p.best.head?, p)

/-- Modelled from the spec: `Worst()` returns the record with the minimal marker without
removing it; `none` is the failure `EmptyTier`. The second component is the Tier after
the call. -/
def SubPool.Worst (p : SubPool) : Option MetaTx × SubPool :=
  (p.worst.head?, p)

/-- What the heap proofs need of an ordering `less`: it is asymmetric, and "not less"
is transitive. -/
structure LessOrder (less : MetaTx → MetaTx → Bool) : Prop where
  asymm : ∀ x y, less x y = true → less y x = false
  trans : ∀ x y z, less y x = false → less z y = false → less z x = false

/-- The heap condition of an array-backed heap: no entry must precede its parent. -/
def IsHeap (less : MetaTx → MetaTx → Bool) (h : List MetaTx) : Prop :=
  ∀ k x y, 0 < k → h[k]? = some x → h[(k - 1) / 2]? = some y → less x y = false

/-- The heap condition while the entry at `j` is sifted up: it holds everywhere except
between `j` and its parent, and the children of `j` respect the parent of `j`. -/
def UpInv (less : MetaTx → MetaTx → Bool) (h : List MetaTx) (j : Nat) : Prop :=
  (∀ k x y, 0 < k → k ≠ j → h[k]? = some x → h[(k - 1) / 2]? = some y → less x y = false) ∧
  (∀ k x z, 0 < k → (k - 1) / 2 = j → 0 < j → h[k]? = some x → h[(j - 1) / 2]? = some z →
    less x z = false)

end txpool


namespace rlp

/-- The bytes `EncodeU64` produces for `i`: above 128 the byte `128 + l` followed by the
`l` big-endian bytes of `i`, `l = U64Len i - 1`; the byte 128 for 0; the byte `i`
otherwise. -/
def u64Bytes (i : Nat) : List Nat :=
  if i > 128 then (128 + (U64Len i - 1)) :: Go.beBytes (U64Len i - 1) i
  else if i = 0 then [128] else [i]

end rlp

namespace rlp

/-- `rlp.EncodeString` (encodel.go:54). Result: the contents of `to` after the call. -/
def EncodeString (s to_ : List Nat) : Option (List Nat) :=
  if s.length > 56 then
    let beLen := (Go.Len64 s.length + 7) / 8
    -- binary.BigEndian.PutUint64(to[1:], uint64(len(s)))
    if to_.length < 1 then none else
    match Go.PutUint64 (to_.drop 1) s.length with
    | none => none
    | some t =>
      let to1 := to_.take 1 ++ t
      -- _ = to[beLen+len(s)]
      if to1.length ≤ beLen + s.length then none else
      -- to[8-beLen] = byte(beLen) + 183
      match Go.setIdx to1 (8 - beLen) ((beLen % 256 + 183) % 256) with
      | none => none
      | some to2 =>
        -- copy(to, to[8-beLen:9])
        let to3 := Go.copy to2 ((to2.take 9).drop (8 - beLen))
        -- copy(to[1+beLen:], s)
        some (to3.take (1 + beLen) ++ Go.copy (to3.drop (1 + beLen)) s)
  else if s.length = 0 then
    -- to[0] = 128
    Go.setIdx to_ 0 128
  else if s.length = 1 then
    -- _ = to[1]
    if to_.length ≤ 1 then none else
    -- if s[0] >= 128 { to[0] = 129 }
    let to1 := if s.getD 0 0 ≥ 128 then to_.set 0 129 else to_
    -- copy(to[1:], s)
    some (to1.take 1 ++ Go.copy (to1.drop 1) s)
  else
    -- _ = to[len(s)]
    if to_.length ≤ s.length then none else
    -- to[0] = byte(len(s)) + 128
    let to1 := to_.set 0 ((s.length % 256 + 128) % 256)
    -- copy(to[1:], s)
    some (to1.take 1 ++ Go.copy (to1.drop 1) s)

end rlp

namespace txpool

/-- Modelled from the spec: the failure modes of the Pool and its Tiers. -/
inductive PoolErr where
  | PoolFull
  | EmptyTier
deriving DecidableEq

/-- Modelled from the spec: the incremental restoring of the ordering ("sift toward
correct position") below index `i` of an array-backed heap: while the entry at `i` has a
child that must precede it, it is exchanged with the child that comes first. The first
argument bounds the number of exchanges. -/
def heapDown (less : MetaTx → MetaTx → Bool) : Nat → List MetaTx → Nat → List MetaTx
  | 0, h, _ => h
  | fuel + 1, h, i =>
    match h[i]?, h[2 * i + 1]? with
    | some x, some y1 =>
      let j := match h[2 * i + 2]? with
        | some y2 => if less y2 y1 then 2 * i + 2 else 2 * i + 1
        | none => 2 * i + 1
      match h[j]? with
      | some y => if less y x = false then h else heapDown less fuel (heapSwap h i j) j
      | none => h
    | _, _ => h

/-- Removal of the entry at position `i` of an array-backed heap: it is exchanged with
the last entry, the last entry is dropped, and the entry now at `i` is sifted down and
up. A position outside the heap removes nothing. -/
def heapRemove (less : MetaTx → MetaTx → Bool) (h : List MetaTx) (i : Nat) : List MetaTx :=
  if i < h.length then
    let h1 := (heapSwap h i (h.length - 1)).dropLast
    heapUp less h1.length (heapDown less h1.length h1 i) i
  else h

/-- Number of records of a Tier. -/
def SubPool.size (p : SubPool) : Nat := p.worst.length

/-- Modelled from the spec: `Remove(record)` removes a record from both ordering views.
The position handles the record carries are the positions of the record in the views. -/
def SubPool.Remove (p : SubPool) (r : MetaTx) : SubPool :=
  { best := heapRemove (fun a b => decide (a.SubPool > b.SubPool)) p.best (p.best.indexOf r),
    worst := heapRemove (fun a b => decide (a.SubPool < b.SubPool)) p.worst (p.worst.indexOf r) }

/-- Modelled from the spec: the three eligibility classes. -/
inductive TierId where
  | Pending
  | BaseFee
  | Queued
deriving DecidableEq

/-- Modelled from the spec: the Pool owns three Tiers, each bounded by a configured
maximum record count. -/
structure Pool where
  pending : SubPool
  baseFee : SubPool
  queued : SubPool
  limit : TierId → Nat

/-- The Tier of an eligibility class. -/
def Pool.tier (p : Pool) : TierId → SubPool
  | .Pending => p.pending
  | .BaseFee => p.baseFee
  | .Queued => p.queued

/-- The Pool with the Tier of one eligibility class replaced. -/
def Pool.setTier (p : Pool) (id : TierId) (t : SubPool) : Pool :=
  match id with
  | .Pending => { p with pending := t }
  | .BaseFee => { p with baseFee := t }
  | .Queued => { p with queued := t }

/-- Whether a transaction is already tracked by a record of some Tier. -/
def Pool.tracked (p : Pool) (tx : Nat) : Bool :=
  (p.pending.worst ++ p.baseFee.worst ++ p.queued.worst).any (fun r => r.Tx == tx)

/-- Modelled from the spec: `Pool.Add(transaction)` (pool.go is not among the sources).
It asks the oracle for the five eligibility flags, builds the marker, and selects the
destination Tier by the classification rule `classify`. An already tracked transaction
is a successful no-op. Below capacity the record is inserted. At capacity the new marker
is compared with the destination's `Worst()`: if strictly higher, `Worst()` is evicted and
the new record inserted; otherwise the Pool is left as it is and `PoolFull` reported. -/
def Pool.Add (oracle : Nat → Fin 5 → Bool) (classify : (Fin 5 → Bool) → TierId)
    (p : Pool) (tx : Nat) : Pool × Option PoolErr :=
  if p.tracked tx then (p, none)
  else
    let r : MetaTx := ⟨markerOf (oracle tx), tx⟩
    let id := classify (oracle tx)
    let t := p.tier id
    if t.size < p.limit id then (p.setTier id (t.Add r), none)
    else
      match t.Worst.1 with
      | none => (p, some .PoolFull)
      | some w =>
        if w.SubPool < r.SubPool then (p.setTier id ((t.Remove w).Add r), none)
        else (p, some .PoolFull)

end txpool

namespace txpool

/-- The heap condition while the entry at `i` is sifted down: it holds on every edge that
does not touch `i`, and the children of `i` respect the parent of `i`. -/
def DownInv (less : MetaTx → MetaTx → Bool) (h : List MetaTx) (i : Nat) : Prop :=
  (∀ k x y, 0 < k → k ≠ i → (k - 1) / 2 ≠ i → h[k]? = some x → h[(k - 1) / 2]? = some y →
    less x y = false) ∧
  (∀ k x z, 0 < k → (k - 1) / 2 = i → 0 < i → h[k]? = some x → h[(i - 1) / 2]? = some z →
    less x z = false)

end txpool

namespace txpool

/-- A Tier is well formed when both views satisfy the heap condition of their ordering
and hold the same records. -/
def SubPool.WF (t : SubPool) : Prop :=
  IsHeap (fun a b => decide (a.SubPool > b.SubPool)) t.best ∧
  IsHeap (fun a b => decide (a.SubPool < b.SubPool)) t.worst ∧
  t.best.Perm t.worst

end txpool

namespace txpool

/-- Modelled from the spec: the message kind of an outbound message; hash announcements
carry `NEW_POOLED_TRANSACTION_HASHES_66` (fetch_test.go). -/
inductive MessageId where
  | NEW_POOLED_TRANSACTION_HASHES_66
  | GET_POOLED_TRANSACTIONS_66
  | POOLED_TRANSACTIONS_66
deriving DecidableEq

/-- Modelled from the spec: an outbound message is addressed to "all peers", "a peer
subset" (chosen at random by the transport) or "a specific peer id". -/
inductive Target where
  | AllPeers
  | RandomPeers
  | PeerId (id : Nat)
deriving DecidableEq

/-- Modelled from the spec: what the peer transport accepts, `send(kind, payload, target)`. -/
structure Outbound where
  Id : MessageId
  Data : List Nat
  To : Target
deriving DecidableEq

/-- Modelled from the spec: the loop of the announcement workers of Send (send.go is not
among the sources). While hashes remain, the next chunk of at most `limit` hashes
(`32 * limit` bytes) is taken off the front, encoded with `EncodeHashes` into a fresh
buffer, and sent as one announcement packet to each of `targets`, in order. The result
is the sequence of sends issued; a panic of the encoder is a panic of the loop. -/
def announceLoop (limit : Nat) (targets : List Target) : Nat → List Nat → Go.Run (List Outbound)
  | 0, _ => .outOfFuel
  | fuel + 1, txs =>
    if txs.length = 0 then .done []
    else
      let pending := if txs.length > 32 * limit then txs.take (32 * limit) else txs
      let rest := if txs.length > 32 * limit then txs.drop (32 * limit) else []
      match EncodeHashes pending Go.Slice.nil with
      | none => .panic
      | some data =>
        match announceLoop limit targets fuel rest with
        | .done out =>
          .done (targets.map (fun t => ⟨.NEW_POOLED_TRANSACTION_HASHES_66, data.data, t⟩) ++ out)
        | .panic => .panic
        | .outOfFuel => .outOfFuel

/-- Modelled from the spec: `BroadcastRemote(hashes)` announces to a random subset of the
connected peers; a hash list above the per-packet item limit is split into consecutive
chunks, one announcement packet per chunk. -/
def BroadcastRemote (limit : Nat) (hashes : List Nat) : Go.Run (List Outbound) :=
  announceLoop limit [.RandomPeers] (hashes.length + 1) hashes

/-- Modelled from the spec: `BroadcastLocal(hashes)` announces to all connected peers. -/
def BroadcastLocal (limit : Nat) (hashes : List Nat) : Go.Run (List Outbound) :=
  announceLoop limit [.AllPeers] (hashes.length + 1) hashes

/-- The `n` calls of `ParseHash` that read the hashes of an announcement, call `i`
starting where call `i - 1` ended; the hashes read are appended to `acc`. -/
def decodeHashesLoop (payload : List Nat) : Nat → Nat → List Nat → Except Err (List Nat)
  | 0, _, acc => .ok acc
  | n + 1, pos, acc =>
    match ParseHash payload pos Go.Slice.nil with
    | (_, _, some e) => .error e
    | (buf, pos1, none) => decodeHashesLoop payload n pos1 (acc ++ buf.data)

/-- Modelled from the spec: the decoding of a hash announcement by its receiver,
`ParseHashesCount` followed by one `ParseHash` per announced hash. Result: the hashes,
32 bytes each. -/
def decodeHashes (payload : List Nat) : Except Err (List Nat) :=
  match ParseHashesCount payload 0 with
  | (_, _, some e) => .error e
  | (n, pos, none) => decodeHashesLoop payload n pos []

end txpool

namespace txpool

/-- The bytes of the announcement of a hash list as the wire format states them: the list
prefix for `33 × count` bytes, then one 33-byte item per hash. -/
def announcement (hashes : List Nat) : List Nat :=
  rlp.listPrefix (hashes.length / 32 * 33) ++ rlp.hashItems hashes (hashes.length / 32) 0

end txpool

/-! ## Slices of one memory

The definitions above take the slice arguments of a Go function as values, which is what
the function computes when its arguments share no storage. The definitions of the
namespaces `Shared` below take them as slice headers over one byte memory, so that an
argument may lie in the storage another argument is written to. -/

namespace Go

/-- A Go slice header over a byte memory: the slice shows the `len` bytes at offset `off`
and its backing storage is the `cap` bytes at offset `off`. -/
structure Ref where
  off : Nat
  len : Nat
  cap : Nat
deriving DecidableEq

/-- The bytes a slice shows in the memory `m`. -/
def Ref.bytes (r : Ref) (m : List Nat) : List Nat := (m.drop r.off).take r.len

/-- The Go `[]byte` value a slice header denotes in the memory `m`. -/
def Ref.slice (r : Ref) (m : List Nat) : Slice :=
  ⟨(m.drop r.off).take r.len, (m.drop (r.off + r.len)).take (r.cap - r.len)⟩

/-- The memory `m` with the bytes `d` stored from the start of the slice `r`. -/
def Ref.store (r : Ref) (m d : List Nat) : List Nat :=
  m.take r.off ++ d ++ m.drop (r.off + d.length)

/-- Go's slice expression `r[a:b]`. -/
def Ref.sub (r : Ref) (a b : Nat) : Ref := ⟨r.off + a, b - a, r.cap - a⟩

/-- The slice is well formed and its storage lies in the memory `m`. -/
def Ref.In (r : Ref) (m : List Nat) : Prop := r.len ≤ r.cap ∧ r.off + r.cap ≤ m.length

instance (r : Ref) (m : List Nat) : Decidable (r.In m) := by
  unfold Ref.In; infer_instance

/-- The slices `a` and `b` share no storage. -/
def Ref.Disjoint (a b : Ref) : Prop := a.off + a.cap ≤ b.off ∨ b.off + b.cap ≤ a.off

instance (a b : Ref) : Decidable (a.Disjoint b) := by
  unfold Ref.Disjoint; infer_instance

/-- Go's builtin `copy(dst, src)` on slices of one memory, as the new memory: the source
bytes are read before any byte is written (the builtin handles overlap). -/
def copyRef (m : List Nat) (dst src : Ref) : List Nat :=
  dst.store m (Go.copy (dst.bytes m) (src.bytes m))

/-- The statement `pos += f(.., buf[pos:])` on a slice of the memory `m`, for a writer `f`
whose only slice argument is the destination. Result: the new memory and position. -/
def writeAtRef (m : List Nat) (buf : Ref) (pos : Nat)
    (f : List Nat → Option (List Nat × Nat)) : Option (List Nat × Nat) :=
  if buf.len < pos then none else
    match f ((buf.sub pos buf.len).bytes m) with
    | none => none
    | some (t, n) => some ((buf.sub pos buf.len).store m t, pos + n)

end Go

namespace rlp.Shared

/-- `rlp.EncodeHash` (encodel.go:80) on slices of one memory. Result: the new memory and
the 33 bytes written. -/
def EncodeHash (m : List Nat) (h to_ : Go.Ref) : Option (List Nat × Nat) :=
  -- _ = to[32]
  if to_.len ≤ 32 then none else
  -- to[0] = 128 + 32
  let m1 := m.set to_.off (128 + 32)
  -- copy(to[1:33], h)
  some (Go.copyRef m1 (to_.sub 1 33) h, 33)

/-- Modelled from the spec: `rlp.EncodeHashes` on slices of one memory, the hashes read
before the encoding is written. -/
def EncodeHashes (m : List Nat) (hashes to_ : Go.Ref) : Option (List Nat × Nat) :=
  match rlp.EncodeHashes (hashes.bytes m) (to_.bytes m) with
  | none => none
  | some (t, n) => some (to_.store m t, n)

end rlp.Shared

namespace txpool.Shared

open Go

/-- `ensureEnoughSize` (packets.go:66) on a slice of the memory `m`. Result: the new memory
and the slice returned; `make` takes fresh storage at the end of the memory. -/
def ensureEnoughSize (m : List Nat) (in_ : Ref) (size : Nat) : List Nat × Ref :=
  if in_.cap < size then
    -- newBuf := make([]byte, size); copy(newBuf, in)
    (m ++ Go.copy (List.replicate size 0) (in_.bytes m), ⟨m.length, size, size⟩)
  else
    -- in[:size]
    (m, ⟨in_.off, size, in_.cap⟩)

/-- The loop `for i := range txsRlp { copy(encodeBuf[pos:], txsRlp[i]); pos += len(txsRlp[i]) }`
(packets.go:150 and :167) on slices of one memory. -/
def copyBlobs : List Ref → List Nat → Ref → Nat → Option (List Nat × Nat)
  | [], m, _, pos => some (m, pos)
  | tx :: rest, m, buf, pos =>
    if buf.len < pos then none
    else copyBlobs rest (copyRef m (buf.sub pos buf.len) tx) buf (pos + tx.len)

/-- The loop `for i := range txsRlp { n += len(txsRlp[i]) }` (packets.go:139 and :160). -/
def blobsLen (txsRlp : List Ref) : Nat :=
  txsRlp.foldl (fun n tx => n + tx.len) 0

/-- `EncodePooledTransactions65` (packets.go:157) on slices of one memory. Result: the new
memory and the slice returned. -/
def EncodePooledTransactions65 (m : List Nat) (txsRlp : List Ref) (encodeBuf : Ref) :
    Option (List Nat × Ref) :=
  let pos := 0
  let dataLen := blobsLen txsRlp
  let (m0, encodeBuf) := ensureEnoughSize m encodeBuf (rlp.ListPrefixLen dataLen + dataLen)
  match writeAtRef m0 encodeBuf pos (rlp.EncodeListPrefix dataLen) with
  | none => none
  | some (m1, pos1) =>
    match copyBlobs txsRlp m1 encodeBuf pos1 with
    | none => none
    | some (m2, _) => some (m2, encodeBuf)

/-- `EncodePooledTransactions66` (packets.go:136) on slices of one memory. -/
def EncodePooledTransactions66 (m : List Nat) (txsRlp : List Ref) (requestId : Nat)
    (encodeBuf : Ref) : Option (List Nat × Ref) :=
  let pos := 0
  let txsRlpLen := blobsLen txsRlp
  let dataLen := rlp.U64Len requestId + rlp.ListPrefixLen txsRlpLen + txsRlpLen
  let (m0, encodeBuf) := ensureEnoughSize m encodeBuf (rlp.ListPrefixLen dataLen + dataLen)
  match writeAtRef m0 encodeBuf pos (rlp.EncodeListPrefix dataLen) with
  | none => none
  | some (m1, pos1) =>
    match writeAtRef m1 encodeBuf pos1 (rlp.EncodeU64 requestId) with
    | none => none
    | some (m2, pos2) =>
      match writeAtRef m2 encodeBuf pos2 (rlp.EncodeListPrefix txsRlpLen) with
      | none => none
      | some (m3, pos3) =>
        match copyBlobs txsRlp m3 encodeBuf pos3 with
        | none => none
        | some (m4, _) => some (m4, encodeBuf)

/-- `EncodeHashes` (packets.go:44) on slices of one memory, over the encoder `enc` it calls
as `rlp.EncodeHashes(hashes, encodeBuf)`. -/
def EncodeHashesWith (enc : List Nat → Ref → Ref → Option (List Nat × Nat))
    (m : List Nat) (hashes encodeBuf : Ref) : Option (List Nat × Ref) :=
  let hashesLen := hashes.len / 32 * 33
  let dataLen := hashesLen
  let (m0, encodeBuf) := ensureEnoughSize m encodeBuf (rlp.ListPrefixLen hashesLen + dataLen)
  match enc m0 hashes encodeBuf with
  | none => none
  | some (m1, _) => some (m1, encodeBuf)

/-- `EncodeGetPooledTransactions66` (packets.go:76) on slices of one memory, over the
encoder `enc` it calls as `rlp.EncodeHashes(hashes, encodeBuf[pos:])`. -/
def EncodeGetPooledTransactions66With (enc : List Nat → Ref → Ref → Option (List Nat × Nat))
    (m : List Nat) (hashes : Ref) (requestId : Nat) (encodeBuf : Ref) :
    Option ((List Nat × Ref) × Option Err) :=
  let pos := 0
  let hashesLen := hashes.len / 32 * 33
  let dataLen := rlp.ListPrefixLen hashesLen + hashesLen + rlp.U64Len requestId
  let (m0, encodeBuf) := ensureEnoughSize m encodeBuf (rlp.ListPrefixLen dataLen + dataLen)
  match writeAtRef m0 encodeBuf pos (rlp.EncodeListPrefix dataLen) with
  | none => none
  | some (m1, pos1) =>
    match writeAtRef m1 encodeBuf pos1 (rlp.EncodeU64 requestId) with
    | none => none
    | some (m2, pos2) =>
      match enc m2 hashes (encodeBuf.sub pos2 encodeBuf.len) with
      | none => none
      | some (m3, _) => some ((m3, encodeBuf), none)

/-- The contract of an encoder `enc` called as `rlp.EncodeHashes(hashes, to)`, for the
hashes `H` held by the slice `hashes`: on every destination of at least `room` bytes that
shares no storage with `hashes` it does not panic, writes the bytes `w` at the start of
the destination, reports `len(w)` bytes and writes nowhere else. -/
def WritesHashes (enc : List Nat → Ref → Ref → Option (List Nat × Nat)) (hashes : Ref)
    (H w : List Nat) (room : Nat) : Prop :=
  ∀ (m : List Nat) (dst : Ref), dst.In m → hashes.In m → hashes.Disjoint dst →
    hashes.bytes m = H → room ≤ dst.len →
    ∃ t, enc m hashes dst = some (dst.store m t, w.length) ∧ t.length = dst.len ∧
      t.take w.length = w

end txpool.Shared

/-! ## Bit length and big-endian bytes -/

namespace Go

theorem bitLen_zero (fuel : Nat) : bitLen fuel 0 = 0 := by
  cases fuel <;> simp [bitLen]

theorem bitLen_bounds (fuel : Nat) : ∀ x, 0 < x → x < 2 ^ fuel →
    2 ^ (bitLen fuel x - 1) ≤ x ∧ x < 2 ^ bitLen fuel x := by
  induction fuel with
  | zero => intro x h0 h1; simp at h1; omega
  | succ f ih =>
    intro x h0 h1
    have hx : x ≠ 0 := by omega
    simp only [bitLen, hx, if_false, Nat.add_sub_cancel]
    by_cases h2 : x / 2 = 0
    · have : x = 1 := by omega
      subst this
      simp [bitLen_zero]
    · have h3 : x / 2 < 2 ^ f := by
        rw [Nat.div_lt_iff_lt_mul (by norm_num)]
        rw [pow_succ] at h1; exact h1
      obtain ⟨l, r⟩ := ih (x / 2) (by omega) h3
      have hpos : 0 < bitLen f (x / 2) := by
        rcases Nat.eq_zero_or_pos (bitLen f (x / 2)) with h | h
        · rw [h] at r; simp at r; omega
        · exact h
      constructor
      · have : 2 ^ bitLen f (x / 2) = 2 ^ (bitLen f (x / 2) - 1) * 2 := by
          rw [← pow_succ]; congr 1; omega
        rw [this]; omega
      · rw [pow_succ]; omega

theorem bitLen_le (fuel x : Nat) : bitLen fuel x ≤ fuel := by
  induction fuel generalizing x with
  | zero => simp [bitLen]
  | succ f ih =>
    simp only [bitLen]
    split
    · omega
    · have := ih (x / 2); omega

theorem Len64_bounds (d : Nat) (h0 : 0 < d) (h1 : d < 2 ^ 64) :
    1 ≤ (Len64 d + 7) / 8 ∧ (Len64 d + 7) / 8 ≤ 8 ∧
    256 ^ ((Len64 d + 7) / 8 - 1) ≤ d ∧ d < 256 ^ ((Len64 d + 7) / 8) := by
  have hmod : d % 2 ^ 64 = d := Nat.mod_eq_of_lt h1
  unfold Len64
  rw [hmod]
  obtain ⟨l, r⟩ := bitLen_bounds 64 d h0 h1
  have hle := bitLen_le 64 d
  have hpos : 0 < bitLen 64 d := by
    rcases Nat.eq_zero_or_pos (bitLen 64 d) with h | h
    · rw [h] at r; simp at r; omega
    · exact h
  generalize bitLen 64 d = L at *
  have e : (256 : Nat) = 2 ^ 8 := by norm_num
  refine ⟨by omega, by omega, ?_, ?_⟩
  · rw [e, ← pow_mul]
    exact le_trans (Nat.pow_le_pow_right (by norm_num) (by omega)) l
  · rw [e, ← pow_mul]
    exact lt_of_lt_of_le r (Nat.pow_le_pow_right (by norm_num) (by omega))

theorem be64_drop (k d : Nat) (hk : k ≤ 8) : (be64 d).drop (8 - k) = beBytes k d := by
  interval_cases k <;> simp [be64, beBytes, Nat.div_div_eq_div_mul]

theorem beBytes_length (k d : Nat) : (beBytes k d).length = k := by
  induction k generalizing d with
  | zero => rfl
  | succ k ih => simp [beBytes, ih]

theorem beBytes_fold (k d : Nat) :
    (beBytes k d).foldl (fun r b => r * 256 + b) 0 = d % 256 ^ k := by
  induction k generalizing d with
  | zero => simp [beBytes, Nat.mod_one]
  | succ k ih =>
    simp only [beBytes, List.foldl_append, List.foldl_cons, List.foldl_nil, ih]
    rw [pow_succ, Nat.mul_comm (256 ^ k) 256, Nat.mod_mul]
    ring

theorem beBytes_getD_zero (k d : Nat) : (beBytes (k + 1) d).getD 0 0 = d / 256 ^ k % 256 := by
  induction k generalizing d with
  | zero => simp [beBytes]
  | succ k ih =>
    have hne : beBytes (k + 1) (d / 256) ≠ [] := by
      intro h
      have := beBytes_length (k + 1) (d / 256)
      rw [h] at this; simp at this
    have e : beBytes (k + 1 + 1) d = beBytes (k + 1) (d / 256) ++ [d % 256] := rfl
    rw [e]
    obtain ⟨x, xs, hx⟩ := List.exists_cons_of_ne_nil hne
    have := ih (d / 256)
    rw [hx] at this ⊢
    simp only [List.cons_append, List.getD_cons_zero] at this ⊢
    rw [this, Nat.div_div_eq_div_mul, pow_succ, Nat.mul_comm]

/-- The first byte of the minimal representation is not zero. -/
theorem beBytes_head (k d : Nat) (hk : 1 ≤ k) (hl : 256 ^ (k - 1) ≤ d) (hu : d < 256 ^ k) :
    (beBytes k d).getD 0 0 ≠ 0 := by
  obtain ⟨j, rfl⟩ : ∃ j, k = j + 1 := ⟨k - 1, by omega⟩
  rw [beBytes_getD_zero]
  simp only [Nat.add_sub_cancel] at hl
  have h1 : 1 ≤ d / 256 ^ j := (Nat.one_le_div_iff (by positivity)).2 hl
  have h2 : d / 256 ^ j < 256 := by
    rw [Nat.div_lt_iff_lt_mul (by positivity)]
    rw [pow_succ, Nat.mul_comm] at hu
    exact hu
  rw [Nat.mod_eq_of_lt h2]; omega

end Go

/-! ## The list prefix -/

namespace rlp

theorem listPrefix_length (d : Nat) : (listPrefix d).length = ListPrefixLen d := by
  unfold listPrefix ListPrefixLen
  by_cases h : d < 56
  · have : ¬ d ≥ 56 := by omega
    simp [h, this]
  · have : d ≥ 56 := by omega
    simp [h, this, Go.beBytes_length]
    omega

theorem EncodeListPrefix_short (d : Nat) (to_ : List Nat) (h : d < 56) (hlen : 1 ≤ to_.length) :
    EncodeListPrefix d to_ = some ((192 + d) :: to_.drop 1, 1) := by
  have h1 : ¬ d ≥ 56 := by omega
  have h2 : d % 256 = d := Nat.mod_eq_of_lt (by omega)
  have h3 : (192 + d) % 256 = 192 + d := Nat.mod_eq_of_lt (by omega)
  rcases to_ with _ | ⟨a, r⟩
  · simp at hlen
  · simp [EncodeListPrefix, h1, Go.setIdx, h2, h3]

theorem EncodeListPrefix_long (d : Nat) (to_ : List Nat) (h56 : 56 ≤ d) (h64 : d < 2 ^ 64)
    (hlen : 10 ≤ to_.length) :
    ∃ t, EncodeListPrefix d to_ = some (t, ListPrefixLen d) ∧ t.length = to_.length ∧
      t.take (ListPrefixLen d) = listPrefix d ∧ t.drop 9 = to_.drop 9 := by
  obtain ⟨hk1, hk8, -, -⟩ := Go.Len64_bounds d (by omega) h64
  have hmod : d % 18446744073709551616 = d := Nat.mod_eq_of_lt (by norm_num at h64; exact h64)
  have h1 : ¬ d < 56 := by omega
  rcases to_ with _ | ⟨a0, _ | ⟨a1, _ | ⟨a2, _ | ⟨a3, _ | ⟨a4, _ | ⟨a5, _ | ⟨a6, _ | ⟨a7, _ | ⟨a8, _ | ⟨a9, r⟩⟩⟩⟩⟩⟩⟩⟩⟩⟩ <;>
    simp at hlen
  unfold EncodeListPrefix listPrefix ListPrefixLen
  simp only [ge_iff_le, h56, if_true, h1, if_false, Nat.add_sub_cancel_left]
  generalize (Go.Len64 d + 7) / 8 = k at hk1 hk8
  have hl : ¬ (r.length + 1 + 1 + 1 + 1 + 1 + 1 + 1 + 1 + 1 < 8) := by omega
  interval_cases k <;>
    simp [Go.PutUint64, Go.setIdx, Go.copy, Go.be64, Go.beBytes, hmod, hl, Nat.div_div_eq_div_mul]

end rlp

/-! ## Writers -/

namespace Go

theorem take_add_append (l m : List Nat) (pos n : Nat) (hl : l.length = pos) :
    (l ++ m).take (pos + n) = l ++ m.take n := by
  subst hl
  exact List.take_append n

theorem copy_take (dst src : List Nat) (h : src.length ≤ dst.length) :
    (copy dst src).take src.length = src := by
  unfold copy
  rw [List.take_of_length_le h, List.take_append_of_le_length (le_refl _), List.take_length]

theorem writeAt_of_writes (f : List Nat → Option (List Nat × Nat)) (w : List Nat) (room : Nat)
    (hf : Writes f w room) (buf : List Nat) (pos : Nat) (hroom : pos + room ≤ buf.length) :
    ∃ b, writeAt buf pos f = some (b, pos + w.length) ∧ b.length = buf.length ∧
      b.take (pos + w.length) = buf.take pos ++ w := by
  have hpos : pos ≤ buf.length := by omega
  obtain ⟨t, h1, h2, h3⟩ := hf (buf.drop pos) (by simp; omega)
  refine ⟨buf.take pos ++ t, ?_, ?_, ?_⟩
  · have : ¬ buf.length < pos := by omega
    simp [writeAt, this, h1]
  · simp [h2]; omega
  · have hl : (buf.take pos).length = pos := by simp; omega
    rw [take_add_append _ _ _ _ hl, h3]

theorem eq_of_take_length (b e : List Nat) (h : b.take e.length = e) (hl : b.length = e.length) :
    b = e := by
  rw [← h, ← hl, List.take_length]

end Go

namespace rlp

theorem EncodeListPrefix_writes (d : Nat) (h64 : d < 2 ^ 64) :
    Go.Writes (EncodeListPrefix d) (listPrefix d) (if d < 56 then 1 else 10) := by
  intro dst hroom
  by_cases h : d < 56
  · simp only [h, if_true] at hroom
    refine ⟨(192 + d) :: dst.drop 1, ?_, ?_, ?_⟩
    · rw [EncodeListPrefix_short d dst h hroom]; simp [listPrefix, h]
    · simp; omega
    · simp [listPrefix, h]
  · simp only [h, if_false] at hroom
    obtain ⟨t, h1, h2, h3, -⟩ := EncodeListPrefix_long d dst (by omega) h64 hroom
    exact ⟨t, by rw [h1, listPrefix_length], h2, by rw [listPrefix_length, h3]⟩

theorem EncodeHash_eq (h dst : List Nat) (hh : 32 ≤ h.length) (hroom : 33 ≤ dst.length) :
    EncodeHash h dst = some (160 :: h.take 32 ++ dst.drop 33, 33) := by
  have h1 : ¬ dst.length ≤ 32 := by omega
  rcases dst with _ | ⟨a, r⟩
  · simp at hroom
  · simp only [List.length_cons] at hroom
    have h2 : (List.take 32 r).length = 32 := by simp; omega
    have h3 : List.drop h.length (List.take 32 r) = [] := by
      apply List.drop_of_length_le; omega
    simp [EncodeHash, h1, Go.copy, h2, h3]
    omega

theorem EncodeHash_writes (h : List Nat) (hh : 32 ≤ h.length) :
    Go.Writes (EncodeHash h) (160 :: h.take 32) 33 := by
  intro dst hroom
  have hl : (160 :: List.take 32 h).length = 33 := by simp; omega
  refine ⟨160 :: h.take 32 ++ dst.drop 33, ?_, ?_, ?_⟩
  · rw [EncodeHash_eq h dst hh hroom, hl]
  · simp; omega
  · rw [List.take_append_of_le_length (by omega), List.take_length]

end rlp

/-! ## The hash list -/

namespace rlp

theorem hashItems_length (hashes : List Nat) (n i : Nat) (h : 32 * (i + n) ≤ hashes.length) :
    (hashItems hashes n i).length = 33 * n := by
  induction n generalizing i with
  | zero => rfl
  | succ n ih =>
    have := ih (i + 1) (by omega)
    simp [hashItems, this]
    omega

theorem encodeHashesLoop_spec (hashes : List Nat) (n : Nat) :
    ∀ (i : Nat) (buf : List Nat) (pos : Nat), 32 * (i + n) ≤ hashes.length →
      pos + 33 * n ≤ buf.length →
      ∃ b, encodeHashesLoop hashes n i buf pos = some (b, pos + 33 * n) ∧
        b.length = buf.length ∧
        b.take (pos + 33 * n) = buf.take pos ++ hashItems hashes n i := by
  induction n with
  | zero =>
    intro i buf pos _ _
    exact ⟨buf, by simp [encodeHashesLoop], rfl, by simp [hashItems]⟩
  | succ n ih =>
    intro i buf pos hh hb
    have hw := EncodeHash_writes (hashes.drop (32 * i)) (by simp; omega)
    obtain ⟨b1, e1, l1, t1⟩ := Go.writeAt_of_writes _ _ _ hw buf pos (by omega)
    have hl : (160 :: List.take 32 (List.drop (32 * i) hashes)).length = 33 := by
      simp; omega
    rw [hl] at e1 t1
    obtain ⟨b2, e2, l2, t2⟩ := ih (i + 1) b1 (pos + 33) (by omega) (by omega)
    refine ⟨b2, ?_, by omega, ?_⟩
    · simp only [encodeHashesLoop, e1, e2]
      congr 2; omega
    · have : pos + 33 * (n + 1) = pos + 33 + 33 * n := by omega
      rw [this, t2, t1]
      simp [hashItems]

theorem EncodeHashes_writes (hashes : List Nat) (h64 : hashes.length / 32 * 33 < 2 ^ 64) :
    Go.Writes (EncodeHashes hashes)
      (listPrefix (hashes.length / 32 * 33) ++ hashItems hashes (hashes.length / 32) 0)
      (ListPrefixLen (hashes.length / 32 * 33) + hashes.length / 32 * 33) := by
  intro dst hroom
  have hPL : 1 ≤ ListPrefixLen (hashes.length / 32 * 33) := by
    unfold ListPrefixLen; split <;> omega
  have hroom1 : 0 + (if hashes.length / 32 * 33 < 56 then 1 else 10) ≤ dst.length := by
    split <;> omega
  obtain ⟨b1, e1, l1, t1⟩ :=
    Go.writeAt_of_writes _ _ _ (EncodeListPrefix_writes _ h64) dst 0 hroom1
  rw [listPrefix_length] at e1 t1
  have hn : 32 * (0 + hashes.length / 32) ≤ hashes.length := by
    have := Nat.div_mul_le_self hashes.length 32
    omega
  obtain ⟨b2, e2, l2, t2⟩ := encodeHashesLoop_spec hashes (hashes.length / 32) 0 b1
    (0 + ListPrefixLen (hashes.length / 32 * 33)) hn (by omega)
  have hlen : (listPrefix (hashes.length / 32 * 33) ++
      hashItems hashes (hashes.length / 32) 0).length =
      0 + ListPrefixLen (hashes.length / 32 * 33) + 33 * (hashes.length / 32) := by
    rw [List.length_append, listPrefix_length, hashItems_length _ _ _ hn]; omega
  refine ⟨b2, ?_, by omega, ?_⟩
  · simp only [EncodeHashes, e1, e2, hlen]
  · rw [hlen, t2, t1]; simp

end rlp

/-! ## Scratch buffers and the encoders of packets.go -/

namespace txpool

open Go

theorem ensureEnoughSize_len (in_ : Slice) (size : Nat) :
    (ensureEnoughSize in_ size).data.length = size := by
  unfold ensureEnoughSize Slice.cap
  split
  · simp [Go.copy]; omega
  · simp; omega

theorem blobsLen_eq (txsRlp : List (List Nat)) : blobsLen txsRlp = txsRlp.flatten.length := by
  have key : ∀ (l : List (List Nat)) (n : Nat),
      l.foldl (fun n tx => n + tx.length) n = n + l.flatten.length := by
    intro l
    induction l with
    | nil => intro n; simp
    | cons a l ih => intro n; simp [ih]; omega
  simpa using key txsRlp 0

theorem copyBlobs_spec (txsRlp : List (List Nat)) :
    ∀ (buf : List Nat) (pos : Nat), pos + txsRlp.flatten.length ≤ buf.length →
      ∃ b, copyBlobs txsRlp buf pos = some (b, pos + txsRlp.flatten.length) ∧
        b.length = buf.length ∧
        b.take (pos + txsRlp.flatten.length) = buf.take pos ++ txsRlp.flatten := by
  induction txsRlp with
  | nil => intro buf pos _; exact ⟨buf, by simp [copyBlobs], rfl, by simp⟩
  | cons tx rest ih =>
    intro buf pos h
    simp only [List.flatten_cons, List.length_append] at h
    have h1 : ¬ buf.length < pos := by omega
    have hl : (buf.take pos ++ Go.copy (buf.drop pos) tx).length = buf.length := by
      simp [Go.copy]; omega
    obtain ⟨b, e, l, t⟩ := ih (buf.take pos ++ Go.copy (buf.drop pos) tx) (pos + tx.length)
      (by omega)
    refine ⟨b, ?_, by omega, ?_⟩
    · simp only [copyBlobs, h1, if_false, e, List.flatten_cons, List.length_append]
      congr 2; omega
    · simp only [List.flatten_cons, List.length_append]
      rw [show pos + (tx.length + rest.flatten.length) = pos + tx.length + rest.flatten.length by omega,
        t]
      have hp : (buf.take pos).length = pos := by simp; omega
      have hc : (Go.copy (List.drop pos buf) tx).take tx.length = tx :=
        Go.copy_take _ _ (by simp; omega)
      rw [Go.take_add_append _ _ _ _ hp, hc, List.append_assoc]

end txpool

namespace rlp

theorem ListPrefixLen_pos (d : Nat) : 1 ≤ ListPrefixLen d := by
  unfold ListPrefixLen; split <;> omega

theorem listPrefix_room (d : Nat) :
    (if d < 56 then 1 else 10) ≤ ListPrefixLen d + d := by
  have := ListPrefixLen_pos d
  split <;> omega

/-- Item `i` of the payload of an encoded hash list. -/
theorem hashItems_item (hashes : List Nat) (n : Nat) :
    ∀ (j i : Nat), i < n → 32 * (j + n) ≤ hashes.length →
      ((hashItems hashes n j).drop (33 * i)).take 33 =
        160 :: (hashes.drop (32 * (j + i))).take 32 := by
  induction n with
  | zero => intro j i hi; omega
  | succ n ih =>
    intro j i hi hh
    have hl : (160 :: List.take 32 (List.drop (32 * j) hashes)).length = 33 := by
      simp; omega
    cases i with
    | zero =>
      simp only [hashItems, Nat.mul_zero, List.drop_zero, Nat.add_zero]
      rw [List.take_append_of_le_length (by omega), ← hl, List.take_length]
    | succ i =>
      simp only [hashItems]
      rw [show 33 * (i + 1) = (160 :: List.take 32 (List.drop (32 * j) hashes)).length + 33 * i by
        rw [hl]; omega]
      rw [List.drop_append, ih (j + 1) i (by omega) (by omega)]
      congr 3; omega

end rlp

namespace txpool

open Go

theorem EncodeHashesWith_spec (enc : List Nat → List Nat → Option (List Nat × Nat))
    (hashes : List Nat) (encodeBuf : Slice) (w : List Nat)
    (hw : Go.Writes (enc hashes) w
      (rlp.ListPrefixLen (hashes.length / 32 * 33) + hashes.length / 32 * 33))
    (hlen : w.length = rlp.ListPrefixLen (hashes.length / 32 * 33) + hashes.length / 32 * 33) :
    EncodeHashesWith enc hashes encodeBuf = some
      { data := w,
        spare := (ensureEnoughSize encodeBuf
          (rlp.ListPrefixLen (hashes.length / 32 * 33) + hashes.length / 32 * 33)).spare } := by
  have hsz := ensureEnoughSize_len encodeBuf
    (rlp.ListPrefixLen (hashes.length / 32 * 33) + hashes.length / 32 * 33)
  obtain ⟨t, e, l, tk⟩ := hw _ (le_of_eq hsz.symm)
  have ht := Go.eq_of_take_length t _ tk (by rw [l, hsz, hlen])
  simp only [EncodeHashesWith, e, ht]

theorem announcement_length (hashes : List Nat) :
    (rlp.listPrefix (hashes.length / 32 * 33) ++
      rlp.hashItems hashes (hashes.length / 32) 0).length =
      rlp.ListPrefixLen (hashes.length / 32 * 33) + hashes.length / 32 * 33 := by
  have hn : 32 * (0 + hashes.length / 32) ≤ hashes.length := by
    have := Nat.div_mul_le_self hashes.length 32
    omega
  rw [List.length_append, rlp.listPrefix_length, rlp.hashItems_length _ _ _ hn]; omega

theorem EncodeHashes_spec (hashes : List Nat) (encodeBuf : Slice)
    (h64 : hashes.length / 32 * 33 < 2 ^ 64) :
    EncodeHashes hashes encodeBuf = some
      { data := rlp.listPrefix (hashes.length / 32 * 33) ++
          rlp.hashItems hashes (hashes.length / 32) 0,
        spare := (ensureEnoughSize encodeBuf
          (rlp.ListPrefixLen (hashes.length / 32 * 33) + hashes.length / 32 * 33)).spare } :=
  EncodeHashesWith_spec rlp.EncodeHashes hashes encodeBuf _
    (rlp.EncodeHashes_writes hashes h64) (announcement_length hashes)

theorem EncodePooledTransactions65_spec (txsRlp : List (List Nat)) (encodeBuf : Slice)
    (h64 : blobsLen txsRlp < 2 ^ 64) :
    EncodePooledTransactions65 txsRlp encodeBuf = some
      { data := rlp.listPrefix (blobsLen txsRlp) ++ txsRlp.flatten,
        spare := (ensureEnoughSize encodeBuf
          (rlp.ListPrefixLen (blobsLen txsRlp) + blobsLen txsRlp)).spare } := by
  have hsz := ensureEnoughSize_len encodeBuf
    (rlp.ListPrefixLen (blobsLen txsRlp) + blobsLen txsRlp)
  have hL := blobsLen_eq txsRlp
  obtain ⟨b1, e1, l1, t1⟩ := Go.writeAt_of_writes _ _ _ (rlp.EncodeListPrefix_writes _ h64)
    (ensureEnoughSize encodeBuf (rlp.ListPrefixLen (blobsLen txsRlp) + blobsLen txsRlp)).data 0
    (by rw [hsz, Nat.zero_add]; exact rlp.listPrefix_room _)
  rw [rlp.listPrefix_length] at e1 t1
  obtain ⟨b2, e2, l2, t2⟩ := copyBlobs_spec txsRlp b1 (0 + rlp.ListPrefixLen (blobsLen txsRlp))
    (by rw [l1, hsz, ← hL]; omega)
  have ht := Go.eq_of_take_length b2 (rlp.listPrefix (blobsLen txsRlp) ++ txsRlp.flatten)
    (by
      rw [List.length_append, rlp.listPrefix_length, ← Nat.zero_add (rlp.ListPrefixLen _), t2, t1]
      simp)
    (by rw [l2, l1, hsz, List.length_append, rlp.listPrefix_length, hL])
  simp only [EncodePooledTransactions65, e1, e2, ht]

end txpool

namespace rlp

theorem Prefix_shortList (payload : List Nat) (pos : Nat)
    (h1 : 192 ≤ payload.getD pos 0) (h2 : payload.getD pos 0 < 248)
    (hlen : pos + 1 + (payload.getD pos 0 - 192) ≤ payload.length) :
    Prefix payload pos = .ok (pos + 1, payload.getD pos 0 - 192, true) := by
  have a0 : ¬ pos ≥ payload.length := by omega
  have a1 : ¬ payload.getD pos 0 < 128 := by omega
  have a2 : ¬ payload.getD pos 0 < 184 := by omega
  have a3 : ¬ payload.getD pos 0 < 192 := by omega
  have a5 : ¬ (pos + 1 + (payload.getD pos 0 - 192) > payload.length) := by omega
  unfold Prefix
  rw [if_neg a0]
  simp only [a1, a2, a3, h2, a5, if_true, if_false]

theorem Prefix_longList (payload : List Nat) (pos k d : Nat)
    (hf : payload.getD pos 0 = 247 + k) (hk : 1 ≤ k)
    (hbe : BeInt payload (pos + 1) k = .ok d) (hd : 56 ≤ d)
    (hlen : pos + 1 + k + d ≤ payload.length) :
    Prefix payload pos = .ok (pos + 1 + k, d, true) := by
  have a0 : ¬ pos ≥ payload.length := by omega
  have a1 : ¬ 247 + k < 128 := by omega
  have a2 : ¬ 247 + k < 184 := by omega
  have a3 : ¬ 247 + k < 192 := by omega
  have a4 : ¬ 247 + k < 248 := by omega
  have a5 : ¬ (pos + 1 + k + d > payload.length) := by omega
  have a6 : ¬ d < 56 := by omega
  unfold Prefix
  rw [if_neg a0]
  simp only [hf, a1, a2, a3, a4, if_false, Nat.add_sub_cancel_left, hbe, a6, a5]

theorem Prefix_shortString (payload : List Nat) (pos : Nat)
    (h1 : 130 ≤ payload.getD pos 0) (h2 : payload.getD pos 0 < 184)
    (hlen : pos + 1 + (payload.getD pos 0 - 128) ≤ payload.length) :
    Prefix payload pos = .ok (pos + 1, payload.getD pos 0 - 128, false) := by
  have a0 : ¬ pos ≥ payload.length := by omega
  have a1 : ¬ payload.getD pos 0 < 128 := by omega
  have a3 : ¬ payload.getD pos 0 - 128 = 1 := by omega
  have a5 : ¬ (pos + 1 + (payload.getD pos 0 - 128) > payload.length) := by omega
  unfold Prefix
  rw [if_neg a0]
  simp only [a1, h2, a3, a5, if_true, if_false, false_and]

theorem BeInt_beBytes (payload : List Nat) (pos k d : Nat) (hk : 1 ≤ k)
    (hlo : 256 ^ (k - 1) ≤ d) (hhi : d < 256 ^ k)
    (hp : (payload.drop pos).take k = Go.beBytes k d) (hlen : pos + k ≤ payload.length) :
    BeInt payload pos k = .ok d := by
  have a0 : ¬ (pos + k > payload.length) := by omega
  have hnz := Go.beBytes_head _ d hk hlo hhi
  have hfold := Go.beBytes_fold k d
  rw [Nat.mod_eq_of_lt hhi] at hfold
  have hg : payload.getD pos 0 = (Go.beBytes k d).getD 0 0 := by
    rw [← hp]
    simp only [List.getD_eq_getElem?_getD, List.getElem?_take, List.getElem?_drop]
    have hk0 : 0 < k := hk
    simp [hk0]
  unfold BeInt
  rw [if_neg a0, hp, hfold, hg]
  have : ¬ (k > 0 ∧ (Go.beBytes k d).getD 0 0 = 0) := fun h => hnz h.2
  rw [if_neg this]

end rlp

namespace Go

theorem getD_append_cons (pre rest : List Nat) (x : Nat) :
    (pre ++ x :: rest).getD pre.length 0 = x := by
  induction pre with
  | nil => simp
  | cons a pre ih => simpa using ih

end Go

namespace rlp

theorem Prefix_listPrefix (pre body : List Nat) (d : Nat) (h64 : d < 2 ^ 64)
    (hb : d ≤ body.length) :
    Prefix (pre ++ (listPrefix d ++ body)) pre.length =
      .ok (pre.length + ListPrefixLen d, d, true) := by
  by_cases h : d < 56
  · have hp : listPrefix d = [192 + d] := by simp [listPrefix, h]
    have hP : ListPrefixLen d = 1 := by
      have : ¬ d ≥ 56 := by omega
      simp [ListPrefixLen, this]
    have hg : (pre ++ (listPrefix d ++ body)).getD pre.length 0 = 192 + d := by
      rw [hp]; exact Go.getD_append_cons pre body (192 + d)
    have := Prefix_shortList (pre ++ (listPrefix d ++ body)) pre.length
      (by rw [hg]; omega) (by rw [hg]; omega)
      (by rw [hg, hp]; simp; omega)
    rw [this, hg, hP]; simp
  · obtain ⟨hk1, hk8, hlo, hhi⟩ := Go.Len64_bounds d (by omega) h64
    have h1 : d ≥ 56 := by omega
    have hlen := Go.beBytes_length ((Go.Len64 d + 7) / 8) d
    have hp : listPrefix d = (247 + (Go.Len64 d + 7) / 8) :: Go.beBytes ((Go.Len64 d + 7) / 8) d := by
      simp only [listPrefix, h, if_false, ListPrefixLen, h1, if_true, Nat.add_sub_cancel_left]
    have hP : ListPrefixLen d = 1 + (Go.Len64 d + 7) / 8 := by
      simp only [ListPrefixLen, h1, if_true]
    generalize (Go.Len64 d + 7) / 8 = k at *
    have hg : (pre ++ (listPrefix d ++ body)).getD pre.length 0 = 247 + k := by
      rw [hp]; exact Go.getD_append_cons pre _ (247 + k)
    have hdrop : ((pre ++ (listPrefix d ++ body)).drop (pre.length + 1)).take k = Go.beBytes k d := by
      rw [hp, ← List.drop_drop, List.drop_left]
      simp only [List.cons_append, List.drop_succ_cons, List.drop_zero]
      exact List.take_left' hlen
    have hL : (pre ++ (listPrefix d ++ body)).length = pre.length + (1 + k + body.length) := by
      rw [hp]; simp [hlen]; omega
    have hbe := BeInt_beBytes (pre ++ (listPrefix d ++ body)) (pre.length + 1) k d hk1 hlo hhi
      hdrop (by rw [hL]; omega)
    rw [Prefix_longList _ _ k d hg hk1 hbe h1 (by rw [hL]; omega), hP]
    congr 2; omega

theorem parseList_listPrefix (d : Nat) (body : List Nat) (h64 : d < 2 ^ 64)
    (hb : d ≤ body.length) :
    parseList (listPrefix d ++ body) 0 = .ok (ListPrefixLen d, d) := by
  have := Prefix_listPrefix [] body d h64 hb
  simp only [List.nil_append, List.length_nil, Nat.zero_add] at this
  simp [parseList, this]

theorem ParseHash_item (payload : List Nat) (pos : Nat) (hashbuf : List Nat)
    (h160 : payload.getD pos 0 = 160) (hlen : pos + 33 ≤ payload.length) :
    ParseHash payload pos hashbuf =
      .ok (Go.copy hashbuf ((payload.drop (pos + 1)).take 32), pos + 33) := by
  have := Prefix_shortString payload pos (by rw [h160]; omega) (by rw [h160]; omega)
    (by rw [h160]; omega)
  rw [h160] at this
  simp [ParseHash, this]

end rlp

namespace txpool

open Go

theorem ParseHashesCount_encoded (d : Nat) (body : List Nat) (h64 : d < 2 ^ 64)
    (hb : d ≤ body.length) (h33 : d % 33 = 0) :
    ParseHashesCount (rlp.listPrefix d ++ body) 0 = (d / 33, rlp.ListPrefixLen d, none) := by
  simp [ParseHashesCount, ParseHashesCountWith, rlp.parseList_listPrefix d body h64 hb, h33]

theorem ParseHash_encoded (payload : List Nat) (pos : Nat) (hashbuf : Slice) (H : List Nat)
    (hH : H.length = 32) (hitem : (payload.drop pos).take 33 = 160 :: H) :
    ParseHash payload pos hashbuf =
      ({ data := H, spare := (ensureEnoughSize hashbuf 32).spare }, pos + 33, none) := by
  have hlen : pos + 33 ≤ payload.length := by
    have h1 : ((payload.drop pos).take 33).length = 33 := by rw [hitem]; simp [hH]
    simp only [List.length_take, List.length_drop] at h1
    omega
  have h160 : payload.getD pos 0 = 160 := by
    have h1 : ((payload.drop pos).take 33).getD 0 0 = 160 := by rw [hitem]; simp
    rw [← h1]
    simp [List.getD_eq_getElem?_getD, List.getElem?_take, List.getElem?_drop]
  have hbody : (payload.drop (pos + 1)).take 32 = H := by
    have h1 : ((payload.drop pos).take 33).drop 1 = H := by rw [hitem]; simp
    rw [← h1, List.drop_take, List.drop_drop, Nat.add_comm]
  have hsz := ensureEnoughSize_len hashbuf 32
  have hc : Go.copy (ensureEnoughSize hashbuf 32).data H = H := by
    have := Go.copy_take (ensureEnoughSize hashbuf 32).data H (by omega)
    have hcl : (Go.copy (ensureEnoughSize hashbuf 32).data H).length = H.length := by
      simp [Go.copy]; omega
    rw [← hcl, List.take_length] at this
    exact this
  simp only [ParseHash, rlp.ParseHash_item payload pos _ h160 hlen, hbody, hc]

end txpool

/-! ## Claims about the hash list -/

/-- C3. `ParseHashesCount` validates the hash-list length, whatever list-header decoder
`listFn` it calls: when the header decodes to `(dataPos, dataLen)` and `dataLen` is not a
multiple of 33 the result is count 0, dataPos 0 and the error `MalformedHashList`; when
`dataLen` is a multiple of 33 the result is `dataLen / 33`, the header's `dataPos` and no
error; when the header fails to decode the result is count 0, dataPos 0 and an error
(wrapping the header's). -/
theorem ParseHashesCount_validates_length
    (listFn : List Nat → Nat → Except Err (Nat × Nat)) (payload : List Nat) (pos : Nat) :
    (∀ dataPos dataLen, listFn payload pos = .ok (dataPos, dataLen) →
      (dataLen % 33 ≠ 0 →
        txpool.ParseHashesCountWith listFn payload pos = (0, 0, some .MalformedHashList)) ∧
      (dataLen % 33 = 0 →
        txpool.ParseHashesCountWith listFn payload pos = (dataLen / 33, dataPos, none))) ∧
    (∀ e, listFn payload pos = .error e →
      txpool.ParseHashesCountWith listFn payload pos = (0, 0, some (.hashesLen e))) := by
  refine ⟨?_, ?_⟩
  · intro dataPos dataLen h
    constructor
    · intro hm
      simp [txpool.ParseHashesCountWith, h, hm]
    · intro hm
      simp [txpool.ParseHashesCountWith, h, hm]
  · intro e h
    simp [txpool.ParseHashesCountWith, h]

/-- C3 on three payloads through the list-header decoder of the codec: a list header
declaring 34 bytes, the announcement of one hash of fetch_test.go (`e1 a0 ...`), and the
empty payload. -/
theorem ParseHashesCount_validates_length_witness :
    txpool.ParseHashesCount (226 :: List.replicate 34 0) 0 = (0, 0, some .MalformedHashList) ∧
    txpool.ParseHashesCount (225 :: 160 :: List.replicate 32 89) 0 = (1, 1, none) ∧
    txpool.ParseHashesCount [] 0 = (0, 0, some (.hashesLen .TruncatedPacket)) :=
  ⟨((ParseHashesCount_validates_length rlp.parseList (226 :: List.replicate 34 0) 0).1
      1 34 rfl).1 (by decide),
   ((ParseHashesCount_validates_length rlp.parseList
      (225 :: 160 :: List.replicate 32 89) 0).1 1 33 rfl).2 (by decide),
   (ParseHashesCount_validates_length rlp.parseList [] 0).2 .TruncatedPacket rfl⟩

namespace Go

theorem beBytes_lt (k d : Nat) : ∀ b ∈ beBytes k d, b < 256 := by
  induction k generalizing d with
  | zero => simp [beBytes]
  | succ k ih =>
    intro b hb
    simp only [beBytes, List.mem_append, List.mem_singleton] at hb
    rcases hb with hb | hb
    · exact ih _ b hb
    · rw [hb]; exact Nat.mod_lt _ (by norm_num)

end Go

/-- C5. List length prefix: for every payload length `dataLen` (a Go `int`, so below
`2 ^ 63`) and every destination of at least 10 bytes, `EncodeListPrefix` does not panic,
reports `ListPrefixLen dataLen` bytes, leaves the destination unchanged from index 9 on and
writes the prefix from index 0: below 56 the single
byte `192 + dataLen`; from 56 on the byte `247 + k` followed by the `k` bytes `beBytes k
dataLen`, which are the big-endian representation of `dataLen` (bytes below 256 whose
base-256 value is `dataLen`), with `k` minimal (`256 ^ (k - 1) ≤ dataLen < 256 ^ k`, first
length byte not zero) and `ListPrefixLen dataLen = 1 + k`. -/
theorem EncodeListPrefix_layout (dataLen : Nat) (to_ : List Nat) (hint : dataLen < 2 ^ 63)
    (hlen : 10 ≤ to_.length) :
    ∃ t, rlp.EncodeListPrefix dataLen to_ = some (t, rlp.ListPrefixLen dataLen) ∧
      t.length = to_.length ∧ t.drop 9 = to_.drop 9 ∧
      (dataLen < 56 → rlp.ListPrefixLen dataLen = 1 ∧ t.take 1 = [192 + dataLen]) ∧
      (56 ≤ dataLen → ∃ k, rlp.ListPrefixLen dataLen = 1 + k ∧ 1 ≤ k ∧ k ≤ 8 ∧
        256 ^ (k - 1) ≤ dataLen ∧ dataLen < 256 ^ k ∧
        t.take (1 + k) = (247 + k) :: Go.beBytes k dataLen ∧
        (Go.beBytes k dataLen).length = k ∧
        (∀ b ∈ Go.beBytes k dataLen, b < 256) ∧
        (Go.beBytes k dataLen).foldl (fun r b => r * 256 + b) 0 = dataLen ∧
        (Go.beBytes k dataLen).getD 0 0 ≠ 0) := by
  have h64 : dataLen < 2 ^ 64 := by
    have : (2 : Nat) ^ 63 < 2 ^ 64 := by norm_num
    omega
  by_cases h : dataLen < 56
  · have h1 : ¬ dataLen ≥ 56 := by omega
    refine ⟨(192 + dataLen) :: to_.drop 1, ?_, ?_, ?_, ?_, ?_⟩
    · rw [rlp.EncodeListPrefix_short dataLen to_ h (by omega)]
      simp [rlp.ListPrefixLen, h1]
    · simp; omega
    · simp
    · intro _; simp [rlp.ListPrefixLen, h1]
    · intro h56; omega
  · have h56 : 56 ≤ dataLen := by omega
    obtain ⟨t, e, l, tk, fr⟩ := rlp.EncodeListPrefix_long dataLen to_ h56 h64 hlen
    obtain ⟨hk1, hk8, hlo, hhi⟩ := Go.Len64_bounds dataLen (by omega) h64
    have hP : rlp.ListPrefixLen dataLen = 1 + (Go.Len64 dataLen + 7) / 8 := by
      simp only [rlp.ListPrefixLen, ge_iff_le, h56, if_true]
    have hp : rlp.listPrefix dataLen = (247 + (Go.Len64 dataLen + 7) / 8) ::
        Go.beBytes ((Go.Len64 dataLen + 7) / 8) dataLen := by
      simp only [rlp.listPrefix, h, if_false, hP, Nat.add_sub_cancel_left]
    refine ⟨t, e, l, fr, fun hlt => absurd hlt h, fun _ => ⟨_, hP, hk1, hk8, hlo, hhi, ?_,
      Go.beBytes_length _ _, Go.beBytes_lt _ _, ?_, Go.beBytes_head _ _ hk1 hlo hhi⟩⟩
    · rw [← hP, tk, hp]
    · rw [Go.beBytes_fold, Nat.mod_eq_of_lt hhi]

/-- C5 at the payload length `2 ^ 32` and a destination of ten bytes. -/
theorem EncodeListPrefix_layout_witness :
    ∃ t, rlp.EncodeListPrefix (2 ^ 32) (List.replicate 10 0) =
        some (t, rlp.ListPrefixLen (2 ^ 32)) ∧
      t.length = (List.replicate 10 0).length ∧ t.drop 9 = (List.replicate 10 0).drop 9 ∧
      (2 ^ 32 < 56 → rlp.ListPrefixLen (2 ^ 32) = 1 ∧ t.take 1 = [192 + 2 ^ 32]) ∧
      (56 ≤ 2 ^ 32 → ∃ k, rlp.ListPrefixLen (2 ^ 32) = 1 + k ∧ 1 ≤ k ∧ k ≤ 8 ∧
        256 ^ (k - 1) ≤ 2 ^ 32 ∧ 2 ^ 32 < 256 ^ k ∧
        t.take (1 + k) = (247 + k) :: Go.beBytes k (2 ^ 32) ∧
        (Go.beBytes k (2 ^ 32)).length = k ∧
        (∀ b ∈ Go.beBytes k (2 ^ 32), b < 256) ∧
        (Go.beBytes k (2 ^ 32)).foldl (fun r b => r * 256 + b) 0 = 2 ^ 32 ∧
        (Go.beBytes k (2 ^ 32)).getD 0 0 ≠ 0) :=
  EncodeListPrefix_layout (2 ^ 32) (List.replicate 10 0) (by decide) (by decide)

/-! ## Inputs on which the code departs from its contract -/

/-- C2 (defect of the code). `EncodeU64` takes the one-byte branch for 128 (`i > 128`
where the wire format needs `i >= 128`), so the request id 128 is written as the byte
`0x80`, which is the encoding of 0: for all hashes and buffers the message for request id
128 is the message for request id 0, and `ParseGetPooledTransactions66` returns request id
0 for it. With no hashes and request id 129 the encoder panics: `EncodeU64` needs nine
bytes of destination for `PutUint64`, the buffer sized by `U64Len` leaves three. -/
theorem GetPooledTransactions66_request_id_lost :
    (∀ hashes encodeBuf, txpool.EncodeGetPooledTransactions66 hashes 128 encodeBuf =
      txpool.EncodeGetPooledTransactions66 hashes 0 encodeBuf) ∧
    (∃ msg, txpool.EncodeGetPooledTransactions66 (List.replicate 32 7) 128 Go.Slice.nil =
        some (msg, none) ∧
      txpool.ParseGetPooledTransactions66 msg.data 0 Go.Slice.nil =
        .done (0, ⟨List.replicate 32 7, []⟩, 36, none)) ∧
    txpool.EncodeGetPooledTransactions66 [] 129 Go.Slice.nil = none := by
  refine ⟨?_, ⟨⟨[227, 128, 225, 160] ++ List.replicate 32 7, []⟩, by decide, by decide⟩,
    by decide⟩
  intro hashes encodeBuf
  have h1 : rlp.U64Len 128 = rlp.U64Len 0 := by decide
  have h2 : rlp.EncodeU64 128 = rlp.EncodeU64 0 := by
    funext dst
    simp [rlp.EncodeU64]
  simp only [txpool.EncodeGetPooledTransactions66, txpool.EncodeGetPooledTransactions66With,
    h1, h2]

/-- C7 (defect of the code). With no blobs and request id 129, `EncodePooledTransactions66`
sizes the buffer to 4 bytes and panics in `EncodeU64`, whose `PutUint64(to[1:], i)` needs
`len(to) >= 9`; spare capacity of the scratch buffer does not help, the check is on the
length. -/
theorem EncodePooledTransactions66_panics :
    txpool.EncodePooledTransactions66 [] 129 Go.Slice.nil = none ∧
    txpool.EncodePooledTransactions66 [] 129 ⟨[], List.replicate 64 0⟩ = none ∧
    txpool.EncodePooledTransactions66 [[1, 2, 3]] 1000 Go.Slice.nil = none := by
  decide

/-- C8 (defect of the code). The parsing loops run until `pos == len(payload)`, not for
the declared number of hashes: on a payload whose hash list declares no hash and is
followed by two well-formed hash items, the second iteration evaluates `hashes[32:]` on an
empty `hashes` and panics, in both parsers. -/
theorem ParseGetPooledTransactions_panics :
    txpool.ParseGetPooledTransactions65
      ([248, 67, 192] ++ (160 :: List.replicate 32 1) ++ (160 :: List.replicate 32 2))
      0 Go.Slice.nil = .panic ∧
    txpool.ParseGetPooledTransactions66
      ([248, 68, 5, 192] ++ (160 :: List.replicate 32 1) ++ (160 :: List.replicate 32 2))
      0 Go.Slice.nil = .panic := by
  decide

/-! ## Markers and tiers -/

namespace txpool

theorem markerOf_eq (a : Fin 5 → Bool) :
    markerOf a = 16 * (a 0).toNat + 8 * (a 1).toNat + 4 * (a 2).toNat +
      2 * (a 3).toNat + (a 4).toNat := by
  unfold markerOf NewSubPoolMarker
  cases a 0 <;> cases a 1 <;> cases a 2 <;> cases a 3 <;> cases a 4 <;> rfl

theorem toNat_eq_of (x y : Bool) (h : x.toNat = y.toNat) : x = y := by
  cases x <;> cases y <;> simp_all

end txpool

/-- C9. Marker order is lexicographic, the first flag most significant: for two flag
vectors `a`, `b` and a position `i` before which they agree, with `a i = true` and
`b i = false`, the marker of `a` is strictly greater than the marker of `b`, whatever the
later flags; the marker is the 5-bit binary number of the flags; and two vectors with the
same marker are equal. -/
theorem marker_order_lexicographic (a b : Fin 5 → Bool) :
    (∀ i : Fin 5, (∀ j : Fin 5, j < i → a j = b j) → a i = true → b i = false →
      txpool.markerOf b < txpool.markerOf a) ∧
    txpool.markerOf a = 16 * (a 0).toNat + 8 * (a 1).toNat + 4 * (a 2).toNat +
      2 * (a 3).toNat + (a 4).toNat ∧
    txpool.markerOf a < 32 ∧
    (txpool.markerOf a = txpool.markerOf b → a = b) := by
  have la := fun k => Bool.toNat_le (a k)
  have lb := fun k => Bool.toNat_le (b k)
  have la0 := la 0
  have la1 := la 1
  have la2 := la 2
  have la3 := la 3
  have la4 := la 4
  have lb0 := lb 0
  have lb1 := lb 1
  have lb2 := lb 2
  have lb3 := lb 3
  have lb4 := lb 4
  refine ⟨?_, txpool.markerOf_eq a, ?_, ?_⟩
  · intro i hpre hai hbi
    have h0 := hpre 0
    have h1 := hpre 1
    have h2 := hpre 2
    have h3 := hpre 3
    rw [txpool.markerOf_eq a, txpool.markerOf_eq b]
    fin_cases i
    · simp only [Fin.zero_eta] at hai hbi
      rw [hai, hbi]; simp only [Bool.toNat_true, Bool.toNat_false]; omega
    · simp only [Fin.mk_one] at hai hbi
      rw [h0 (by decide), hai, hbi]; simp only [Bool.toNat_true, Bool.toNat_false]; omega
    · have e : (⟨2, by decide⟩ : Fin 5) = 2 := rfl
      simp only [e] at hai hbi
      rw [h0 (by decide), h1 (by decide), hai, hbi]
      simp only [Bool.toNat_true, Bool.toNat_false]; omega
    · have e : (⟨3, by decide⟩ : Fin 5) = 3 := rfl
      simp only [e] at hai hbi
      rw [h0 (by decide), h1 (by decide), h2 (by decide), hai, hbi]
      simp only [Bool.toNat_true, Bool.toNat_false]; omega
    · have e : (⟨4, by decide⟩ : Fin 5) = 4 := rfl
      simp only [e] at hai hbi
      rw [h0 (by decide), h1 (by decide), h2 (by decide), h3 (by decide), hai, hbi]
      simp only [Bool.toNat_true, Bool.toNat_false]; omega
  · rw [txpool.markerOf_eq a]; omega
  · intro h
    rw [txpool.markerOf_eq a, txpool.markerOf_eq b] at h
    funext i
    apply txpool.toNat_eq_of
    fin_cases i
    · show (a 0).toNat = (b 0).toNat; omega
    · show (a 1).toNat = (b 1).toNat; omega
    · show (a 2).toNat = (b 2).toNat; omega
    · show (a 3).toNat = (b 3).toNat; omega
    · show (a 4).toNat = (b 4).toNat; omega

/-- C9 on two orderings of pool_test.go: `(T,T,T,F,T) < (T,T,T,T,F)` and
`(F,T,T,T,T) < (T,F,T,T,T)`. -/
theorem marker_order_lexicographic_witness :
    txpool.markerOf ![true, true, true, false, true] <
      txpool.markerOf ![true, true, true, true, false] ∧
    txpool.markerOf ![false, true, true, true, true] <
      txpool.markerOf ![true, false, true, true, true] :=
  ⟨(marker_order_lexicographic ![true, true, true, true, false]
      ![true, true, true, false, true]).1 3 (by decide) (by decide) (by decide),
   (marker_order_lexicographic ![true, false, true, true, true]
      ![false, true, true, true, true]).1 0 (by decide) (by decide) (by decide)⟩

namespace txpool

theorem heapSwap_get (h : List MetaTx) (i j : Nat) (x y : MetaTx) (hij : i ≠ j)
    (hi : h[i]? = some x) (hj : h[j]? = some y) (k : Nat) :
    (heapSwap h i j)[k]? = if k = i then some y else if k = j then some x else h[k]? := by
  have li : i < h.length := by
    by_contra hc
    rw [List.getElem?_eq_none (by omega)] at hi; cases hi
  have lj : j < h.length := by
    by_contra hc
    rw [List.getElem?_eq_none (by omega)] at hj; cases hj
  simp only [heapSwap, hi, hj]
  rw [List.getElem?_set, List.getElem?_set]
  by_cases h1 : k = i
  · subst h1
    simp [hij.symm, li]
  · by_cases h2 : k = j
    · subst h2
      simp [h1, lj]
    · have h1' : ¬ i = k := fun e => h1 e.symm
      have h2' : ¬ j = k := fun e => h2 e.symm
      simp [h1, h2, h1', h2']

theorem heapSwap_length (h : List MetaTx) (i j : Nat) : (heapSwap h i j).length = h.length := by
  unfold heapSwap
  split <;> simp

theorem heapSwap_perm (h : List MetaTx) (i j : Nat) : (heapSwap h i j).Perm h := by
  unfold heapSwap
  split
  · rename_i x y hi hj
    have li : i < h.length := by
      by_contra hc
      rw [List.getElem?_eq_none (by omega)] at hi; cases hi
    have lj : j < h.length := by
      by_contra hc
      rw [List.getElem?_eq_none (by omega)] at hj; cases hj
    have ei : h[i] = x := by
      rw [List.getElem?_eq_getElem li] at hi; exact Option.some.inj hi
    have ej : h[j] = y := by
      rw [List.getElem?_eq_getElem lj] at hj; exact Option.some.inj hj
    by_cases hij : i = j
    · subst hij
      have : x = y := by rw [← ei, ← ej]
      subst this
      have e1 : h.set i x = h := by
        apply List.ext_getElem?
        intro k
        rw [List.getElem?_set]
        split
        · rename_i e; subst e; simp [li, ei]
        · rfl
      rw [e1, e1]
    · rw [List.perm_iff_count]
      intro a
      have lj' : j < (h.set i y).length := by simp; exact lj
      rw [List.count_set _ _ _ _ lj', List.count_set _ _ _ _ li]
      have hj2 : (h.set i y)[j] = y := by
        rw [List.getElem_set]; simp [hij, ej]
      rw [hj2, ei]
      have c1 : (if (x == a) = true then 1 else 0) ≤ h.count a := by
        split
        · rename_i hx
          have : a ∈ h := by
            have : x = a := by simpa using hx
            rw [← this, ← ei]; exact List.getElem_mem li
          exact List.count_pos_iff.mpr this
        · omega
      by_cases hx : (x == a) = true <;> by_cases hy : (y == a) = true
      · rw [if_pos hx] at c1; rw [if_pos hx, if_pos hy]; omega
      · rw [if_pos hx] at c1; rw [if_pos hx, if_neg hy]; omega
      · rw [if_neg hx, if_pos hy]; omega
      · rw [if_neg hx, if_neg hy]; omega
  · rfl

end txpool

namespace txpool

theorem heapUp_perm (less : MetaTx → MetaTx → Bool) :
    ∀ (fuel : Nat) (h : List MetaTx) (j : Nat), (heapUp less fuel h j).Perm h := by
  intro fuel
  induction fuel with
  | zero => intro h j; exact List.Perm.refl _
  | succ fuel ih =>
    intro h j
    simp only [heapUp]
    split
    · split
      · exact List.Perm.refl _
      · exact (ih _ _).trans (heapSwap_perm h _ _)
    · exact List.Perm.refl _

theorem getElem?_some_of_lt (h : List MetaTx) (k : Nat) (hk : k < h.length) :
    ∃ x, h[k]? = some x :=
  ⟨h[k], List.getElem?_eq_getElem hk⟩

theorem lt_of_getElem?_some (h : List MetaTx) (k : Nat) (x : MetaTx) (hx : h[k]? = some x) :
    k < h.length := by
  by_contra hc
  rw [List.getElem?_eq_none (by omega)] at hx; cases hx

theorem heapUp_isHeap (less : MetaTx → MetaTx → Bool) (ok : LessOrder less) :
    ∀ (fuel : Nat) (h : List MetaTx) (j : Nat), j ≤ fuel → j < h.length → UpInv less h j →
      IsHeap less (heapUp less fuel h j) := by
  intro fuel
  induction fuel with
  | zero =>
    intro h j hj _ inv
    have j0 : j = 0 := by omega
    subst j0
    intro k x y hk hx hy
    exact inv.1 k x y hk (by omega) hx hy
  | succ fuel ih =>
    intro h j hj hlen inv
    obtain ⟨x, hx⟩ := getElem?_some_of_lt h j hlen
    obtain ⟨y, hy⟩ := getElem?_some_of_lt h ((j - 1) / 2) (by omega)
    simp only [heapUp, hx, hy]
    split
    · rename_i hstop
      intro k a b hk ha hb
      by_cases hkj : k = j
      · subst hkj
        rcases hstop with e | e
        · omega
        · rw [hx] at ha; rw [hy] at hb
          cases ha; cases hb; exact e
      · exact inv.1 k a b hk hkj ha hb
    · rename_i hgo
      have hne : (j - 1) / 2 ≠ j := fun e => hgo (Or.inl e)
      have hlt : less x y = true := by
        cases hl : less x y
        · exact absurd (Or.inr hl) hgo
        · rfl
      have j0 : 0 < j := by
        rcases Nat.eq_zero_or_pos j with e | e
        · subst e; simp at hne
        · exact e
      have hyx : less y x = false := ok.asymm x y hlt
      have hget := heapSwap_get h ((j - 1) / 2) j y x hne hy hx
      apply ih (heapSwap h ((j - 1) / 2) j) ((j - 1) / 2) (by omega)
        (by rw [heapSwap_length]; omega)
      constructor
      · intro k a b hk hki ha hb
        rw [hget] at ha hb
        rw [if_neg hki] at ha
        by_cases hkj : k = j
        · subst hkj
          rw [if_pos rfl] at ha hb
          cases ha; cases hb
          exact hyx
        · rw [if_neg hkj] at ha
          by_cases hp1 : (k - 1) / 2 = (j - 1) / 2
          · rw [if_pos hp1] at hb
            cases hb
            have h1 := inv.1 k a y hk hkj ha (by rw [hp1]; exact hy)
            exact ok.trans _ y a hyx h1
          · rw [if_neg hp1] at hb
            by_cases hp2 : (k - 1) / 2 = j
            · rw [if_pos hp2] at hb
              cases hb
              exact inv.2 k a _ hk hp2 j0 ha hy
            · rw [if_neg hp2] at hb
              exact inv.1 k a b hk hkj ha hb
      · intro k a z hk hpk hi0 ha hz
        rw [hget] at ha hz
        have hki : k ≠ (j - 1) / 2 := by omega
        have hzi : ((j - 1) / 2 - 1) / 2 ≠ (j - 1) / 2 := by omega
        have hzj : ((j - 1) / 2 - 1) / 2 ≠ j := by omega
        rw [if_neg hki] at ha
        rw [if_neg hzi, if_neg hzj] at hz
        have hyz : less y z = false :=
          inv.1 ((j - 1) / 2) y z hi0 hne hy hz
        by_cases hkj : k = j
        · subst hkj
          rw [if_pos rfl] at ha
          cases ha
          exact hyz
        · rw [if_neg hkj] at ha
          have h1 := inv.1 k a y hk hkj ha (by rw [hpk]; exact hy)
          exact ok.trans z y a hyz h1

end txpool

namespace txpool

theorem heapPush_perm (less : MetaTx → MetaTx → Bool) (h : List MetaTx) (x : MetaTx) :
    (heapPush less h x).Perm (h ++ [x]) :=
  heapUp_perm less _ _ _

theorem heapPush_isHeap (less : MetaTx → MetaTx → Bool) (ok : LessOrder less)
    (h : List MetaTx) (x : MetaTx) (hh : IsHeap less h) : IsHeap less (heapPush less h x) := by
  apply heapUp_isHeap less ok (h.length + 1) (h ++ [x]) h.length (by omega) (by simp)
  constructor
  · intro k a b hk hkl ha hb
    have hk1 : k < (h ++ [x]).length := lt_of_getElem?_some _ _ _ ha
    simp only [List.length_append, List.length_singleton] at hk1
    have hk2 : k < h.length := by omega
    rw [List.getElem?_append_left hk2] at ha
    rw [List.getElem?_append_left (by omega)] at hb
    exact hh k a b hk ha hb
  · intro k a z hk hpk _ ha _
    have hk1 : k < (h ++ [x]).length := lt_of_getElem?_some _ _ _ ha
    simp only [List.length_append, List.length_singleton] at hk1
    omega

theorem less_irrefl (less : MetaTx → MetaTx → Bool) (ok : LessOrder less) (a : MetaTx) :
    less a a = false := by
  cases h : less a a
  · rfl
  · have := ok.asymm a a h
    rw [h] at this; cases this

/-- No entry of a heap must precede the entry at position 0. -/
theorem isHeap_root (less : MetaTx → MetaTx → Bool) (ok : LessOrder less) (h : List MetaTx)
    (hh : IsHeap less h) (r : MetaTx) (hr : h[0]? = some r) :
    ∀ (k : Nat) (a : MetaTx), h[k]? = some a → less a r = false := by
  intro k
  induction k using Nat.strong_induction_on with
  | _ k ih =>
    intro a ha
    rcases Nat.eq_zero_or_pos k with e | e
    · subst e
      rw [hr] at ha; cases ha
      exact less_irrefl less ok _
    · have hk := lt_of_getElem?_some _ _ _ ha
      obtain ⟨b, hb⟩ := getElem?_some_of_lt h ((k - 1) / 2) (by omega)
      have h1 := hh k a b e ha hb
      have h2 := ih ((k - 1) / 2) (by omega) b hb
      exact ok.trans r b a h2 h1

theorem lessBest_ok : LessOrder (fun a b => decide (a.SubPool > b.SubPool)) where
  asymm := by intro x y h; simp at h ⊢; omega
  trans := by intro x y z h1 h2; simp at h1 h2 ⊢; omega

theorem lessWorst_ok : LessOrder (fun a b => decide (a.SubPool < b.SubPool)) where
  asymm := by intro x y h; simp at h ⊢; omega
  trans := by intro x y z h1 h2; simp at h1 h2 ⊢; omega

theorem isHeap_nil (less : MetaTx → MetaTx → Bool) : IsHeap less [] := by
  intro k x y _ hx _
  simp at hx

theorem foldl_Add_spec (rs : List MetaTx) :
    ∀ p : SubPool, IsHeap (fun a b => decide (a.SubPool > b.SubPool)) p.best →
      IsHeap (fun a b => decide (a.SubPool < b.SubPool)) p.worst →
      IsHeap (fun a b => decide (a.SubPool > b.SubPool)) (rs.foldl SubPool.Add p).best ∧
      IsHeap (fun a b => decide (a.SubPool < b.SubPool)) (rs.foldl SubPool.Add p).worst ∧
      (rs.foldl SubPool.Add p).best.Perm (p.best ++ rs) ∧
      (rs.foldl SubPool.Add p).worst.Perm (p.worst ++ rs) := by
  induction rs with
  | nil => intro p hb hw; exact ⟨hb, hw, by simp, by simp⟩
  | cons r rs ih =>
    intro p hb hw
    obtain ⟨h1, h2, h3, h4⟩ := ih (p.Add r)
      (heapPush_isHeap _ lessBest_ok _ _ hb) (heapPush_isHeap _ lessWorst_ok _ _ hw)
    refine ⟨h1, h2, ?_, ?_⟩
    · refine h3.trans ?_
      have := (heapPush_perm (fun a b => decide (a.SubPool > b.SubPool)) p.best r).append_right rs
      simpa [SubPool.Add] using this
    · refine h4.trans ?_
      have := (heapPush_perm (fun a b => decide (a.SubPool < b.SubPool)) p.worst r).append_right rs
      simpa [SubPool.Add] using this

theorem mem_iff_getElem?_some (h : List MetaTx) (a : MetaTx) (ha : a ∈ h) :
    ∃ k : Nat, h[k]? = some a :=
  List.mem_iff_getElem?.mp ha

end txpool

/-- C10. Tier extremes: for every non-empty sequence `rs` of records added with `Add` to a
fresh `SubPool`, `Best()` returns a record of `rs` whose marker is the maximum of the
markers of `rs`, `Worst()` returns a record of `rs` whose marker is the minimum, neither
call changes the tier, and both views of the tier hold exactly the records added. -/
theorem tier_extremes (rs : List txpool.MetaTx) (hne : rs ≠ []) :
    ∃ b w, (rs.foldl txpool.SubPool.Add txpool.NewSubPool).Best.1 = some b ∧
      (rs.foldl txpool.SubPool.Add txpool.NewSubPool).Worst.1 = some w ∧
      b ∈ rs ∧ w ∈ rs ∧
      (∀ r ∈ rs, r.SubPool ≤ b.SubPool) ∧ (∀ r ∈ rs, w.SubPool ≤ r.SubPool) ∧
      (rs.foldl txpool.SubPool.Add txpool.NewSubPool).Best.2 =
        rs.foldl txpool.SubPool.Add txpool.NewSubPool ∧
      (rs.foldl txpool.SubPool.Add txpool.NewSubPool).Worst.2 =
        rs.foldl txpool.SubPool.Add txpool.NewSubPool ∧
      (rs.foldl txpool.SubPool.Add txpool.NewSubPool).best.Perm rs ∧
      (rs.foldl txpool.SubPool.Add txpool.NewSubPool).worst.Perm rs := by
  obtain ⟨h1, h2, h3, h4⟩ := txpool.foldl_Add_spec rs txpool.NewSubPool
    (txpool.isHeap_nil _) (txpool.isHeap_nil _)
  have e1 : txpool.NewSubPool.best = [] := rfl
  have e2 : txpool.NewSubPool.worst = [] := rfl
  rw [e1, List.nil_append] at h3
  rw [e2, List.nil_append] at h4
  generalize rs.foldl txpool.SubPool.Add txpool.NewSubPool = p at *
  have nb : p.best ≠ [] := fun e => hne (by rw [e] at h3; exact h3.symm.eq_nil)
  have nw : p.worst ≠ [] := fun e => hne (by rw [e] at h4; exact h4.symm.eq_nil)
  obtain ⟨b, bs, eb⟩ := List.exists_cons_of_ne_nil nb
  obtain ⟨w, ws, ew⟩ := List.exists_cons_of_ne_nil nw
  have hb0 : p.best[0]? = some b := by rw [eb]; simp
  have hw0 : p.worst[0]? = some w := by rw [ew]; simp
  refine ⟨b, w, by simp [txpool.SubPool.Best, eb], by simp [txpool.SubPool.Worst, ew],
    h3.mem_iff.mp (by rw [eb]; simp), h4.mem_iff.mp (by rw [ew]; simp), ?_, ?_, rfl, rfl, h3, h4⟩
  · intro r hr
    obtain ⟨k, hk⟩ := txpool.mem_iff_getElem?_some p.best r (h3.mem_iff.mpr hr)
    have := txpool.isHeap_root _ txpool.lessBest_ok p.best h1 b hb0 k r hk
    simp at this; exact this
  · intro r hr
    obtain ⟨k, hk⟩ := txpool.mem_iff_getElem?_some p.worst r (h4.mem_iff.mpr hr)
    have := txpool.isHeap_root _ txpool.lessWorst_ok p.worst h2 w hw0 k r hk
    simp at this; exact this

/-- C10 on the first four records of pool_test.go. -/
theorem tier_extremes_witness :
    ∃ b w, ([⟨0b10101, 0⟩, ⟨0b11110, 1⟩, ⟨0b11101, 2⟩, ⟨0b10001, 3⟩].foldl
        txpool.SubPool.Add txpool.NewSubPool).Best.1 = some b ∧
      ([⟨0b10101, 0⟩, ⟨0b11110, 1⟩, ⟨0b11101, 2⟩, ⟨0b10001, 3⟩].foldl
        txpool.SubPool.Add txpool.NewSubPool).Worst.1 = some w ∧
      b.SubPool = 0b11110 ∧ w.SubPool = 0b10001 := by
  obtain ⟨b, w, hb, hw, -⟩ := tier_extremes
    [⟨0b10101, 0⟩, ⟨0b11110, 1⟩, ⟨0b11101, 2⟩, ⟨0b10001, 3⟩] (by decide)
  refine ⟨b, w, hb, hw, ?_, ?_⟩
  · have e : ([⟨0b10101, 0⟩, ⟨0b11110, 1⟩, ⟨0b11101, 2⟩, ⟨0b10001, 3⟩].foldl
        txpool.SubPool.Add txpool.NewSubPool).Best.1 = some ⟨0b11110, 1⟩ := by decide
    rw [e] at hb; cases hb; rfl
  · have e : ([⟨0b10101, 0⟩, ⟨0b11110, 1⟩, ⟨0b11101, 2⟩, ⟨0b10001, 3⟩].foldl
        txpool.SubPool.Add txpool.NewSubPool).Worst.1 = some ⟨0b10001, 3⟩ := by decide
    rw [e] at hw; cases hw; rfl

/-! ## The step budget of the parsing loop is never exhausted -/

namespace rlp

set_option maxRecDepth 20000 in
theorem Prefix_ok_bounds (payload : List Nat) (pos dp dl : Nat) (il : Bool)
    (h : Prefix payload pos = .ok (dp, dl, il)) :
    dp + dl ≤ payload.length ∧ (dl ≠ 1 → pos + 1 ≤ dp) := by
  unfold Prefix at h
  split at h
  · cases h
  · simp only at h
    split at h
    · cases h
    · rename_i dp' dl' il' hhdr
      split at h
      · cases h
      · rename_i hle
        cases h
        refine ⟨by omega, ?_⟩
        intro hne
        split at hhdr
        · cases hhdr; omega
        · split at hhdr
          · split at hhdr
            · cases hhdr
            · cases hhdr; omega
          · split at hhdr
            · split at hhdr
              · cases hhdr
              · split at hhdr
                · cases hhdr
                · cases hhdr; omega
            · split at hhdr
              · cases hhdr; omega
              · split at hhdr
                · cases hhdr
                · split at hhdr
                  · cases hhdr
                  · cases hhdr; omega

theorem ParseHash_ok_bounds (payload : List Nat) (pos : Nat) (hashbuf t : List Nat) (pos1 : Nat)
    (h : ParseHash payload pos hashbuf = .ok (t, pos1)) :
    pos + 33 ≤ pos1 ∧ pos1 ≤ payload.length := by
  unfold ParseHash at h
  split at h
  · cases h
  · rename_i dp dl il hp
    obtain ⟨h1, h2⟩ := Prefix_ok_bounds payload pos dp dl il hp
    split at h
    · cases h
    · split at h
      · cases h
      · rename_i h32
        have e : dl = 32 := by omega
        cases h
        have := h2 (by omega)
        omega

end rlp

namespace txpool

open Go

theorem parseHashesLoop_fuel (payload : List Nat) :
    ∀ (fuel i pos : Nat) (hashes : Slice), payload.length + 1 ≤ pos + fuel → 1 ≤ fuel →
      parseHashesLoop payload fuel i pos hashes ≠ .outOfFuel := by
  intro fuel
  induction fuel with
  | zero => intro i pos hashes _ h; omega
  | succ fuel ih =>
    intro i pos hashes hf _
    simp only [parseHashesLoop]
    split
    · intro h; cases h
    · split
      · intro h; cases h
      · split
        · intro h; cases h
        · rename_i t pos1 hp
          obtain ⟨h1, h2⟩ := rlp.ParseHash_ok_bounds _ _ _ _ _ hp
          exact ih _ _ _ (by omega) (by omega)

/-- The step budget of the two pull-request parsers is enough: they return or panic. -/
theorem ParseGetPooledTransactions_fuel (payload : List Nat) (pos : Nat) (hashbuf : Slice) :
    ParseGetPooledTransactions65 payload pos hashbuf ≠ .outOfFuel ∧
    ParseGetPooledTransactions66 payload pos hashbuf ≠ .outOfFuel := by
  constructor
  · unfold ParseGetPooledTransactions65
    split
    · intro h; cases h
    · split
      · intro h; cases h
      · rename_i hc p2 _
        have := parseHashesLoop_fuel payload (payload.length + 1) 0 p2
          (ensureEnoughSize hashbuf (32 * hc)) (by omega) (by omega)
        simp only
        split
        · rename_i e; exact absurd e this
        · intro h; cases h
        · intro h; cases h
        · intro h; cases h
  · unfold ParseGetPooledTransactions66
    split
    · intro h; cases h
    · split
      · intro h; cases h
      · split
        · intro h; cases h
        · rename_i hc p3 _
          have := parseHashesLoop_fuel payload (payload.length + 1) 0 p3
            (ensureEnoughSize hashbuf (32 * hc)) (by omega) (by omega)
          simp only
          split
          · rename_i e; exact absurd e this
          · intro h; cases h
          · intro h; cases h
          · intro h; cases h

end txpool

/-! ## What `EncodeU64` writes -/

namespace rlp

theorem u64Bytes_length (i : Nat) : (u64Bytes i).length = U64Len i := by
  unfold u64Bytes U64Len
  by_cases h : i > 128
  · simp [h, Go.beBytes_length]
    omega
  · by_cases h0 : i = 0 <;> simp [h, h0]

theorem EncodeU64_short (i : Nat) (to_ : List Nat) (h : i ≤ 128) (hlen : 1 ≤ to_.length) :
    EncodeU64 i to_ = some ((if i = 0 then 128 else i) :: to_.drop 1, 1) := by
  have h1 : ¬ i > 128 := by omega
  have h2 : i % 256 = i := Nat.mod_eq_of_lt (by omega)
  rcases to_ with _ | ⟨a, r⟩
  · simp at hlen
  · by_cases h0 : i = 0 <;> simp [EncodeU64, h1, h0, Go.setIdx, h2]

theorem EncodeU64_long (i : Nat) (to_ : List Nat) (h128 : 128 < i) (h64 : i < 2 ^ 64)
    (hlen : 9 ≤ to_.length) :
    ∃ t, EncodeU64 i to_ = some (t, U64Len i) ∧ t.length = to_.length ∧
      t.take (U64Len i) = u64Bytes i ∧ t.drop 9 = to_.drop 9 := by
  obtain ⟨hk1, hk8, -, -⟩ := Go.Len64_bounds i (by omega) h64
  have hmod : i % 18446744073709551616 = i := Nat.mod_eq_of_lt (by norm_num at h64; exact h64)
  rcases to_ with _ | ⟨a0, _ | ⟨a1, _ | ⟨a2, _ | ⟨a3, _ | ⟨a4, _ | ⟨a5, _ | ⟨a6, _ | ⟨a7, _ | ⟨a8, r⟩⟩⟩⟩⟩⟩⟩⟩⟩ <;>
    simp at hlen
  unfold EncodeU64 u64Bytes U64Len
  simp only [gt_iff_lt, h128, if_true, Nat.add_sub_cancel_left]
  generalize (Go.Len64 i + 7) / 8 = k at hk1 hk8
  have hl : ¬ (r.length + 1 + 1 + 1 + 1 + 1 + 1 + 1 + 1 < 8) := by omega
  interval_cases k <;>
    simp [Go.PutUint64, Go.setIdx, Go.copy, Go.be64, Go.beBytes, hmod, hl, Nat.div_div_eq_div_mul]

theorem EncodeU64_none (i : Nat) (to_ : List Nat) (h128 : 128 < i) (hlen : to_.length < 9) :
    EncodeU64 i to_ = none := by
  unfold EncodeU64
  simp only [gt_iff_lt, h128, if_true]
  rcases to_ with _ | ⟨a, r⟩
  · simp [Go.setIdx]
  · have : r.length < 8 := by simp at hlen; omega
    simp [Go.setIdx, Go.PutUint64, this]

theorem EncodeU64_writes (i : Nat) (h64 : i < 2 ^ 64) :
    Go.Writes (EncodeU64 i) (u64Bytes i) (if i > 128 then 9 else 1) := by
  intro dst hroom
  by_cases h : i > 128
  · simp only [h, if_true] at hroom
    obtain ⟨t, h1, h2, h3, -⟩ := EncodeU64_long i dst h h64 hroom
    exact ⟨t, by rw [h1, u64Bytes_length], h2, by rw [u64Bytes_length, h3]⟩
  · simp only [h, if_false] at hroom
    refine ⟨(if i = 0 then 128 else i) :: dst.drop 1, ?_, ?_, ?_⟩
    · rw [EncodeU64_short i dst (by omega) hroom]
      by_cases h0 : i = 0 <;> simp [u64Bytes, h, h0]
    · simp; omega
    · by_cases h0 : i = 0 <;> simp [u64Bytes, h, h0]

end rlp

/-! ## The request-tagged encoders -/

namespace Go

theorem writeAt_none (f : List Nat → Option (List Nat × Nat)) (buf : List Nat) (pos : Nat)
    (h : f (buf.drop pos) = none) : writeAt buf pos f = none := by
  unfold writeAt
  split
  · rfl
  · simp [h]

end Go

namespace rlp

theorem u64_room (i rest : Nat) (h : i ≤ 128 ∨ 9 ≤ U64Len i + rest) :
    (if i > 128 then 9 else 1) ≤ U64Len i + rest := by
  have : 1 ≤ U64Len i := by unfold U64Len; split <;> omega
  split
  · rcases h with h | h
    · omega
    · exact h
  · omega

theorem U64Len_le (i : Nat) : U64Len i ≤ 9 := by
  unfold U64Len Go.Len64
  have := Go.bitLen_le 64 (i % 2 ^ 64)
  split <;> omega

theorem ListPrefixLen_le (d : Nat) : ListPrefixLen d ≤ 9 := by
  unfold ListPrefixLen Go.Len64
  have := Go.bitLen_le 64 (d % 2 ^ 64)
  split <;> omega

end rlp

namespace txpool

open Go

theorem EncodePooledTransactions66_spec (txsRlp : List (List Nat)) (requestId : Nat)
    (encodeBuf : Slice) (hL : blobsLen txsRlp < 2 ^ 63) (hi : requestId < 2 ^ 64) :
    EncodePooledTransactions66 txsRlp requestId encodeBuf =
      if requestId ≤ 128 ∨
          9 ≤ rlp.U64Len requestId + rlp.ListPrefixLen (blobsLen txsRlp) + blobsLen txsRlp then
        some
          { data := rlp.listPrefix (rlp.U64Len requestId + rlp.ListPrefixLen (blobsLen txsRlp) +
                blobsLen txsRlp) ++ (rlp.u64Bytes requestId ++
                (rlp.listPrefix (blobsLen txsRlp) ++ txsRlp.flatten)),
            spare := (ensureEnoughSize encodeBuf
              (rlp.ListPrefixLen (rlp.U64Len requestId + rlp.ListPrefixLen (blobsLen txsRlp) +
                blobsLen txsRlp) + (rlp.U64Len requestId + rlp.ListPrefixLen (blobsLen txsRlp) +
                blobsLen txsRlp))).spare }
      else none := by
  have hU := rlp.U64Len_le requestId
  have hP := rlp.ListPrefixLen_le (blobsLen txsRlp)
  have hP1 := rlp.ListPrefixLen_pos (blobsLen txsRlp)
  have h63 : (2 : Nat) ^ 63 + 18 < 2 ^ 64 := by norm_num
  have hfl := blobsLen_eq txsRlp
  generalize hD : rlp.U64Len requestId + rlp.ListPrefixLen (blobsLen txsRlp) +
    blobsLen txsRlp = D
  have hD64 : D < 2 ^ 64 := by omega
  have hsz := ensureEnoughSize_len encodeBuf (rlp.ListPrefixLen D + D)
  obtain ⟨b1, e1, l1, t1⟩ := Go.writeAt_of_writes _ _ _ (rlp.EncodeListPrefix_writes D hD64)
    (ensureEnoughSize encodeBuf (rlp.ListPrefixLen D + D)).data 0
    (by rw [hsz, Nat.zero_add]; exact rlp.listPrefix_room _)
  rw [rlp.listPrefix_length, Nat.zero_add] at e1 t1
  simp only [List.take_zero, List.nil_append] at t1
  unfold EncodePooledTransactions66
  simp only [hD, e1]
  by_cases hroom : requestId ≤ 128 ∨ 9 ≤ D
  · rw [if_pos hroom]
    obtain ⟨b2, e2, l2, t2⟩ := Go.writeAt_of_writes _ _ _ (rlp.EncodeU64_writes requestId hi)
      b1 (rlp.ListPrefixLen D) (by
        rw [l1, hsz]
        have := rlp.u64_room requestId (rlp.ListPrefixLen (blobsLen txsRlp) + blobsLen txsRlp)
          (by rw [← Nat.add_assoc, hD]; exact hroom)
        omega)
    rw [rlp.u64Bytes_length] at e2 t2
    obtain ⟨b3, e3, l3, t3⟩ := Go.writeAt_of_writes _ _ _
      (rlp.EncodeListPrefix_writes (blobsLen txsRlp) (by omega)) b2
      (rlp.ListPrefixLen D + rlp.U64Len requestId) (by
        rw [l2, l1, hsz]
        have := rlp.listPrefix_room (blobsLen txsRlp)
        omega)
    rw [rlp.listPrefix_length] at e3 t3
    obtain ⟨b4, e4, l4, t4⟩ := copyBlobs_spec txsRlp b3
      (rlp.ListPrefixLen D + rlp.U64Len requestId + rlp.ListPrefixLen (blobsLen txsRlp))
      (by rw [l3, l2, l1, hsz, ← hfl]; omega)
    have ht := Go.eq_of_take_length b4
      (rlp.listPrefix D ++ (rlp.u64Bytes requestId ++
        (rlp.listPrefix (blobsLen txsRlp) ++ txsRlp.flatten)))
      (by
        have hlen : (rlp.listPrefix D ++ (rlp.u64Bytes requestId ++
            (rlp.listPrefix (blobsLen txsRlp) ++ txsRlp.flatten))).length =
            rlp.ListPrefixLen D + rlp.U64Len requestId +
              rlp.ListPrefixLen (blobsLen txsRlp) + txsRlp.flatten.length := by
          simp only [List.length_append, rlp.listPrefix_length, rlp.u64Bytes_length]; omega
        rw [hlen, t4, t3, t2, t1]
        simp only [List.append_assoc])
      (by
        rw [l4, l3, l2, l1, hsz]
        simp only [List.length_append, rlp.listPrefix_length, rlp.u64Bytes_length, ← hfl]
        omega)
    simp only [e2, e3, e4, ht]
  · rw [if_neg hroom]
    have h128 : 128 < requestId := by omega
    have hnone : rlp.EncodeU64 requestId (b1.drop (rlp.ListPrefixLen D)) = none :=
      rlp.EncodeU64_none requestId _ h128 (by
        simp only [List.length_drop, l1, hsz]; omega)
    simp only [Go.writeAt_none _ _ _ hnone]

end txpool

namespace txpool

open Go

theorem EncodeGetPooledTransactions66With_spec
    (enc : List Nat → List Nat → Option (List Nat × Nat)) (hashes : List Nat) (w : List Nat)
    (requestId : Nat) (encodeBuf : Slice)
    (hw : Go.Writes (enc hashes) w
      (rlp.ListPrefixLen (hashes.length / 32 * 33) + hashes.length / 32 * 33))
    (hwlen : w.length = rlp.ListPrefixLen (hashes.length / 32 * 33) + hashes.length / 32 * 33)
    (hn : hashes.length / 32 * 33 < 2 ^ 63) (hi : requestId < 2 ^ 64) :
    EncodeGetPooledTransactions66With enc hashes requestId encodeBuf =
      if requestId ≤ 128 ∨
          9 ≤ rlp.ListPrefixLen (hashes.length / 32 * 33) + hashes.length / 32 * 33 +
            rlp.U64Len requestId then
        some
          ({ data := rlp.listPrefix (rlp.ListPrefixLen (hashes.length / 32 * 33) +
                hashes.length / 32 * 33 + rlp.U64Len requestId) ++ (rlp.u64Bytes requestId ++ w),
             spare := (ensureEnoughSize encodeBuf
              (rlp.ListPrefixLen (rlp.ListPrefixLen (hashes.length / 32 * 33) +
                hashes.length / 32 * 33 + rlp.U64Len requestId) +
                (rlp.ListPrefixLen (hashes.length / 32 * 33) +
                hashes.length / 32 * 33 + rlp.U64Len requestId))).spare }, none)
      else none := by
  have hU := rlp.U64Len_le requestId
  have hP := rlp.ListPrefixLen_le (hashes.length / 32 * 33)
  have hP1 := rlp.ListPrefixLen_pos (hashes.length / 32 * 33)
  have h63 : (2 : Nat) ^ 63 + 18 < 2 ^ 64 := by norm_num
  generalize hD : rlp.ListPrefixLen (hashes.length / 32 * 33) + hashes.length / 32 * 33 +
    rlp.U64Len requestId = D
  have hD64 : D < 2 ^ 64 := by omega
  have hsz := ensureEnoughSize_len encodeBuf (rlp.ListPrefixLen D + D)
  obtain ⟨b1, e1, l1, t1⟩ := Go.writeAt_of_writes _ _ _ (rlp.EncodeListPrefix_writes D hD64)
    (ensureEnoughSize encodeBuf (rlp.ListPrefixLen D + D)).data 0
    (by rw [hsz, Nat.zero_add]; exact rlp.listPrefix_room _)
  rw [rlp.listPrefix_length, Nat.zero_add] at e1 t1
  simp only [List.take_zero, List.nil_append] at t1
  unfold EncodeGetPooledTransactions66With
  simp only [hD, e1]
  by_cases hroom : requestId ≤ 128 ∨ 9 ≤ D
  · rw [if_pos hroom]
    obtain ⟨b2, e2, l2, t2⟩ := Go.writeAt_of_writes _ _ _ (rlp.EncodeU64_writes requestId hi)
      b1 (rlp.ListPrefixLen D) (by
        rw [l1, hsz]
        have := rlp.u64_room requestId
          (rlp.ListPrefixLen (hashes.length / 32 * 33) + hashes.length / 32 * 33)
          (by
            rcases hroom with h | h
            · exact Or.inl h
            · right; omega)
        omega)
    rw [rlp.u64Bytes_length] at e2 t2
    obtain ⟨b3, e3, l3, t3⟩ := Go.writeAt_of_writes _ _ _ hw b2
      (rlp.ListPrefixLen D + rlp.U64Len requestId) (by rw [l2, l1, hsz]; omega)
    rw [hwlen] at e3 t3
    have ht := Go.eq_of_take_length b3
      (rlp.listPrefix D ++ (rlp.u64Bytes requestId ++ w))
      (by
        have hlen : (rlp.listPrefix D ++ (rlp.u64Bytes requestId ++ w)).length =
            rlp.ListPrefixLen D + rlp.U64Len requestId +
              (rlp.ListPrefixLen (hashes.length / 32 * 33) + hashes.length / 32 * 33) := by
          simp only [List.length_append, rlp.listPrefix_length, rlp.u64Bytes_length, hwlen]
          omega
        rw [hlen, t3, t2, t1]
        simp only [List.append_assoc])
      (by
        rw [l3, l2, l1, hsz]
        simp only [List.length_append, rlp.listPrefix_length, rlp.u64Bytes_length, hwlen]
        omega)
    simp only [e2, e3, ht]
  · rw [if_neg hroom]
    have h128 : 128 < requestId := by omega
    have hnone : rlp.EncodeU64 requestId (b1.drop (rlp.ListPrefixLen D)) = none :=
      rlp.EncodeU64_none requestId _ h128 (by
        simp only [List.length_drop, l1, hsz]; omega)
    simp only [Go.writeAt_none _ _ _ hnone]

theorem EncodeGetPooledTransactions66_spec (hashes : List Nat) (requestId : Nat)
    (encodeBuf : Slice) (hn : hashes.length / 32 * 33 < 2 ^ 63) (hi : requestId < 2 ^ 64) :
    EncodeGetPooledTransactions66 hashes requestId encodeBuf =
      if requestId ≤ 128 ∨
          9 ≤ rlp.ListPrefixLen (hashes.length / 32 * 33) + hashes.length / 32 * 33 +
            rlp.U64Len requestId then
        some
          ({ data := rlp.listPrefix (rlp.ListPrefixLen (hashes.length / 32 * 33) +
                hashes.length / 32 * 33 + rlp.U64Len requestId) ++ (rlp.u64Bytes requestId ++
                (rlp.listPrefix (hashes.length / 32 * 33) ++
                  rlp.hashItems hashes (hashes.length / 32) 0)),
             spare := (ensureEnoughSize encodeBuf
              (rlp.ListPrefixLen (rlp.ListPrefixLen (hashes.length / 32 * 33) +
                hashes.length / 32 * 33 + rlp.U64Len requestId) +
                (rlp.ListPrefixLen (hashes.length / 32 * 33) +
                hashes.length / 32 * 33 + rlp.U64Len requestId))).spare }, none)
      else none :=
  EncodeGetPooledTransactions66With_spec rlp.EncodeHashes hashes _ requestId encodeBuf
    (rlp.EncodeHashes_writes hashes (by
      have : (2 : Nat) ^ 63 < 2 ^ 64 := by norm_num
      omega)) (announcement_length hashes) hn hi

end txpool

/-! ## Claims about the scratch buffer -/

/-- C14. Scratch buffer discipline: for every buffer `in_` and every `size`,
`ensureEnoughSize` returns a slice of length `size`. When `cap(in_) >= size` it is the
backing storage of `in_` re-sliced to `size`: storage and capacity are those of `in_`, and
its first `min(len(in_), size)` bytes are those of `in_`. When `cap(in_) < size` it is a
buffer of capacity `size` holding the `len(in_)` bytes of `in_` followed by zeros. -/
theorem ensureEnoughSize_discipline (in_ : Go.Slice) (size : Nat) :
    (txpool.ensureEnoughSize in_ size).len = size ∧
    (size ≤ in_.cap →
      (txpool.ensureEnoughSize in_ size).data ++ (txpool.ensureEnoughSize in_ size).spare =
        in_.data ++ in_.spare ∧
      (txpool.ensureEnoughSize in_ size).cap = in_.cap ∧
      (txpool.ensureEnoughSize in_ size).data = (in_.data ++ in_.spare).take size ∧
      (txpool.ensureEnoughSize in_ size).data.take (min in_.len size) =
        in_.data.take (min in_.len size)) ∧
    (in_.cap < size →
      (txpool.ensureEnoughSize in_ size).cap = size ∧
      (txpool.ensureEnoughSize in_ size).data =
        in_.data ++ List.replicate (size - in_.len) 0 ∧
      (txpool.ensureEnoughSize in_ size).data.take in_.len = in_.data) := by
  refine ⟨txpool.ensureEnoughSize_len in_ size, ?_, ?_⟩
  · intro h
    have h1 : ¬ in_.cap < size := by omega
    have e : txpool.ensureEnoughSize in_ size =
        ⟨(in_.data ++ in_.spare).take size, (in_.data ++ in_.spare).drop size⟩ := by
      simp only [txpool.ensureEnoughSize, h1, if_false]
    rw [e]
    simp only [Go.Slice.cap, Go.Slice.len] at h ⊢
    refine ⟨List.take_append_drop _ _, ?_, trivial, ?_⟩
    · simp only [List.length_take, List.length_drop, List.length_append]; omega
    · rw [List.take_take]
      by_cases hl : in_.data.length ≤ size
      · rw [Nat.min_eq_left (Nat.min_le_right _ _), Nat.min_eq_left hl,
          List.take_append_of_le_length (le_refl _)]
      · rw [Nat.min_eq_left (Nat.min_le_right _ _), Nat.min_eq_right (by omega),
          List.take_append_of_le_length (by omega)]
  · intro h
    have e : txpool.ensureEnoughSize in_ size =
        ⟨Go.copy (List.replicate size 0) in_.data, []⟩ := by
      simp only [txpool.ensureEnoughSize, h, if_true]
    rw [e]
    simp only [Go.Slice.cap, Go.Slice.len, Go.copy] at h ⊢
    have e1 : List.take (List.replicate size 0).length in_.data = in_.data := by
      apply List.take_of_length_le; simp; omega
    have e2 : List.drop in_.data.length (List.replicate size 0) =
        List.replicate (size - in_.data.length) 0 := by
      simp
    rw [e1, e2]
    refine ⟨?_, rfl, ?_⟩
    · simp; omega
    · exact List.take_left' rfl

/-- C14 on a buffer of length 2 and capacity 5, asked for 4 and for 7 bytes. -/
theorem ensureEnoughSize_discipline_witness :
    txpool.ensureEnoughSize ⟨[1, 2], [3, 4, 5]⟩ 4 = ⟨[1, 2, 3, 4], [5]⟩ ∧
    txpool.ensureEnoughSize ⟨[1, 2], [3, 4, 5]⟩ 7 = ⟨[1, 2, 0, 0, 0, 0, 0], []⟩ ∧
    (txpool.ensureEnoughSize ⟨[1, 2], [3, 4, 5]⟩ 4).len = 4 :=
  ⟨by decide, by decide, (ensureEnoughSize_discipline ⟨[1, 2], [3, 4, 5]⟩ 4).1⟩

namespace txpool

end txpool

/-- C18 (defect of the code). The request-tagged encoders panic exactly when the request
id is above 128 and fewer than 9 bytes follow the outer list prefix: `EncodeU64` calls
`PutUint64(to[1:], i)`, which needs `len(to) >= 9`, on a buffer sized by `U64Len`. With no
hashes, or no blobs, and request id 129 both panic; more blobs or hashes, or a request id
of at most 128, and they return. -/
theorem request_tagged_encoders_panic :
    txpool.EncodeGetPooledTransactions66 [] 129 Go.Slice.nil = none ∧
    txpool.EncodePooledTransactions66 [] 129 Go.Slice.nil = none ∧
    txpool.EncodeGetPooledTransactions66 [] (2 ^ 48 - 1) ⟨[], List.replicate 64 0⟩ = none ∧
    (∀ (hashes : List Nat) (requestId : Nat) (encodeBuf : Go.Slice),
      hashes.length / 32 * 33 < 2 ^ 63 → requestId < 2 ^ 64 →
      (txpool.EncodeGetPooledTransactions66 hashes requestId encodeBuf = none ↔
        128 < requestId ∧
          rlp.ListPrefixLen (hashes.length / 32 * 33) + hashes.length / 32 * 33 +
            rlp.U64Len requestId < 9)) ∧
    (∀ (txsRlp : List (List Nat)) (requestId : Nat) (encodeBuf : Go.Slice),
      txpool.blobsLen txsRlp < 2 ^ 63 → requestId < 2 ^ 64 →
      (txpool.EncodePooledTransactions66 txsRlp requestId encodeBuf = none ↔
        128 < requestId ∧
          rlp.U64Len requestId + rlp.ListPrefixLen (txpool.blobsLen txsRlp) +
            txpool.blobsLen txsRlp < 9)) := by
  refine ⟨by decide, by decide, by decide, ?_, ?_⟩
  · intro hashes requestId encodeBuf hn hi
    rw [txpool.EncodeGetPooledTransactions66_spec hashes requestId encodeBuf hn hi]
    split
    · rename_i h
      simp only [reduceCtorEq, false_iff]
      omega
    · rename_i h
      simp only [true_iff]
      omega
  · intro txsRlp requestId encodeBuf hL hi
    rw [txpool.EncodePooledTransactions66_spec txsRlp requestId encodeBuf hL hi]
    split
    · rename_i h
      simp only [reduceCtorEq, false_iff]
      omega
    · rename_i h
      simp only [true_iff]
      omega

namespace rlp

theorem u64Bytes_inj (i j : Nat) (hi : i < 2 ^ 64) (hj : j < 2 ^ 64) (hi8 : i ≠ 128)
    (hj8 : j ≠ 128) (h : u64Bytes i = u64Bytes j) : i = j := by
  unfold u64Bytes U64Len at h
  by_cases ci : i > 128 <;> by_cases cj : j > 128
  · obtain ⟨a1, a8, alo, ahi⟩ := Go.Len64_bounds i (by omega) hi
    obtain ⟨b1, b8, blo, bhi⟩ := Go.Len64_bounds j (by omega) hj
    simp only [ci, cj, if_true, Nat.add_sub_cancel_left, List.cons.injEq] at h
    obtain ⟨h1, h2⟩ := h
    have hk : (Go.Len64 i + 7) / 8 = (Go.Len64 j + 7) / 8 := by omega
    rw [hk] at h2 ahi
    have f1 := Go.beBytes_fold ((Go.Len64 j + 7) / 8) i
    have f2 := Go.beBytes_fold ((Go.Len64 j + 7) / 8) j
    rw [h2, f2, Nat.mod_eq_of_lt bhi, Nat.mod_eq_of_lt ahi] at f1
    exact f1.symm
  · have hl := congrArg List.length h
    by_cases j0 : j = 0 <;>
      simp [ci, cj, j0, Go.beBytes_length] at hl <;>
      · obtain ⟨a1, -, -, -⟩ := Go.Len64_bounds i (by omega) hi
        omega
  · have hl := congrArg List.length h
    by_cases i0 : i = 0 <;>
      simp [ci, cj, i0, Go.beBytes_length] at hl <;>
      · obtain ⟨a1, -, -, -⟩ := Go.Len64_bounds j (by omega) hj
        omega
  · by_cases i0 : i = 0 <;> by_cases j0 : j = 0 <;> simp [ci, cj, i0, j0] at h <;> omega

end rlp

/-- C19 (defect of the code). `U64Len` and `EncodeU64` test `i > 128`, so 128 takes the
one-byte branch: `U64Len 128 = 1` and the byte written is `0x80`, the byte written for 0,
where the canonical encoding is `0x81 0x80`. Two different integers, 0 and 128, get the
same encoding. For every other `uint64` and every destination of at least 9 bytes the
bytes are the canonical ones, and two different integers other than 128 never get the
same encoding. -/
theorem EncodeU64_128_is_encoded_as_0 :
    rlp.U64Len 128 = 1 ∧
    rlp.EncodeU64 128 (List.replicate 9 0) = some (128 :: List.replicate 8 0, 1) ∧
    rlp.EncodeU64 0 (List.replicate 9 0) = some (128 :: List.replicate 8 0, 1) ∧
    rlp.EncodeU64 128 = rlp.EncodeU64 0 ∧
    (∀ (i : Nat) (to_ : List Nat), i < 2 ^ 64 → i ≠ 128 → 9 ≤ to_.length →
      ∃ t, rlp.EncodeU64 i to_ = some (t, rlp.U64Len i) ∧ t.length = to_.length ∧
        (i = 0 → rlp.U64Len i = 1 ∧ t.take 1 = [128]) ∧
        (1 ≤ i → i ≤ 127 → rlp.U64Len i = 1 ∧ t.take 1 = [i]) ∧
        (128 < i → ∃ l, rlp.U64Len i = 1 + l ∧ 1 ≤ l ∧ l ≤ 8 ∧
          256 ^ (l - 1) ≤ i ∧ i < 256 ^ l ∧
          t.take (1 + l) = (128 + l) :: Go.beBytes l i ∧
          (Go.beBytes l i).getD 0 0 ≠ 0)) ∧
    (∀ i j : Nat, i < 2 ^ 64 → j < 2 ^ 64 → i ≠ 128 → j ≠ 128 →
      rlp.u64Bytes i = rlp.u64Bytes j → i = j) := by
  refine ⟨by decide, by decide, by decide, ?_, ?_, ?_⟩
  · funext dst
    simp [rlp.EncodeU64]
  · intro i to_ hi h8 hlen
    by_cases c : 128 < i
    · obtain ⟨t, e, l, tk, -⟩ := rlp.EncodeU64_long i to_ c hi hlen
      obtain ⟨k1, k8, klo, khi⟩ := Go.Len64_bounds i (by omega) hi
      have hU : rlp.U64Len i = 1 + (Go.Len64 i + 7) / 8 := by
        simp only [rlp.U64Len, gt_iff_lt, c, if_true]
      have hb : rlp.u64Bytes i = (128 + (Go.Len64 i + 7) / 8) ::
          Go.beBytes ((Go.Len64 i + 7) / 8) i := by
        simp only [rlp.u64Bytes, gt_iff_lt, c, if_true, hU, Nat.add_sub_cancel_left]
      refine ⟨t, e, l, fun h0 => by omega, fun _ h127 => by omega, fun _ =>
        ⟨_, hU, k1, k8, klo, khi, by rw [← hU, tk, hb], Go.beBytes_head _ _ k1 klo khi⟩⟩
    · have hle : i ≤ 128 := by omega
      have hU : rlp.U64Len i = 1 := by
        simp only [rlp.U64Len, gt_iff_lt, c, if_false]
      refine ⟨(if i = 0 then 128 else i) :: to_.drop 1, ?_, ?_, ?_, ?_, fun h => absurd h c⟩
      · rw [rlp.EncodeU64_short i to_ hle (by omega), hU]
      · simp; omega
      · intro h0; exact ⟨hU, by simp [h0]⟩
      · intro h1 _
        have : i ≠ 0 := by omega
        exact ⟨hU, by simp [this]⟩
  · exact rlp.u64Bytes_inj

/-! ## What `EncodeString` writes -/

namespace Go

theorem copy_eq (dst src : List Nat) (h : src.length ≤ dst.length) :
    copy dst src = src ++ dst.drop src.length := by
  unfold copy
  rw [List.take_of_length_le h]

end Go

namespace rlp

theorem EncodeString_empty (to_ : List Nat) (hlen : 1 ≤ to_.length) :
    EncodeString [] to_ = some (128 :: to_.drop 1) := by
  rcases to_ with _ | ⟨a, r⟩
  · simp at hlen
  · simp [EncodeString, Go.setIdx]

theorem EncodeString_single (b : Nat) (to_ : List Nat) (hlen : 2 ≤ to_.length) :
    EncodeString [b] to_ =
      some ((if b ≥ 128 then 129 else to_.getD 0 0) :: b :: to_.drop 2) := by
  rcases to_ with _ | ⟨a0, _ | ⟨a1, r⟩⟩
  · simp at hlen
  · simp at hlen
  · by_cases hb : b ≥ 128 <;> simp [EncodeString, Go.copy, hb]

theorem EncodeString_short (s to_ : List Nat) (h2 : 2 ≤ s.length) (h56 : s.length ≤ 56)
    (hlen : s.length < to_.length) :
    EncodeString s to_ = some ((s.length + 128) :: s ++ to_.drop (s.length + 1)) := by
  have c1 : ¬ s.length > 56 := by omega
  have c2 : ¬ s.length = 0 := by omega
  have c3 : ¬ s.length = 1 := by omega
  have c4 : ¬ to_.length ≤ s.length := by omega
  have m1 : s.length % 256 = s.length := Nat.mod_eq_of_lt (by omega)
  have m2 : (s.length + 128) % 256 = s.length + 128 := Nat.mod_eq_of_lt (by omega)
  rcases to_ with _ | ⟨a, r⟩
  · simp at hlen
  · simp only [List.length_cons] at hlen
    have e : List.take r.length s = s := List.take_of_length_le (by omega)
    simp [EncodeString, c1, c2, c3, c4, m1, m2, Go.copy, e]
    omega

theorem EncodeString_long (s to_ : List Nat) (h57 : 57 ≤ s.length) (h64 : s.length < 2 ^ 64)
    (hlen : (Go.Len64 s.length + 7) / 8 + s.length < to_.length) :
    ∃ t, EncodeString s to_ = some t ∧ t.length = to_.length ∧
      t.take (1 + (Go.Len64 s.length + 7) / 8 + s.length) =
        (183 + (Go.Len64 s.length + 7) / 8) :: Go.beBytes ((Go.Len64 s.length + 7) / 8) s.length
          ++ s := by
  obtain ⟨hk1, hk8, -, -⟩ := Go.Len64_bounds s.length (by omega) h64
  have hmod : s.length % 18446744073709551616 = s.length :=
    Nat.mod_eq_of_lt (by norm_num at h64; exact h64)
  have c1 : s.length > 56 := by omega
  rcases to_ with _ | ⟨a0, _ | ⟨a1, _ | ⟨a2, _ | ⟨a3, _ | ⟨a4, _ | ⟨a5, _ | ⟨a6, _ | ⟨a7, _ | ⟨a8, r⟩⟩⟩⟩⟩⟩⟩⟩⟩ <;>
    simp only [List.length_nil, List.length_cons] at hlen <;> try omega
  unfold EncodeString
  simp only [c1, if_true]
  generalize (Go.Len64 s.length + 7) / 8 = k at hk1 hk8 hlen
  have hl : ¬ (r.length + 1 + 1 + 1 + 1 + 1 + 1 + 1 + 1 < 8) := by omega
  interval_cases k <;>
    simp [Go.PutUint64, Go.setIdx, Go.be64, Go.beBytes, hmod, hl, Nat.div_div_eq_div_mul]
  all_goals
    refine ⟨_, ⟨by omega, rfl⟩, ?_, ?_⟩
  all_goals
    rw [Go.copy_eq _ s (by simp [Go.copy]; omega)]
    simp [Go.copy]
  all_goals
    first
      | omega
      | (rw [Nat.add_comm]; simp only [List.take_succ_cons, List.take_left])

end rlp

/-- C20 (defect of the code). `EncodeString` departs from the canonical encoding in two
cases. For a single byte below 128 it never writes index 0: the byte lands at index 1
behind whatever `to[0]` held. For a string of 56 bytes the first case tests
`len(s) > 56`, so the short form is used: the byte 184 (128 + 56) followed by `s`, where
the canonical encoding is 184 (183 + 1), the length byte 56, then `s`. In the other cases
(empty, a single byte from 128 on, 2 to 55 bytes, 57 bytes and more) the bytes are the
canonical ones. -/
theorem EncodeString_not_canonical :
    rlp.EncodeString [5] [9, 9] = some [9, 5] ∧
    (∀ (b : Nat) (to_ : List Nat), b < 128 → 2 ≤ to_.length →
      rlp.EncodeString [b] to_ = some (to_.getD 0 0 :: b :: to_.drop 2)) ∧
    rlp.EncodeString (List.replicate 56 1) (List.replicate 58 0) =
      some (184 :: List.replicate 56 1 ++ [0]) ∧
    (∀ s to_ : List Nat, s.length = 56 → 57 ≤ to_.length →
      rlp.EncodeString s to_ = some (184 :: s ++ to_.drop 57)) ∧
    (∀ to_ : List Nat, 1 ≤ to_.length → rlp.EncodeString [] to_ = some (128 :: to_.drop 1)) ∧
    (∀ (b : Nat) (to_ : List Nat), 128 ≤ b → 2 ≤ to_.length →
      rlp.EncodeString [b] to_ = some (129 :: b :: to_.drop 2)) ∧
    (∀ s to_ : List Nat, 2 ≤ s.length → s.length ≤ 55 → s.length < to_.length →
      rlp.EncodeString s to_ = some ((128 + s.length) :: s ++ to_.drop (s.length + 1))) ∧
    (∀ s to_ : List Nat, 57 ≤ s.length → s.length < 2 ^ 63 → 9 + s.length ≤ to_.length →
      ∃ t k, rlp.EncodeString s to_ = some t ∧ t.length = to_.length ∧
        1 ≤ k ∧ k ≤ 8 ∧ 256 ^ (k - 1) ≤ s.length ∧ s.length < 256 ^ k ∧
        t.take (1 + k + s.length) = (183 + k) :: Go.beBytes k s.length ++ s) := by
  refine ⟨by decide, ?_, by decide, ?_, ?_, ?_, ?_, ?_⟩
  · intro b to_ hb hlen
    have : ¬ b ≥ 128 := by omega
    rw [rlp.EncodeString_single b to_ hlen, if_neg this]
  · intro s to_ hs hlen
    rw [rlp.EncodeString_short s to_ (by omega) (by omega) (by omega), hs]
  · intro to_ hlen
    exact rlp.EncodeString_empty to_ hlen
  · intro b to_ hb hlen
    rw [rlp.EncodeString_single b to_ hlen, if_pos hb]
  · intro s to_ h2 h55 hlen
    rw [rlp.EncodeString_short s to_ h2 (by omega) hlen, Nat.add_comm]
  · intro s to_ h57 h63 hlen
    have h64 : s.length < 2 ^ 64 := by
      have : (2 : Nat) ^ 63 < 2 ^ 64 := by norm_num
      omega
    obtain ⟨k1, k8, klo, khi⟩ := Go.Len64_bounds s.length (by omega) h64
    obtain ⟨t, e, l, tk⟩ := rlp.EncodeString_long s to_ h57 h64 (by omega)
    exact ⟨t, _, e, l, k1, k8, klo, khi, tk⟩

/-! ## Removal from a Tier and admission at capacity -/

namespace txpool

theorem heapDown_perm (less : MetaTx → MetaTx → Bool) :
    ∀ (fuel : Nat) (h : List MetaTx) (i : Nat), (heapDown less fuel h i).Perm h := by
  intro fuel
  induction fuel with
  | zero => intro h i; exact List.Perm.refl _
  | succ fuel ih =>
    intro h i
    simp only [heapDown]
    split
    · split
      · split
        · exact List.Perm.refl _
        · exact (ih _ _).trans (heapSwap_perm h _ _)
      · exact List.Perm.refl _
    · exact List.Perm.refl _

theorem heapSwap_last (h : List MetaTx) (i : Nat) (w : MetaTx) (hw : h[i]? = some w) :
    heapSwap h i (h.length - 1) = (heapSwap h i (h.length - 1)).dropLast ++ [w] := by
  have hi := lt_of_getElem?_some _ _ _ hw
  have hl : (heapSwap h i (h.length - 1))[h.length - 1]? = some w := by
    by_cases e : i = h.length - 1
    · have : heapSwap h i (h.length - 1) = h := by
        rw [← e]
        simp only [heapSwap, hw]
        apply List.ext_getElem?
        intro k
        rw [List.getElem?_set, List.getElem?_set]
        by_cases hk : i = k
        · subst hk; simp [hi, hw]
        · simp [hk]
      rw [this, ← e, hw]
    · obtain ⟨y, hy⟩ := getElem?_some_of_lt h (h.length - 1) (by omega)
      rw [heapSwap_get h i (h.length - 1) w y e hw hy]
      have e2 : h.length - 1 ≠ i := fun c => e c.symm
      simp [e2]
  have hne : heapSwap h i (h.length - 1) ≠ [] := by
    intro c
    have := heapSwap_length h i (h.length - 1)
    rw [c] at this; simp at this; omega
  have hlast : (heapSwap h i (h.length - 1)).getLast hne = w := by
    rw [List.getLast_eq_getElem]
    have := heapSwap_length h i (h.length - 1)
    simp only [this]
    rw [List.getElem?_eq_getElem (by rw [this]; omega)] at hl
    exact Option.some.inj hl
  conv_lhs => rw [← List.dropLast_append_getLast hne]
  rw [hlast]

theorem heapSwap_dropLast_perm (h : List MetaTx) (i : Nat) (w : MetaTx) (hw : h[i]? = some w) :
    ((heapSwap h i (h.length - 1)).dropLast).Perm (h.erase w) := by
  have hmem : w ∈ h := List.mem_iff_getElem?.mpr ⟨i, hw⟩
  have h1 : ((heapSwap h i (h.length - 1)).dropLast ++ [w]).Perm h := by
    rw [← heapSwap_last h i w hw]; exact heapSwap_perm h _ _
  have h2 : (w :: (heapSwap h i (h.length - 1)).dropLast).Perm (w :: h.erase w) :=
    ((List.perm_append_singleton _ _).symm.trans h1).trans (List.perm_cons_erase hmem)
  exact List.Perm.cons_inv h2

theorem heapRemove_perm (less : MetaTx → MetaTx → Bool) (h : List MetaTx) (i : Nat)
    (w : MetaTx) (hw : h[i]? = some w) : (heapRemove less h i).Perm (h.erase w) := by
  have hi := lt_of_getElem?_some _ _ _ hw
  simp only [heapRemove, hi, if_true]
  exact ((heapUp_perm less _ _ _).trans (heapDown_perm less _ _ _)).trans
    (heapSwap_dropLast_perm h i w hw)

theorem getElem?_indexOf (h : List MetaTx) (w : MetaTx) (hw : w ∈ h) :
    h[h.indexOf w]? = some w := by
  have hlt : h.indexOf w < h.length := List.indexOf_lt_length.mpr hw
  rw [List.getElem?_eq_getElem hlt]
  simp

end txpool
namespace txpool

theorem heapDown_step (less : MetaTx → MetaTx → Bool) (ok : LessOrder less) (fuel : Nat)
    (h : List MetaTx) (i : Nat) (x y1 : MetaTx) (hx : h[i]? = some x)
    (hy1 : h[2 * i + 1]? = some y1) :
    ∃ j y, (j = 2 * i + 1 ∨ j = 2 * i + 2) ∧ h[j]? = some y ∧
      (∀ k c, 0 < k → (k - 1) / 2 = i → h[k]? = some c → less c y = false) ∧
      heapDown less (fuel + 1) h i =
        if less y x = false then h else heapDown less fuel (heapSwap h i j) j := by
  cases hy2 : h[2 * i + 2]? with
  | none =>
    refine ⟨2 * i + 1, y1, Or.inl rfl, hy1, ?_, ?_⟩
    · intro k c hk hp hc
      rcases (by omega : k = 2 * i + 1 ∨ k = 2 * i + 2) with e | e
      · subst e; rw [hy1] at hc; cases hc; exact less_irrefl less ok _
      · subst e; rw [hy2] at hc; cases hc
    · simp [heapDown, hx, hy1, hy2]
  | some y2 =>
    by_cases hl : less y2 y1 = true
    · refine ⟨2 * i + 2, y2, Or.inr rfl, hy2, ?_, ?_⟩
      · intro k c hk hp hc
        rcases (by omega : k = 2 * i + 1 ∨ k = 2 * i + 2) with e | e
        · subst e; rw [hy1] at hc; cases hc; exact ok.asymm _ _ hl
        · subst e; rw [hy2] at hc; cases hc; exact less_irrefl less ok _
      · simp [heapDown, hx, hy1, hy2, hl]
    · have hl2 : less y2 y1 = false := by simpa using hl
      refine ⟨2 * i + 1, y1, Or.inl rfl, hy1, ?_, ?_⟩
      · intro k c hk hp hc
        rcases (by omega : k = 2 * i + 1 ∨ k = 2 * i + 2) with e | e
        · subst e; rw [hy1] at hc; cases hc; exact less_irrefl less ok _
        · subst e; rw [hy2] at hc; cases hc; exact hl2
      · simp [heapDown, hx, hy1, hy2, hl2]

theorem heapDown_stop (less : MetaTx → MetaTx → Bool) (h r : List MetaTx) (i : Nat)
    (e : r = h) (inv : DownInv less h i)
    (hch : ∀ k c x, 0 < k → (k - 1) / 2 = i → h[k]? = some c → h[i]? = some x →
      less c x = false) :
    (∀ k x y, 0 < k → k ≠ i → r[k]? = some x → r[(k - 1) / 2]? = some y → less x y = false) ∧
    (∀ k, k < i → r[k]? = h[k]?) ∧
    (r[i]? = h[i]? ∨ r[i]? = h[2 * i + 1]? ∨ r[i]? = h[2 * i + 2]?) ∧
    (∀ k a z, 0 < k → (k - 1) / 2 = i → 0 < i → r[k]? = some a → h[(i - 1) / 2]? = some z →
      less a z = false) := by
  subst e
  refine ⟨?_, fun _ _ => rfl, Or.inl rfl, inv.2⟩
  intro k x y hk hki hx hy
  by_cases hp : (k - 1) / 2 = i
  · rw [hp] at hy
    exact hch k x y hk hp hx hy
  · exact inv.1 k x y hk hki hp hx hy

theorem heapDown_spec (less : MetaTx → MetaTx → Bool) (ok : LessOrder less) :
    ∀ (fuel : Nat) (h : List MetaTx) (i : Nat), h.length ≤ fuel + i → DownInv less h i →
      (∀ k x y, 0 < k → k ≠ i → (heapDown less fuel h i)[k]? = some x →
        (heapDown less fuel h i)[(k - 1) / 2]? = some y → less x y = false) ∧
      (∀ k, k < i → (heapDown less fuel h i)[k]? = h[k]?) ∧
      ((heapDown less fuel h i)[i]? = h[i]? ∨ (heapDown less fuel h i)[i]? = h[2 * i + 1]? ∨
        (heapDown less fuel h i)[i]? = h[2 * i + 2]?) ∧
      (∀ k a z, 0 < k → (k - 1) / 2 = i → 0 < i → (heapDown less fuel h i)[k]? = some a →
        h[(i - 1) / 2]? = some z → less a z = false) := by
  intro fuel
  induction fuel with
  | zero =>
    intro h i hlen inv
    apply heapDown_stop less h _ i rfl inv
    intro k c x hk hp hc hx
    have := lt_of_getElem?_some _ _ _ hx
    omega
  | succ fuel ih =>
    intro h i hlen inv
    rcases Option.eq_none_or_eq_some (h[i]?) with hx | ⟨x, hx⟩
    · have e : heapDown less (fuel + 1) h i = h := by simp [heapDown, hx]
      apply heapDown_stop less h _ i e inv
      intro k c x hk hp hc hx2
      rw [hx] at hx2; cases hx2
    · rcases Option.eq_none_or_eq_some (h[2 * i + 1]?) with hy1 | ⟨y1, hy1⟩
      · have e : heapDown less (fuel + 1) h i = h := by simp [heapDown, hx, hy1]
        apply heapDown_stop less h _ i e inv
        intro k c x hk hp hc hx2
        have h1 := lt_of_getElem?_some _ _ _ hc
        have h2 : h.length ≤ 2 * i + 1 := by
          by_contra hcon
          rw [List.getElem?_eq_getElem (by omega)] at hy1; cases hy1
        omega
      · obtain ⟨j, y, hj, hyj, hmin, heq⟩ := heapDown_step less ok fuel h i x y1 hx hy1
        rw [heq]
        by_cases hs : less y x = false
        · rw [if_pos hs]
          apply heapDown_stop less h _ i rfl inv
          intro k c x2 hk hp hc hx2
          rw [hx] at hx2; cases hx2
          exact ok.trans _ _ _ hs (hmin k c hk hp hc)
        · rw [if_neg hs]
          have hlt : less y x = true := by simpa using hs
          have hij : i ≠ j := by omega
          have get2 := heapSwap_get h i j x y hij hx hyj
          have hjlen := lt_of_getElem?_some _ _ _ hyj
          have inv2 : DownInv less (heapSwap h i j) j := by
            constructor
            · intro k a b hk hkj hpj ha hb
              rw [get2] at ha hb
              by_cases hki : k = i
              · rw [if_pos hki] at ha; cases ha
                have hpi : ¬ (k - 1) / 2 = i := by omega
                rw [if_neg hpi, if_neg hpj] at hb
                rw [hki] at hb
                exact inv.2 j y b (by omega) (by omega) (by omega) hyj hb
              · rw [if_neg hki, if_neg hkj] at ha
                by_cases hpi : (k - 1) / 2 = i
                · rw [if_pos hpi] at hb; cases hb
                  exact hmin k a hk hpi ha
                · rw [if_neg hpi, if_neg hpj] at hb
                  exact inv.1 k a b hk hki hpi ha hb
            · intro k a z hk hpj hj0 ha hz
              rw [get2] at ha hz
              have e1 : (j - 1) / 2 = i := by omega
              rw [if_pos e1] at hz; cases hz
              have hki : ¬ k = i := by omega
              have hkj : ¬ k = j := by omega
              rw [if_neg hki, if_neg hkj] at ha
              exact inv.1 k a y hk hki (by omega) ha (by rw [hpj]; exact hyj)
          obtain ⟨r1, r2, r3, _⟩ := ih (heapSwap h i j) j
            (by rw [heapSwap_length]; omega) inv2
          have ri : (heapDown less fuel (heapSwap h i j) j)[i]? = some y := by
            rw [r2 i (by omega), get2, if_pos rfl]
          have c1 : ∀ k a b, 0 < k → k ≠ i →
              (heapDown less fuel (heapSwap h i j) j)[k]? = some a →
              (heapDown less fuel (heapSwap h i j) j)[(k - 1) / 2]? = some b →
              less a b = false := by
            intro k a b hk hki ha hb
            by_cases hkj : k = j
            · subst hkj
              have e1 : (k - 1) / 2 = i := by omega
              rw [e1, ri] at hb; cases hb
              have g1 : ∀ m, (m - 1) / 2 = k → 0 < m → h[m]? = some a → less a y = false := by
                intro m hm hm0 hma
                exact inv.1 m a y hm0 (by omega) (by omega) hma (by rw [hm]; exact hyj)
              rcases r3 with e | e | e
              · rw [e, get2, if_neg (by omega), if_pos rfl] at ha; cases ha
                exact ok.asymm _ _ hlt
              · rw [e, get2, if_neg (by omega), if_neg (by omega)] at ha
                exact g1 _ (by omega) (by omega) ha
              · rw [e, get2, if_neg (by omega), if_neg (by omega)] at ha
                exact g1 _ (by omega) (by omega) ha
            · exact r1 k a b hk hkj ha hb
          refine ⟨c1, ?_, ?_, ?_⟩
          · intro k hk
            rw [r2 k (by omega), get2, if_neg (by omega), if_neg (by omega)]
          · rw [ri, ← hyj]
            rcases hj with e | e
            · right; left; rw [e]
            · right; right; rw [e]
          · intro k a z hk hp hi0 ha hz
            have hyz := inv.2 j y z (by omega) (by omega) hi0 hyj hz
            have hay := c1 k a y hk (by omega) ha (by rw [hp]; exact ri)
            exact ok.trans _ _ _ hyz hay

end txpool
namespace txpool

theorem heapSwap_get_other (h : List MetaTx) (i j k : Nat) (hi : k ≠ i) (hj : k ≠ j) :
    (heapSwap h i j)[k]? = h[k]? := by
  unfold heapSwap
  split
  · rw [List.getElem?_set, List.getElem?_set]
    rw [if_neg (fun e => hj e.symm), if_neg (fun e => hi e.symm)]
  · rfl

theorem getElem?_dropLast_some (l : List MetaTx) (k : Nat) (a : MetaTx)
    (h : l.dropLast[k]? = some a) : l[k]? = some a ∧ k + 1 < l.length := by
  have hk := lt_of_getElem?_some _ _ _ h
  have hk2 : k < l.length - 1 := by simpa using hk
  have hne : l ≠ [] := by
    intro c
    subst c
    simp at hk
  have e := List.dropLast_append_getLast hne
  constructor
  · conv_lhs => rw [← e]
    rw [List.getElem?_append_left hk]
    exact h
  · omega

theorem heapUp_none (less : MetaTx → MetaTx → Bool) (fuel : Nat) (h : List MetaTx) (j : Nat)
    (hj : h[j]? = none) : heapUp less fuel h j = h := by
  cases fuel with
  | zero => rfl
  | succ fuel => simp [heapUp, hj]

theorem heapRemove_isHeap (less : MetaTx → MetaTx → Bool) (ok : LessOrder less)
    (h : List MetaTx) (i : Nat) (hh : IsHeap less h) : IsHeap less (heapRemove less h i) := by
  by_cases hi : i < h.length
  · obtain ⟨w, hw⟩ := getElem?_some_of_lt h i hi
    simp only [heapRemove, hi, if_true]
    have hlen1 : ((heapSwap h i (h.length - 1)).dropLast).length = h.length - 1 := by
      rw [List.length_dropLast, heapSwap_length]
    have get1 : ∀ k a, ((heapSwap h i (h.length - 1)).dropLast)[k]? = some a → k ≠ i →
        h[k]? = some a := by
      intro k a ha hki
      obtain ⟨g1, g2⟩ := getElem?_dropLast_some _ _ _ ha
      rw [heapSwap_length] at g2
      rw [heapSwap_get_other h i (h.length - 1) k hki (by omega)] at g1
      exact g1
    have inv : DownInv less ((heapSwap h i (h.length - 1)).dropLast) i := by
      constructor
      · intro k a b hk hki hpi ha hb
        exact hh k a b hk (get1 k a ha hki) (get1 _ b hb hpi)
      · intro k a z hk hp hi0 ha hz
        have h1 := hh k a w hk (get1 k a ha (by omega)) (by rw [hp]; exact hw)
        have h2 := hh i w z hi0 hw (get1 _ z hz (by omega))
        exact ok.trans _ _ _ h2 h1
    obtain ⟨r1, r2, _, r4⟩ := heapDown_spec less ok
      ((heapSwap h i (h.length - 1)).dropLast).length
      ((heapSwap h i (h.length - 1)).dropLast) i (by omega) inv
    have hlenr := (heapDown_perm less ((heapSwap h i (h.length - 1)).dropLast).length
      ((heapSwap h i (h.length - 1)).dropLast) i).length_eq
    by_cases hi1 : i < ((heapSwap h i (h.length - 1)).dropLast).length
    · apply heapUp_isHeap less ok _ _ i (by omega) (by omega)
      refine ⟨r1, ?_⟩
      intro k a z hk hp hi0 ha hz
      rw [r2 _ (by omega)] at hz
      exact r4 k a z hk hp hi0 ha hz
    · have hnone : (heapDown less ((heapSwap h i (h.length - 1)).dropLast).length
          ((heapSwap h i (h.length - 1)).dropLast) i)[i]? = none :=
        List.getElem?_eq_none (by omega)
      rw [heapUp_none less _ _ _ hnone]
      intro k a b hk ha hb
      have hki : k ≠ i := by
        intro e
        rw [e, hnone] at ha; cases ha
      exact r1 k a b hk hki ha hb
  · simp only [heapRemove, hi, if_false]
    exact hh

theorem Remove_spec (t : SubPool) (w : MetaTx) (hwf : t.WF) (hw : w ∈ t.worst) :
    (t.Remove w).WF ∧ (t.Remove w).worst.Perm (t.worst.erase w) ∧
      (t.Remove w).best.Perm (t.best.erase w) := by
  obtain ⟨hb, hwo, hp⟩ := hwf
  have hwb : w ∈ t.best := hp.mem_iff.mpr hw
  have p1 := heapRemove_perm (fun a b => decide (a.SubPool < b.SubPool)) t.worst
    (t.worst.indexOf w) w (getElem?_indexOf _ _ hw)
  have p2 := heapRemove_perm (fun a b => decide (a.SubPool > b.SubPool)) t.best
    (t.best.indexOf w) w (getElem?_indexOf _ _ hwb)
  refine ⟨⟨heapRemove_isHeap _ lessBest_ok _ _ hb, heapRemove_isHeap _ lessWorst_ok _ _ hwo, ?_⟩,
    p1, p2⟩
  exact (p2.trans (hp.erase w)).trans p1.symm

theorem Add_spec (t : SubPool) (r : MetaTx) (hwf : t.WF) :
    (t.Add r).WF ∧ (t.Add r).worst.Perm (r :: t.worst) ∧ (t.Add r).best.Perm (r :: t.best) := by
  obtain ⟨hb, hwo, hp⟩ := hwf
  have p1 : (t.Add r).worst.Perm (r :: t.worst) :=
    (heapPush_perm _ t.worst r).trans (List.perm_append_singleton _ _)
  have p2 : (t.Add r).best.Perm (r :: t.best) :=
    (heapPush_perm _ t.best r).trans (List.perm_append_singleton _ _)
  refine ⟨⟨heapPush_isHeap _ lessBest_ok _ _ hb, heapPush_isHeap _ lessWorst_ok _ _ hwo, ?_⟩,
    p1, p2⟩
  exact (p2.trans (hp.cons r)).trans p1.symm

theorem Worst_spec (t : SubPool) (hwf : t.WF) (hne : 0 < t.size) :
    ∃ w, t.Worst.1 = some w ∧ w ∈ t.worst ∧ ∀ a ∈ t.worst, w.SubPool ≤ a.SubPool := by
  obtain ⟨_, hwo, _⟩ := hwf
  obtain ⟨w, hw⟩ := getElem?_some_of_lt t.worst 0 hne
  refine ⟨w, ?_, List.mem_iff_getElem?.mpr ⟨0, hw⟩, ?_⟩
  · simp only [SubPool.Worst, List.head?_eq_getElem?, hw]
  · intro a ha
    obtain ⟨k, hk⟩ := mem_iff_getElem?_some _ _ ha
    have := isHeap_root _ lessWorst_ok t.worst hwo w hw k a hk
    simpa using this

theorem tier_setTier (p : Pool) (id : TierId) (t : SubPool) (id2 : TierId) :
    (p.setTier id t).tier id2 = if id2 = id then t else p.tier id2 := by
  cases id <;> cases id2 <;> simp [Pool.setTier, Pool.tier]

theorem limit_setTier (p : Pool) (id : TierId) (t : SubPool) :
    (p.setTier id t).limit = p.limit := by
  cases id <;> rfl

end txpool

/-- C11. Eviction correctness: let the destination Tier of a transaction that is not yet
tracked be well formed and at capacity (its size is the configured limit, which is
positive). Then the Tier has a `Worst()` record `w`, and: if the marker of `w` is strictly
lower than the new marker, `Pool.Add` succeeds, the destination Tier afterwards holds the
new record and the old records without `w` (in both views, which stay well formed), its
size is unchanged, and the other Tiers and the limits are untouched; if the new marker is
lower than or equal to the marker of `w`, the Pool is left as it is and `PoolFull` is
reported. -/
theorem eviction_correctness (oracle : Nat → Fin 5 → Bool)
    (classify : (Fin 5 → Bool) → txpool.TierId) (p : txpool.Pool) (tx : Nat)
    (hwf : (p.tier (classify (oracle tx))).WF)
    (hnew : p.tracked tx = false)
    (hfull : (p.tier (classify (oracle tx))).size = p.limit (classify (oracle tx)))
    (hpos : 0 < p.limit (classify (oracle tx))) :
    ∃ w, (p.tier (classify (oracle tx))).Worst.1 = some w ∧
      w ∈ (p.tier (classify (oracle tx))).worst ∧
      (w.SubPool < txpool.markerOf (oracle tx) →
        (txpool.Pool.Add oracle classify p tx).2 = none ∧
        ((txpool.Pool.Add oracle classify p tx).1.tier (classify (oracle tx))).WF ∧
        ((txpool.Pool.Add oracle classify p tx).1.tier (classify (oracle tx))).worst.Perm
          (⟨txpool.markerOf (oracle tx), tx⟩ :: (p.tier (classify (oracle tx))).worst.erase w) ∧
        ((txpool.Pool.Add oracle classify p tx).1.tier (classify (oracle tx))).best.Perm
          (⟨txpool.markerOf (oracle tx), tx⟩ :: (p.tier (classify (oracle tx))).best.erase w) ∧
        ((txpool.Pool.Add oracle classify p tx).1.tier (classify (oracle tx))).size =
          (p.tier (classify (oracle tx))).size ∧
        (∀ id, id ≠ classify (oracle tx) →
          (txpool.Pool.Add oracle classify p tx).1.tier id = p.tier id) ∧
        (txpool.Pool.Add oracle classify p tx).1.limit = p.limit) ∧
      (txpool.markerOf (oracle tx) ≤ w.SubPool →
        txpool.Pool.Add oracle classify p tx = (p, some txpool.PoolErr.PoolFull)) := by
  obtain ⟨w, hw, hmem, _⟩ := txpool.Worst_spec _ hwf (by rw [hfull]; exact hpos)
  refine ⟨w, hw, hmem, ?_, ?_⟩
  · intro hlt
    have e : txpool.Pool.Add oracle classify p tx =
        (p.setTier (classify (oracle tx))
          (((p.tier (classify (oracle tx))).Remove w).Add ⟨txpool.markerOf (oracle tx), tx⟩),
          none) := by
      simp only [txpool.Pool.Add, hnew, hfull, Nat.lt_irrefl, if_false, hw, hlt, if_true]
      simp
    obtain ⟨r1, r2, r3⟩ := txpool.Remove_spec _ w hwf hmem
    obtain ⟨a1, a2, a3⟩ := txpool.Add_spec _ ⟨txpool.markerOf (oracle tx), tx⟩ r1
    rw [e]
    simp only [txpool.tier_setTier, if_true, txpool.limit_setTier]
    refine ⟨trivial, a1, a2.trans (r2.cons _), a3.trans (r3.cons _), ?_, ?_, trivial⟩
    · have h1 := (a2.trans (r2.cons _)).length_eq
      simp only [txpool.SubPool.size]
      rw [h1, List.length_cons, List.length_erase_of_mem hmem]
      have : 0 < (p.tier (classify (oracle tx))).worst.length :=
        List.length_pos_of_mem hmem
      omega
    · intro id hid
      rw [if_neg hid]
  · intro hle
    have hn : ¬ w.SubPool < txpool.markerOf (oracle tx) := by omega
    simp only [txpool.Pool.Add, hnew, hfull, Nat.lt_irrefl, if_false, hw, hn]
    simp
theorem eviction_correctness_witness :
    (txpool.Pool.Add (fun tx _ => decide (tx = 7)) (fun _ => txpool.TierId.Pending)
      ⟨⟨[⟨8, 2⟩, ⟨3, 1⟩, ⟨5, 0⟩], [⟨3, 1⟩, ⟨5, 0⟩, ⟨8, 2⟩]⟩,
        txpool.NewSubPool, txpool.NewSubPool, fun _ => 3⟩ 7).2 = none ∧
    ((txpool.Pool.Add (fun tx _ => decide (tx = 7)) (fun _ => txpool.TierId.Pending)
      ⟨⟨[⟨8, 2⟩, ⟨3, 1⟩, ⟨5, 0⟩], [⟨3, 1⟩, ⟨5, 0⟩, ⟨8, 2⟩]⟩,
        txpool.NewSubPool, txpool.NewSubPool, fun _ => 3⟩ 7).1.tier
          txpool.TierId.Pending).worst.Perm [⟨31, 7⟩, ⟨5, 0⟩, ⟨8, 2⟩] ∧
    txpool.Pool.Add (fun tx _ => decide (tx = 7)) (fun _ => txpool.TierId.Pending)
      ⟨⟨[⟨8, 2⟩, ⟨3, 1⟩, ⟨5, 0⟩], [⟨3, 1⟩, ⟨5, 0⟩, ⟨8, 2⟩]⟩,
        txpool.NewSubPool, txpool.NewSubPool, fun _ => 3⟩ 6 =
      (⟨⟨[⟨8, 2⟩, ⟨3, 1⟩, ⟨5, 0⟩], [⟨3, 1⟩, ⟨5, 0⟩, ⟨8, 2⟩]⟩,
        txpool.NewSubPool, txpool.NewSubPool, fun _ => 3⟩, some txpool.PoolErr.PoolFull) := by
  have wf : (⟨[⟨8, 2⟩, ⟨3, 1⟩, ⟨5, 0⟩], [⟨3, 1⟩, ⟨5, 0⟩, ⟨8, 2⟩]⟩ : txpool.SubPool).WF := by
    have e : (⟨[⟨8, 2⟩, ⟨3, 1⟩, ⟨5, 0⟩], [⟨3, 1⟩, ⟨5, 0⟩, ⟨8, 2⟩]⟩ : txpool.SubPool) =
        [⟨5, 0⟩, ⟨3, 1⟩, ⟨8, 2⟩].foldl txpool.SubPool.Add txpool.NewSubPool := by decide
    rw [e]
    obtain ⟨h1, h2, h3, h4⟩ := txpool.foldl_Add_spec [⟨5, 0⟩, ⟨3, 1⟩, ⟨8, 2⟩]
      txpool.NewSubPool (txpool.isHeap_nil _) (txpool.isHeap_nil _)
    exact ⟨h1, h2, h3.trans h4.symm⟩
  obtain ⟨w, hw, -, h1, -⟩ := eviction_correctness (fun tx _ => decide (tx = 7))
    (fun _ => txpool.TierId.Pending)
    ⟨⟨[⟨8, 2⟩, ⟨3, 1⟩, ⟨5, 0⟩], [⟨3, 1⟩, ⟨5, 0⟩, ⟨8, 2⟩]⟩,
      txpool.NewSubPool, txpool.NewSubPool, fun _ => 3⟩ 7 wf (by decide) rfl (by decide)
  obtain ⟨v, hv, -, -, h2⟩ := eviction_correctness (fun tx _ => decide (tx = 7))
    (fun _ => txpool.TierId.Pending)
    ⟨⟨[⟨8, 2⟩, ⟨3, 1⟩, ⟨5, 0⟩], [⟨3, 1⟩, ⟨5, 0⟩, ⟨8, 2⟩]⟩,
      txpool.NewSubPool, txpool.NewSubPool, fun _ => 3⟩ 6 wf (by decide) rfl (by decide)
  have e1 : w = ⟨3, 1⟩ := (Option.some.inj hw).symm
  have e2 : v = ⟨3, 1⟩ := (Option.some.inj hv).symm
  subst e1 e2
  obtain ⟨g1, -, g3, -⟩ := h1 (by decide)
  exact ⟨g1, g3, h2 (by decide)⟩

/-! ## Announcements: chunked broadcast and targeted propagation -/

namespace txpool

theorem EncodeHashes_announcement (hashes : List Nat) (encodeBuf : Go.Slice)
    (h64 : hashes.length / 32 * 33 < 2 ^ 64) :
    ∃ out, EncodeHashes hashes encodeBuf = some out ∧ out.data = announcement hashes :=
  ⟨_, EncodeHashes_spec hashes encodeBuf h64, rfl⟩

theorem decodeHashesLoop_announcement (hashes : List Nat) (N : Nat)
    (hN : hashes.length = 32 * N) :
    ∀ (n i : Nat) (acc : List Nat), i + n = N →
      decodeHashesLoop (rlp.listPrefix (N * 33) ++ rlp.hashItems hashes N 0) n
        (rlp.ListPrefixLen (N * 33) + 33 * i) acc =
        .ok (acc ++ (hashes.drop (32 * i)).take (32 * n)) := by
  intro n
  induction n with
  | zero => intro i acc _; simp [decodeHashesLoop]
  | succ n ih =>
    intro i acc hi
    have hitem := rlp.hashItems_item hashes N 0 i (by omega) (by omega)
    rw [Nat.zero_add] at hitem
    have hdrop : ((rlp.listPrefix (N * 33) ++ rlp.hashItems hashes N 0).drop
        (rlp.ListPrefixLen (N * 33) + 33 * i)).take 33 =
        160 :: (hashes.drop (32 * i)).take 32 := by
      rw [← rlp.listPrefix_length, List.drop_append, hitem]
    have hH : ((hashes.drop (32 * i)).take 32).length = 32 := by
      simp only [List.length_take, List.length_drop]; omega
    have hp := ParseHash_encoded _ _ Go.Slice.nil _ hH hdrop
    simp only [decodeHashesLoop, hp]
    have e1 : rlp.ListPrefixLen (N * 33) + 33 * i + 33 =
        rlp.ListPrefixLen (N * 33) + 33 * (i + 1) := by omega
    rw [e1, ih (i + 1) _ (by omega)]
    have e2 : 32 * (n + 1) = 32 + 32 * n := by omega
    have e3 : 32 * (i + 1) = 32 * i + 32 := by omega
    rw [e2, List.take_add, List.drop_drop, List.append_assoc, e3]

theorem decodeHashes_announcement (hashes : List Nat) (N : Nat) (hN : hashes.length = 32 * N)
    (h64 : 33 * N < 2 ^ 64) : decodeHashes (announcement hashes) = .ok hashes := by
  have hn : hashes.length / 32 = N := by omega
  have hitems : (rlp.hashItems hashes N 0).length = 33 * N :=
    rlp.hashItems_length hashes N 0 (by omega)
  have hc := ParseHashesCount_encoded (N * 33) (rlp.hashItems hashes N 0)
    (by omega) (by omega) (by omega)
  have hd : N * 33 / 33 = N := by omega
  have hl := decodeHashesLoop_announcement hashes N hN N 0 [] (by omega)
  simp only [decodeHashes, announcement, hn, hc, hd]
  rw [Nat.mul_zero, Nat.add_zero] at hl
  rw [hl]
  simp only [List.nil_append, List.drop_zero]
  rw [List.take_of_length_le (by omega)]

end txpool
namespace txpool

theorem ceilDiv_le (N limit : Nat) (h0 : 0 < N) (hle : N ≤ limit) :
    (N + limit - 1) / limit = 1 :=
  Nat.div_eq_of_lt_le (by omega) (by omega)

theorem ceilDiv_gt (N limit : Nat) (hl : 0 < limit) (hgt : limit < N) :
    (N + limit - 1) / limit = (N - limit + limit - 1) / limit + 1 := by
  have e1 : N + limit - 1 = (N - 1) + limit := by omega
  have e2 : N - limit + limit - 1 = N - 1 := by omega
  rw [e1, e2, Nat.add_div_right _ hl]

theorem announceLoop_spec (limit : Nat) (targets : List Target) (hl : 0 < limit) :
    ∀ (fuel N : Nat) (txs : List Nat), txs.length = 32 * N → N < fuel → 33 * N < 2 ^ 63 →
      ∃ chunks : List (List Nat),
        announceLoop limit targets fuel txs = .done ((chunks.map (fun c =>
          targets.map (fun t =>
            (⟨.NEW_POOLED_TRANSACTION_HASHES_66, announcement c, t⟩ : Outbound)))).flatten) ∧
        chunks.flatten = txs ∧ chunks.length = (N + limit - 1) / limit ∧
        ∀ c ∈ chunks, c ≠ [] ∧ c.length ≤ 32 * limit ∧
          ∃ n, c.length = 32 * n ∧ 33 * n < 2 ^ 63 := by
  intro fuel
  induction fuel with
  | zero => intro N txs _ h; omega
  | succ fuel ih =>
    intro N txs hN hf hint
    have h6364 : (2 : Nat) ^ 63 < 2 ^ 64 := by norm_num
    by_cases h0 : txs.length = 0
    · refine ⟨[], ?_, ?_, ?_, ?_⟩
      · simp [announceLoop, h0]
      · simp only [List.flatten_nil]
        exact (List.length_eq_zero.mp h0).symm
      · have hN0 : N = 0 := by omega
        subst hN0
        simp only [List.length_nil, Nat.zero_add]
        exact (Nat.div_eq_of_lt (by omega)).symm
      · intro c hc; cases hc
    · by_cases hgt : txs.length > 32 * limit
      · have hlen1 : (txs.take (32 * limit)).length = 32 * limit := by
          rw [List.length_take]; omega
        have hlen2 : (txs.drop (32 * limit)).length = 32 * (N - limit) := by
          rw [List.length_drop]; omega
        obtain ⟨out, he, hd⟩ := EncodeHashes_announcement (txs.take (32 * limit))
          Go.Slice.nil (by rw [hlen1]; omega)
        obtain ⟨chunks, c1, c2, c3, c4⟩ := ih (N - limit) (txs.drop (32 * limit)) hlen2
          (by omega) (by omega)
        refine ⟨txs.take (32 * limit) :: chunks, ?_, ?_, ?_, ?_⟩
        · simp only [announceLoop, h0, if_false, hgt, if_true, he, c1, hd]
          simp
        · simp only [List.flatten_cons, c2, List.take_append_drop]
        · rw [List.length_cons, c3]
          exact (ceilDiv_gt N limit hl (by omega)).symm
        · intro c hc
          rcases List.mem_cons.mp hc with e | e
          · subst e
            refine ⟨?_, by omega, limit, hlen1, by omega⟩
            intro hnil
            rw [hnil] at hlen1
            simp at hlen1
            omega
          · exact c4 c e
      · obtain ⟨out, he, hd⟩ := EncodeHashes_announcement txs Go.Slice.nil
          (by rw [hN]; omega)
        refine ⟨[txs], ?_, ?_, ?_, ?_⟩
        · cases fuel with
          | zero => omega
          | succ fuel =>
            simp only [announceLoop, h0, if_false, hgt, he, hd, List.length_nil, if_true]
            simp
        · simp
        · simp only [List.length_singleton]
          exact (ceilDiv_le N limit (by omega) (by omega)).symm
        · intro c hc
          rw [List.mem_singleton] at hc
          subst hc
          refine ⟨?_, by omega, N, hN, hint⟩
          intro hnil
          rw [hnil] at h0
          exact h0 rfl

end txpool

/-- C12. Chunked remote broadcast: for every per-packet limit `limit > 0` and every list of
`N` hashes (`32 * N` bytes, `33 * N` a Go `int`), `BroadcastRemote` returns, and sends
`⌈N / limit⌉` packets, all of kind `NEW_POOLED_TRANSACTION_HASHES_66`, addressed to a random
peer subset and non-empty; the packets decode one by one, each on its own, to chunks that
are non-empty, hold at most `limit` hashes and, concatenated in send order, give the
input; for `N = 3 * limit` exactly 3 packets are sent. -/
theorem chunked_broadcast (limit N : Nat) (hashes : List Nat) (hl : 0 < limit)
    (hN : hashes.length = 32 * N) (hint : 33 * N < 2 ^ 63) :
    ∃ out, txpool.BroadcastRemote limit hashes = .done out ∧
      out.length = (N + limit - 1) / limit ∧
      (∀ m ∈ out, m.Id = .NEW_POOLED_TRANSACTION_HASHES_66 ∧ m.To = .RandomPeers ∧
        m.Data ≠ []) ∧
      (∃ chunks : List (List Nat),
        List.Forall₂ (fun m c => txpool.decodeHashes m.Data = .ok c) out chunks ∧
        chunks.flatten = hashes ∧
        ∀ c ∈ chunks, c ≠ [] ∧ c.length ≤ 32 * limit) ∧
      (N = 3 * limit → out.length = 3) := by
  obtain ⟨chunks, c1, c2, c3, c4⟩ := txpool.announceLoop_spec limit [.RandomPeers] hl
    (hashes.length + 1) N hashes hN (by omega) hint
  have h6364 : (2 : Nat) ^ 63 < 2 ^ 64 := by norm_num
  have eo : (chunks.map (fun c => [txpool.Target.RandomPeers].map (fun t =>
      (⟨.NEW_POOLED_TRANSACTION_HASHES_66, txpool.announcement c, t⟩ :
        txpool.Outbound)))).flatten =
      chunks.map (fun c => ⟨.NEW_POOLED_TRANSACTION_HASHES_66, txpool.announcement c,
        .RandomPeers⟩) := by
    clear c1 c2 c3 c4
    induction chunks with
    | nil => rfl
    | cons c cs ih =>
      simp only [List.map_cons, List.map_nil, List.flatten_cons, List.singleton_append] at ih ⊢
      rw [ih]
  rw [eo] at c1
  refine ⟨_, c1, by rw [List.length_map, c3], ?_, ⟨chunks, ?_, c2, ?_⟩, ?_⟩
  · intro m hm
    obtain ⟨c, hc, rfl⟩ := List.mem_map.mp hm
    refine ⟨rfl, rfl, ?_⟩
    intro hnil
    have hnil2 : txpool.announcement c = [] := hnil
    have : (txpool.announcement c).length = 0 := by rw [hnil2]; rfl
    simp only [txpool.announcement, List.length_append, rlp.listPrefix_length] at this
    have := rlp.ListPrefixLen_pos (c.length / 32 * 33)
    omega
  · rw [List.forall₂_map_left_iff]
    apply List.forall₂_same.mpr
    intro c hc
    obtain ⟨_, _, n, hn, hn2⟩ := c4 c hc
    exact txpool.decodeHashes_announcement c n hn (by omega)
  · intro c hc
    exact ⟨(c4 c hc).1, (c4 c hc).2.1⟩
  · intro h3
    rw [List.length_map, c3, h3]
    exact Nat.div_eq_of_lt_le (by omega) (by omega)

/-- C12 at the limit of one hash per packet and three hashes. -/
theorem chunked_broadcast_witness :
    ∃ out, txpool.BroadcastRemote 1 (List.replicate 96 7) = .done out ∧ out.length = 3 ∧
      ∀ m ∈ out, m.Id = .NEW_POOLED_TRANSACTION_HASHES_66 ∧ m.To = .RandomPeers ∧
        m.Data ≠ [] := by
  obtain ⟨out, h1, -, h3, -, h5⟩ :=
    chunked_broadcast 1 3 (List.replicate 96 7) (by decide) (by decide) (by decide)
  exact ⟨out, h1, h5 rfl, h3⟩

/-! ## Slices of one memory: the encoders on arguments that may share storage -/

namespace Go

theorem Ref.bytes_length (r : Ref) (m : List Nat) (h : r.off + r.len ≤ m.length) :
    (r.bytes m).length = r.len := by
  simp only [Ref.bytes, List.length_take, List.length_drop]; omega

theorem Ref.bytes_getElem? (r : Ref) (m : List Nat) (i : Nat) :
    (r.bytes m)[i]? = if i < r.len then m[r.off + i]? else none := by
  simp only [Ref.bytes, List.getElem?_take, List.getElem?_drop]

theorem Ref.store_length (r : Ref) (m d : List Nat) (h : r.off + d.length ≤ m.length) :
    (r.store m d).length = m.length := by
  simp only [Ref.store, List.length_append, List.length_take, List.length_drop]; omega

theorem Ref.store_getElem? (r : Ref) (m d : List Nat) (h : r.off + d.length ≤ m.length)
    (i : Nat) :
    (r.store m d)[i]? =
      if r.off ≤ i ∧ i < r.off + d.length then d[i - r.off]? else m[i]? := by
  have hl : (m.take r.off).length = r.off := by rw [List.length_take]; omega
  unfold Ref.store
  by_cases h1 : i < r.off
  · rw [if_neg (by omega), List.append_assoc, List.getElem?_append_left (by omega),
      List.getElem?_take]
    simp [h1]
  · by_cases h2 : i < r.off + d.length
    · rw [if_pos ⟨by omega, h2⟩, List.getElem?_append_left (by
        rw [List.length_append, hl]; omega),
        List.getElem?_append_right (by omega), hl]
    · rw [if_neg (by omega), List.getElem?_append_right (by
        rw [List.length_append, hl]; omega), List.length_append, hl, List.getElem?_drop]
      congr 1
      omega

theorem Ref.bytes_store_self (r : Ref) (m d : List Nat) (h : r.off + r.len ≤ m.length)
    (hd : d.length = r.len) : r.bytes (r.store m d) = d := by
  apply List.ext_getElem?
  intro i
  rw [Ref.bytes_getElem?, Ref.store_getElem? r m d (by omega)]
  by_cases hi : i < r.len
  · rw [if_pos hi, if_pos ⟨by omega, by omega⟩]
    congr 1
    omega
  · rw [if_neg hi, List.getElem?_eq_none (by omega)]

theorem Ref.bytes_store_other (r q : Ref) (m d : List Nat) (h : r.off + d.length ≤ m.length)
    (hq : q.off + q.len ≤ r.off ∨ r.off + d.length ≤ q.off) :
    q.bytes (r.store m d) = q.bytes m := by
  apply List.ext_getElem?
  intro i
  rw [Ref.bytes_getElem?, Ref.bytes_getElem?]
  by_cases hi : i < q.len
  · rw [if_pos hi, if_pos hi, Ref.store_getElem? r m d h, if_neg (by omega)]
  · rw [if_neg hi, if_neg hi]

theorem Ref.store_store (r : Ref) (m d d2 : List Nat) (h : r.off + d.length ≤ m.length)
    (hd : d2.length = d.length) : r.store (r.store m d) d2 = r.store m d2 := by
  apply List.ext_getElem?
  intro i
  rw [Ref.store_getElem? r _ d2 (by rw [Ref.store_length r m d h]; omega),
    Ref.store_getElem? r m d2 (by omega)]
  by_cases hi : r.off ≤ i ∧ i < r.off + d2.length
  · rw [if_pos hi, if_pos hi]
  · rw [if_neg hi, if_neg hi, Ref.store_getElem? r m d h, if_neg (by omega)]

theorem Ref.sub_bytes (r : Ref) (m : List Nat) (pos : Nat) :
    (r.sub pos r.len).bytes m = (r.bytes m).drop pos := by
  apply List.ext_getElem?
  intro i
  simp only [Ref.sub, Ref.bytes_getElem?, List.getElem?_drop]
  by_cases hi : i < r.len - pos
  · rw [if_pos hi, if_pos (by omega), Nat.add_assoc]
  · rw [if_neg hi, if_neg (by omega)]

theorem Ref.sub_store (r : Ref) (m t : List Nat) (pos : Nat) (hp : pos ≤ r.len)
    (h : r.off + r.len ≤ m.length) (ht : pos + t.length ≤ r.len) :
    (r.sub pos r.len).store m t = r.store m ((r.bytes m).take pos ++ t) := by
  have hb := Ref.bytes_length r m h
  have hl : ((r.bytes m).take pos ++ t).length = pos + t.length := by
    rw [List.length_append, List.length_take, hb]; omega
  apply List.ext_getElem?
  intro i
  rw [Ref.store_getElem? _ m t (by simp only [Ref.sub]; omega),
    Ref.store_getElem? r m _ (by rw [hl]; omega), hl]
  simp only [Ref.sub]
  by_cases h1 : r.off + pos ≤ i ∧ i < r.off + pos + t.length
  · rw [if_pos h1, if_pos ⟨by omega, by omega⟩,
      List.getElem?_append_right (by rw [List.length_take, hb]; omega), List.length_take, hb]
    congr 1
    omega
  · rw [if_neg h1]
    by_cases h2 : r.off ≤ i ∧ i < r.off + (pos + t.length)
    · rw [if_pos h2, List.getElem?_append_left (by rw [List.length_take, hb]; omega),
        List.getElem?_take, if_pos (by omega), Ref.bytes_getElem?, if_pos (by omega)]
      congr 1
      omega
    · rw [if_neg h2]

theorem writeAtRef_eq (m : List Nat) (buf : Ref) (pos : Nat)
    (f : List Nat → Option (List Nat × Nat)) (h : buf.off + buf.len ≤ m.length)
    (hf : ∀ dst t n, f dst = some (t, n) → t.length = dst.length) :
    writeAtRef m buf pos f =
      (writeAt (buf.bytes m) pos f).map (fun p => (buf.store m p.1, p.2)) := by
  have hb := Ref.bytes_length buf m h
  unfold writeAtRef writeAt
  rw [hb]
  by_cases hp : buf.len < pos
  · rw [if_pos hp, if_pos hp]; rfl
  · rw [if_neg hp, if_neg hp, Ref.sub_bytes]
    cases hr : f ((buf.bytes m).drop pos) with
    | none => rfl
    | some p =>
      obtain ⟨t, n⟩ := p
      have ht := hf _ _ _ hr
      rw [List.length_drop, hb] at ht
      simp only [Option.map_some']
      rw [Ref.sub_store buf m t pos (by omega) h (by omega)]

end Go
namespace Go

theorem setIdx_len (t : List Nat) (i v : Nat) (r : List Nat) (h : setIdx t i v = some r) :
    r.length = t.length := by
  unfold setIdx at h
  by_cases hi : i < t.length
  · rw [if_pos hi] at h; cases h; simp
  · rw [if_neg hi] at h; cases h

theorem PutUint64_len (b : List Nat) (v : Nat) (r : List Nat) (h : PutUint64 b v = some r) :
    r.length = b.length := by
  unfold PutUint64 at h
  by_cases hi : b.length < 8
  · rw [if_pos hi] at h; cases h
  · rw [if_neg hi] at h; cases h; simp [be64]; omega

theorem copy_len (dst src : List Nat) : (copy dst src).length = dst.length := by
  simp only [copy, List.length_append, List.length_take, List.length_drop]; omega

end Go

namespace rlp

theorem EncodeListPrefix_len (dataLen : Nat) (dst t : List Nat) (n : Nat)
    (h : EncodeListPrefix dataLen dst = some (t, n)) : t.length = dst.length := by
  unfold EncodeListPrefix at h
  by_cases h56 : dataLen ≥ 56
  · rw [if_pos h56] at h
    by_cases h9 : dst.length ≤ 9
    · rw [if_pos h9] at h; cases h
    · rw [if_neg h9] at h
      cases hp : Go.PutUint64 (dst.drop 1) dataLen with
      | none => rw [hp] at h; cases h
      | some t1 =>
        rw [hp] at h
        have l1 := Go.PutUint64_len _ _ _ hp
        cases hs : Go.setIdx (dst.take 1 ++ t1) (8 - (Go.Len64 dataLen + 7) / 8)
            ((247 + (Go.Len64 dataLen + 7) / 8 % 256) % 256) with
        | none => simp only [hs] at h; cases h
        | some to2 =>
          simp only [hs] at h
          have l2 := Go.setIdx_len _ _ _ _ hs
          simp only [Option.some.injEq, Prod.mk.injEq] at h
          rw [← h.1, Go.copy_len, l2, List.length_append, l1, List.length_take,
            List.length_drop]
          omega
  · rw [if_neg h56] at h
    cases hs : Go.setIdx dst 0 ((192 + dataLen % 256) % 256) with
    | none => simp only [hs] at h; cases h
    | some to1 =>
      simp only [hs] at h
      simp only [Option.some.injEq, Prod.mk.injEq] at h
      rw [← h.1]
      exact Go.setIdx_len _ _ _ _ hs

theorem EncodeU64_len (i : Nat) (dst t : List Nat) (n : Nat)
    (h : EncodeU64 i dst = some (t, n)) : t.length = dst.length := by
  unfold EncodeU64 at h
  by_cases h128 : i > 128
  · rw [if_pos h128] at h
    cases hs : Go.setIdx dst 0 ((128 + (Go.Len64 i + 7) / 8 % 256) % 256) with
    | none => simp only [hs] at h; cases h
    | some to1 =>
      simp only [hs] at h
      have l1 := Go.setIdx_len _ _ _ _ hs
      cases hp : Go.PutUint64 (to1.drop 1) i with
      | none => simp only [hp] at h; cases h
      | some t1 =>
        simp only [hp] at h
        have l2 := Go.PutUint64_len _ _ _ hp
        simp only [Option.some.injEq, Prod.mk.injEq] at h
        have hpos : 0 < dst.length := by
          unfold Go.setIdx at hs
          by_contra hc
          rw [if_neg hc] at hs; cases hs
        rw [← h.1]
        simp only [List.length_append, Go.copy_len, List.length_take, List.length_drop, l2, l1]
        omega
  · rw [if_neg h128] at h
    by_cases h0 : i = 0
    · rw [if_pos h0] at h
      cases hs : Go.setIdx dst 0 128 with
      | none => simp only [hs] at h; cases h
      | some to1 =>
        simp only [hs] at h
        simp only [Option.some.injEq, Prod.mk.injEq] at h
        rw [← h.1]
        exact Go.setIdx_len _ _ _ _ hs
    · rw [if_neg h0] at h
      cases hs : Go.setIdx dst 0 (i % 256) with
      | none => simp only [hs] at h; cases h
      | some to1 =>
        simp only [hs] at h
        simp only [Option.some.injEq, Prod.mk.injEq] at h
        rw [← h.1]
        exact Go.setIdx_len _ _ _ _ hs

end rlp
namespace txpool

theorem copyBlobs_len (txsRlp : List (List Nat)) :
    ∀ (buf : List Nat) (pos : Nat) (b : List Nat) (p : Nat),
      copyBlobs txsRlp buf pos = some (b, p) → b.length = buf.length := by
  induction txsRlp with
  | nil =>
    intro buf pos b p h
    simp only [copyBlobs, Option.some.injEq, Prod.mk.injEq] at h
    rw [h.1]
  | cons tx rest ih =>
    intro buf pos b p h
    unfold copyBlobs at h
    by_cases hp : buf.length < pos
    · rw [if_pos hp] at h; cases h
    · rw [if_neg hp] at h
      rw [ih _ _ _ _ h, List.length_append, Go.copy_len, List.length_take, List.length_drop]
      omega

end txpool

namespace txpool.Shared

open Go

theorem shared_ensureEnoughSize_spec (m : List Nat) (in_ : Ref) (size : Nat) (h : in_.In m) :
    (ensureEnoughSize m in_ size).2.len = size ∧
    (ensureEnoughSize m in_ size).2.off + size ≤ (ensureEnoughSize m in_ size).1.length ∧
    (ensureEnoughSize m in_ size).2.bytes (ensureEnoughSize m in_ size).1 =
      (txpool.ensureEnoughSize (in_.slice m) size).data ∧
    (∀ q : Ref, q.off + q.len ≤ m.length →
      q.bytes (ensureEnoughSize m in_ size).1 = q.bytes m) ∧
    (∀ q : Ref, q.In m → q.Disjoint in_ →
      q.off + q.len ≤ (ensureEnoughSize m in_ size).2.off ∨
        (ensureEnoughSize m in_ size).2.off + size ≤ q.off) ∧
    m.length ≤ (ensureEnoughSize m in_ size).1.length := by
  obtain ⟨h1, h2⟩ := h
  have hcap : (in_.slice m).cap = in_.cap := by
    simp only [Ref.slice, Slice.cap, List.length_take, List.length_drop]; omega
  by_cases hc : in_.cap < size
  · have e : ensureEnoughSize m in_ size =
        (m ++ Go.copy (List.replicate size 0) (in_.bytes m), ⟨m.length, size, size⟩) := by
      simp only [ensureEnoughSize, hc, if_true]
    have e2 : txpool.ensureEnoughSize (in_.slice m) size =
        ⟨Go.copy (List.replicate size 0) (in_.slice m).data, []⟩ := by
      simp only [txpool.ensureEnoughSize, hcap, hc, if_true]
    rw [e, e2]
    refine ⟨rfl, ?_, ?_, ?_, ?_, ?_⟩
    · simp only [List.length_append, Go.copy_len, List.length_replicate]; omega
    · simp only [Ref.bytes, List.drop_left, Ref.slice]
      rw [List.take_of_length_le]
      rw [Go.copy_len, List.length_replicate]
    · intro q hq
      simp only [Ref.bytes]
      apply List.ext_getElem?
      intro i
      simp only [List.getElem?_take, List.getElem?_drop]
      by_cases hi : i < q.len
      · rw [if_pos hi, if_pos hi, List.getElem?_append_left (by omega)]
      · rw [if_neg hi, if_neg hi]
    · intro q hq _
      left
      have := hq.1
      have := hq.2
      show q.off + q.len ≤ m.length
      omega
    · simp only [List.length_append]; omega
  · have e : ensureEnoughSize m in_ size = (m, ⟨in_.off, size, in_.cap⟩) := by
      simp only [ensureEnoughSize, hc, if_false]
    have e2 : txpool.ensureEnoughSize (in_.slice m) size =
        ⟨((in_.slice m).data ++ (in_.slice m).spare).take size,
          ((in_.slice m).data ++ (in_.slice m).spare).drop size⟩ := by
      simp only [txpool.ensureEnoughSize, hcap, hc, if_false]
    rw [e, e2]
    refine ⟨rfl, ?_, ?_, ?_, ?_, le_refl _⟩
    · show in_.off + size ≤ m.length
      omega
    · apply List.ext_getElem?
      intro i
      simp only [Ref.bytes, Ref.slice, List.getElem?_take, List.getElem?_drop]
      by_cases hi : i < size
      · rw [if_pos hi, if_pos hi]
        by_cases hl : i < in_.len
        · rw [List.getElem?_append_left (by
            simp only [List.length_take, List.length_drop]; omega),
            List.getElem?_take, if_pos hl, List.getElem?_drop]
        · rw [List.getElem?_append_right (by
            simp only [List.length_take, List.length_drop]; omega),
            List.getElem?_take, List.getElem?_drop]
          simp only [List.length_take, List.length_drop]
          rw [if_pos (by omega)]
          congr 1
          omega
      · rw [if_neg hi, if_neg hi]
    · intro q _; rfl
    · intro q hq hd
      have := hq.1
      show q.off + q.len ≤ in_.off ∨ in_.off + size ≤ q.off
      rcases hd with hd | hd
      · left; omega
      · right; omega

theorem shared_blobsLen_eq (m : List Nat) (txsRlp : List Ref)
    (h : ∀ tx ∈ txsRlp, tx.off + tx.len ≤ m.length) :
    blobsLen txsRlp = txpool.blobsLen (txsRlp.map (fun tx => tx.bytes m)) := by
  have key : ∀ (l : List Ref) (n : Nat), (∀ tx ∈ l, tx.off + tx.len ≤ m.length) →
      l.foldl (fun n tx => n + tx.len) n =
        (l.map (fun tx => tx.bytes m)).foldl (fun n tx => n + tx.length) n := by
    intro l
    induction l with
    | nil => intro n _; rfl
    | cons a l ih =>
      intro n hl
      simp only [List.foldl_cons, List.map_cons]
      rw [Ref.bytes_length a m (hl a (List.mem_cons_self _ _))]
      exact ih _ (fun tx htx => hl tx (List.mem_cons_of_mem _ htx))
  exact key txsRlp 0 h

theorem shared_copyBlobs_eq (txsRlp : List Ref) :
    ∀ (m : List Nat) (buf : Ref) (pos : Nat), buf.off + buf.len ≤ m.length →
      (∀ tx ∈ txsRlp, tx.off + tx.len ≤ m.length ∧
        (tx.off + tx.len ≤ buf.off ∨ buf.off + buf.len ≤ tx.off)) →
      copyBlobs txsRlp m buf pos =
        (txpool.copyBlobs (txsRlp.map (fun tx => tx.bytes m)) (buf.bytes m) pos).map
          (fun p => (buf.store m p.1, p.2)) := by
  induction txsRlp with
  | nil =>
    intro m buf pos hb _
    simp only [copyBlobs, List.map_nil, txpool.copyBlobs, Option.map_some']
    congr 2
    apply List.ext_getElem?
    intro i
    rw [Ref.store_getElem? buf m _ (by rw [Ref.bytes_length buf m hb]; exact hb),
      Ref.bytes_length buf m hb]
    by_cases hi : buf.off ≤ i ∧ i < buf.off + buf.len
    · rw [if_pos hi, Ref.bytes_getElem?, if_pos (by omega)]
      congr 1
      omega
    · rw [if_neg hi]
  | cons tx rest ih =>
    intro m buf pos hb ht
    have hbl := Ref.bytes_length buf m hb
    obtain ⟨htx1, htx2⟩ := ht tx (List.mem_cons_self _ _)
    have htl := Ref.bytes_length tx m htx1
    simp only [copyBlobs, List.map_cons, txpool.copyBlobs, hbl, htl]
    by_cases hp : buf.len < pos
    · rw [if_pos hp, if_pos hp]; rfl
    · rw [if_neg hp, if_neg hp]
      have hl : ((buf.bytes m).take pos ++ Go.copy ((buf.bytes m).drop pos) (tx.bytes m)).length =
          buf.len := by
        rw [List.length_append, Go.copy_len, List.length_take, List.length_drop, hbl]; omega
      have hm : copyRef m (buf.sub pos buf.len) tx =
          buf.store m ((buf.bytes m).take pos ++ Go.copy ((buf.bytes m).drop pos) (tx.bytes m)) := by
        unfold copyRef
        rw [Ref.sub_bytes, Ref.sub_store buf m _ pos (by omega) hb (by
          rw [Go.copy_len, List.length_drop, hbl]; omega)]
      rw [hm]
      have hst : buf.off + ((buf.bytes m).take pos ++
          Go.copy ((buf.bytes m).drop pos) (tx.bytes m)).length ≤ m.length := by
        rw [hl]; exact hb
      rw [ih _ buf _ (by rw [Ref.store_length buf m _ hst]; exact hb) (by
        intro t' ht'
        obtain ⟨a1, a2⟩ := ht t' (List.mem_cons_of_mem _ ht')
        exact ⟨by rw [Ref.store_length buf m _ hst]; exact a1, a2⟩)]
      rw [Ref.bytes_store_self buf m _ hb hl]
      have hmap : rest.map (fun t' => t'.bytes (buf.store m ((buf.bytes m).take pos ++
          Go.copy ((buf.bytes m).drop pos) (tx.bytes m)))) =
          rest.map (fun t' => t'.bytes m) := by
        apply List.map_congr_left
        intro t' ht'
        obtain ⟨_, a2⟩ := ht t' (List.mem_cons_of_mem _ ht')
        exact Ref.bytes_store_other buf t' m _ hst (by rw [hl]; exact a2)
      rw [hmap]
      cases hr : txpool.copyBlobs (rest.map (fun t' => t'.bytes m))
          ((buf.bytes m).take pos ++ Go.copy ((buf.bytes m).drop pos) (tx.bytes m))
          (pos + tx.len) with
      | none => rfl
      | some p =>
        obtain ⟨b, q⟩ := p
        have hbq := txpool.copyBlobs_len _ _ _ _ _ hr
        simp only [Option.map_some']
        rw [Ref.store_store buf m _ b hst hbq]

end txpool.Shared
namespace Go

theorem writeAt_len (buf : List Nat) (pos : Nat) (f : List Nat → Option (List Nat × Nat))
    (hf : ∀ dst t n, f dst = some (t, n) → t.length = dst.length) (d : List Nat) (p : Nat)
    (h : writeAt buf pos f = some (d, p)) : d.length = buf.length := by
  unfold writeAt at h
  by_cases hp : buf.length < pos
  · rw [if_pos hp] at h; cases h
  · rw [if_neg hp] at h
    cases hr : f (buf.drop pos) with
    | none => simp only [hr] at h; cases h
    | some r =>
      obtain ⟨t, n⟩ := r
      simp only [hr, Option.some.injEq, Prod.mk.injEq] at h
      rw [← h.1, List.length_append, hf _ _ _ hr, List.length_take, List.length_drop]
      omega

/-- One `pos += f(.., buf[pos:])` on a slice of the memory, against the same statement on
the bytes of the slice. -/
theorem writeAtRef_step (m : List Nat) (buf : Ref) (pos : Nat)
    (f : List Nat → Option (List Nat × Nat)) (h : buf.off + buf.len ≤ m.length)
    (hf : ∀ dst t n, f dst = some (t, n) → t.length = dst.length) :
    (writeAt (buf.bytes m) pos f = none ∧ writeAtRef m buf pos f = none) ∨
    ∃ d p, writeAt (buf.bytes m) pos f = some (d, p) ∧
      writeAtRef m buf pos f = some (buf.store m d, p) ∧ d.length = buf.len ∧
      (buf.store m d).length = m.length ∧ buf.bytes (buf.store m d) = d := by
  rw [writeAtRef_eq m buf pos f h hf]
  cases hr : writeAt (buf.bytes m) pos f with
  | none => left; exact ⟨rfl, rfl⟩
  | some r =>
    obtain ⟨d, p⟩ := r
    right
    have hl := writeAt_len _ _ _ hf _ _ hr
    rw [Ref.bytes_length buf m h] at hl
    exact ⟨d, p, rfl, rfl, hl, Ref.store_length buf m d (by omega),
      Ref.bytes_store_self buf m d h hl⟩

end Go

namespace txpool.Shared

open Go

/-- On arguments that share no storage `Shared.EncodePooledTransactions65` computes what
`txpool.EncodePooledTransactions65` computes on the values of the arguments. -/
theorem shared_EncodePooledTransactions65_eq (m : List Nat) (txsRlp : List Ref) (encodeBuf : Ref)
    (hb : encodeBuf.In m) (ht : ∀ tx ∈ txsRlp, tx.In m ∧ tx.Disjoint encodeBuf) :
    EncodePooledTransactions65 m txsRlp encodeBuf =
      (txpool.EncodePooledTransactions65 (txsRlp.map (fun tx => tx.bytes m))
        (encodeBuf.slice m)).map (fun out =>
          ((ensureEnoughSize m encodeBuf
              (rlp.ListPrefixLen (blobsLen txsRlp) + blobsLen txsRlp)).2.store
            (ensureEnoughSize m encodeBuf
              (rlp.ListPrefixLen (blobsLen txsRlp) + blobsLen txsRlp)).1 out.data,
           (ensureEnoughSize m encodeBuf
              (rlp.ListPrefixLen (blobsLen txsRlp) + blobsLen txsRlp)).2)) := by
  have hin : ∀ tx ∈ txsRlp, tx.off + tx.len ≤ m.length := by
    intro tx htx
    have := (ht tx htx).1.1
    have := (ht tx htx).1.2
    omega
  have hL := shared_blobsLen_eq m txsRlp hin
  obtain ⟨s1, s2, s3, s4, s5, s6⟩ := shared_ensureEnoughSize_spec m encodeBuf
    (rlp.ListPrefixLen (blobsLen txsRlp) + blobsLen txsRlp) hb
  unfold EncodePooledTransactions65 txpool.EncodePooledTransactions65
  simp only [← hL, ← s3]
  generalize ensureEnoughSize m encodeBuf
    (rlp.ListPrefixLen (blobsLen txsRlp) + blobsLen txsRlp) = E at s1 s2 s3 s4 s5 s6 ⊢
  obtain ⟨m0, B⟩ := E
  simp only at s1 s2 s3 s4 s5 s6 ⊢
  have hB : B.off + B.len ≤ m0.length := by rw [s1]; exact s2
  rcases writeAtRef_step m0 B 0 (rlp.EncodeListPrefix (blobsLen txsRlp)) hB
    (rlp.EncodeListPrefix_len _) with ⟨e1, e2⟩ | ⟨d1, p1, e1, e2, l1, l2, l3⟩
  · simp only [e1, e2, Option.map_none']
  · simp only [e1, e2]
    have hcb := shared_copyBlobs_eq txsRlp (B.store m0 d1) B p1 (by rw [l2]; exact hB) (by
      intro tx htx
      refine ⟨by rw [l2]; have := hin tx htx; omega, ?_⟩
      have := s5 tx (ht tx htx).1 (ht tx htx).2
      rw [s1]
      exact this)
    have hmap : txsRlp.map (fun tx => tx.bytes (B.store m0 d1)) =
        txsRlp.map (fun tx => tx.bytes m) := by
      apply List.map_congr_left
      intro tx htx
      rw [Ref.bytes_store_other B tx m0 d1 (by rw [l1]; exact hB) (by
        have := s5 tx (ht tx htx).1 (ht tx htx).2
        rw [l1, s1]
        exact this)]
      exact s4 tx (hin tx htx)
    rw [hcb, l3, hmap]
    cases hr : txpool.copyBlobs (txsRlp.map (fun tx => tx.bytes m)) d1 p1 with
    | none => simp only [Option.map_none']
    | some r =>
      obtain ⟨d2, p2⟩ := r
      have l4 := txpool.copyBlobs_len _ _ _ _ _ hr
      simp only [Option.map_some']
      rw [Ref.store_store B m0 d1 d2 (by rw [l1]; exact hB) l4]

end txpool.Shared
namespace Go

theorem Ref.store_bytes (r : Ref) (m : List Nat) (h : r.off + r.len ≤ m.length) :
    r.store m (r.bytes m) = m := by
  apply List.ext_getElem?
  intro i
  rw [Ref.store_getElem? r m _ (by rw [Ref.bytes_length r m h]; exact h),
    Ref.bytes_length r m h]
  by_cases hi : r.off ≤ i ∧ i < r.off + r.len
  · rw [if_pos hi, Ref.bytes_getElem?, if_pos (by omega)]
    congr 1
    omega
  · rw [if_neg hi]

/-- One `pos += f(.., buf[pos:])` on a slice of the memory whose bytes are `d`. -/
theorem writeAtRef_chain (m0 : List Nat) (buf : Ref) (d : List Nat) (pos : Nat)
    (f : List Nat → Option (List Nat × Nat)) (h : buf.off + buf.len ≤ m0.length)
    (hd : d.length = buf.len)
    (hf : ∀ dst t n, f dst = some (t, n) → t.length = dst.length) :
    (writeAt d pos f = none ∧ writeAtRef (buf.store m0 d) buf pos f = none) ∨
    ∃ d1 p, writeAt d pos f = some (d1, p) ∧
      writeAtRef (buf.store m0 d) buf pos f = some (buf.store m0 d1, p) ∧
      d1.length = buf.len := by
  have hs : buf.off + d.length ≤ m0.length := by rw [hd]; exact h
  have hl := Ref.store_length buf m0 d hs
  have hb := Ref.bytes_store_self buf m0 d h hd
  rcases writeAtRef_step (buf.store m0 d) buf pos f (by rw [hl]; exact h) hf with
    ⟨e1, e2⟩ | ⟨d1, p, e1, e2, l1, _, _⟩
  · left
    rw [hb] at e1
    exact ⟨e1, e2⟩
  · right
    rw [hb] at e1
    rw [Ref.store_store buf m0 d d1 hs (by rw [l1, hd])] at e2
    exact ⟨d1, p, e1, e2, l1⟩

end Go

namespace txpool.Shared

open Go

/-- The blob loop on a slice of the memory whose bytes are `d`, the blobs outside it. -/
theorem shared_copyBlobs_chain (txsRlp : List Ref) (m0 : List Nat) (buf : Ref) (d : List Nat)
    (pos : Nat) (h : buf.off + buf.len ≤ m0.length) (hd : d.length = buf.len)
    (ht : ∀ tx ∈ txsRlp, tx.off + tx.len ≤ m0.length ∧
      (tx.off + tx.len ≤ buf.off ∨ buf.off + buf.len ≤ tx.off)) :
    copyBlobs txsRlp (buf.store m0 d) buf pos =
      (txpool.copyBlobs (txsRlp.map (fun tx => tx.bytes m0)) d pos).map
        (fun p => (buf.store m0 p.1, p.2)) := by
  have hs : buf.off + d.length ≤ m0.length := by rw [hd]; exact h
  have hl := Ref.store_length buf m0 d hs
  have hmap : txsRlp.map (fun tx => tx.bytes (buf.store m0 d)) =
      txsRlp.map (fun tx => tx.bytes m0) := by
    apply List.map_congr_left
    intro tx htx
    exact Ref.bytes_store_other buf tx m0 d hs (by rw [hd]; exact (ht tx htx).2)
  rw [shared_copyBlobs_eq txsRlp (buf.store m0 d) buf pos (by rw [hl]; exact h) (by
    intro tx htx
    exact ⟨by rw [hl]; exact (ht tx htx).1, (ht tx htx).2⟩),
    Ref.bytes_store_self buf m0 d h hd, hmap]
  cases hr : txpool.copyBlobs (txsRlp.map (fun tx => tx.bytes m0)) d pos with
  | none => rfl
  | some r =>
    obtain ⟨d2, p2⟩ := r
    have l4 := txpool.copyBlobs_len _ _ _ _ _ hr
    simp only [Option.map_some']
    rw [Ref.store_store buf m0 d d2 hs l4]

theorem shared_ensureEnoughSize_in (m : List Nat) (in_ : Ref) (size : Nat) (h : in_.In m) :
    (ensureEnoughSize m in_ size).2.In (ensureEnoughSize m in_ size).1 ∧
    (∀ q : Ref, q.In m → q.In (ensureEnoughSize m in_ size).1) ∧
    (∀ q : Ref, q.In m → q.Disjoint in_ → q.Disjoint (ensureEnoughSize m in_ size).2) := by
  obtain ⟨h1, h2⟩ := h
  by_cases hc : in_.cap < size
  · have e : ensureEnoughSize m in_ size =
        (m ++ Go.copy (List.replicate size 0) (in_.bytes m), ⟨m.length, size, size⟩) := by
      simp only [ensureEnoughSize, hc, if_true]
    rw [e]
    refine ⟨⟨le_refl _, ?_⟩, ?_, ?_⟩
    · simp only [List.length_append, Go.copy_len, List.length_replicate]; omega
    · intro q hq
      exact ⟨hq.1, by simp only [List.length_append]; have := hq.2; omega⟩
    · intro q hq _
      left
      exact hq.2
  · have e : ensureEnoughSize m in_ size = (m, ⟨in_.off, size, in_.cap⟩) := by
      simp only [ensureEnoughSize, hc, if_false]
    rw [e]
    refine ⟨⟨by show size ≤ in_.cap; omega, h2⟩, fun q hq => hq, ?_⟩
    intro q _ hd
    exact hd

/-- On arguments that share no storage `Shared.EncodePooledTransactions66` computes what
`txpool.EncodePooledTransactions66` computes on the values of the arguments. -/
theorem shared_EncodePooledTransactions66_eq (m : List Nat) (txsRlp : List Ref) (requestId : Nat)
    (encodeBuf : Ref) (hb : encodeBuf.In m)
    (ht : ∀ tx ∈ txsRlp, tx.In m ∧ tx.Disjoint encodeBuf) :
    EncodePooledTransactions66 m txsRlp requestId encodeBuf =
      (txpool.EncodePooledTransactions66 (txsRlp.map (fun tx => tx.bytes m)) requestId
        (encodeBuf.slice m)).map (fun out =>
          ((ensureEnoughSize m encodeBuf
              (rlp.ListPrefixLen (rlp.U64Len requestId + rlp.ListPrefixLen (blobsLen txsRlp) +
                blobsLen txsRlp) + (rlp.U64Len requestId +
                rlp.ListPrefixLen (blobsLen txsRlp) + blobsLen txsRlp))).2.store
            (ensureEnoughSize m encodeBuf
              (rlp.ListPrefixLen (rlp.U64Len requestId + rlp.ListPrefixLen (blobsLen txsRlp) +
                blobsLen txsRlp) + (rlp.U64Len requestId +
                rlp.ListPrefixLen (blobsLen txsRlp) + blobsLen txsRlp))).1 out.data,
           (ensureEnoughSize m encodeBuf
              (rlp.ListPrefixLen (rlp.U64Len requestId + rlp.ListPrefixLen (blobsLen txsRlp) +
                blobsLen txsRlp) + (rlp.U64Len requestId +
                rlp.ListPrefixLen (blobsLen txsRlp) + blobsLen txsRlp))).2)) := by
  have hin : ∀ tx ∈ txsRlp, tx.off + tx.len ≤ m.length := by
    intro tx htx
    have := (ht tx htx).1.1
    have := (ht tx htx).1.2
    omega
  have hL := shared_blobsLen_eq m txsRlp hin
  generalize hS : rlp.ListPrefixLen (rlp.U64Len requestId + rlp.ListPrefixLen (blobsLen txsRlp) +
    blobsLen txsRlp) + (rlp.U64Len requestId +
    rlp.ListPrefixLen (blobsLen txsRlp) + blobsLen txsRlp) = S
  obtain ⟨s1, s2, s3, s4, s5, s6⟩ := shared_ensureEnoughSize_spec m encodeBuf S hb
  unfold EncodePooledTransactions66 txpool.EncodePooledTransactions66
  simp only [← hL, hS, ← s3]
  generalize ensureEnoughSize m encodeBuf S = E at s1 s2 s3 s4 s5 s6 ⊢
  obtain ⟨m0, B⟩ := E
  simp only at s1 s2 s3 s4 s5 s6 ⊢
  have hB : B.off + B.len ≤ m0.length := by rw [s1]; exact s2
  have hbl := Ref.bytes_length B m0 hB
  have hm0 : m0 = B.store m0 (B.bytes m0) := (Ref.store_bytes B m0 hB).symm
  have ht0 : ∀ tx ∈ txsRlp, tx.off + tx.len ≤ m0.length ∧
      (tx.off + tx.len ≤ B.off ∨ B.off + B.len ≤ tx.off) := by
    intro tx htx
    refine ⟨by have := hin tx htx; omega, ?_⟩
    have := s5 tx (ht tx htx).1 (ht tx htx).2
    rw [s1]
    exact this
  have hmap : txsRlp.map (fun tx => tx.bytes m0) = txsRlp.map (fun tx => tx.bytes m) := by
    apply List.map_congr_left
    intro tx htx
    exact s4 tx (hin tx htx)
  conv_lhs => rw [hm0]
  rcases writeAtRef_chain m0 B (B.bytes m0) 0 (rlp.EncodeListPrefix
    (rlp.U64Len requestId + rlp.ListPrefixLen (blobsLen txsRlp) + blobsLen txsRlp)) hB hbl
    (rlp.EncodeListPrefix_len _) with ⟨e1, e2⟩ | ⟨d1, p1, e1, e2, l1⟩
  · simp only [e1, e2, Option.map_none']
  · simp only [e1, e2]
    rcases writeAtRef_chain m0 B d1 p1 (rlp.EncodeU64 requestId) hB l1
      (rlp.EncodeU64_len _) with ⟨f1, f2⟩ | ⟨d2, p2, f1, f2, l2⟩
    · simp only [f1, f2, Option.map_none']
    · simp only [f1, f2]
      rcases writeAtRef_chain m0 B d2 p2 (rlp.EncodeListPrefix (blobsLen txsRlp)) hB l2
        (rlp.EncodeListPrefix_len _) with ⟨g1, g2⟩ | ⟨d3, p3, g1, g2, l3⟩
      · simp only [g1, g2, Option.map_none']
      · simp only [g1, g2]
        rw [shared_copyBlobs_chain txsRlp m0 B d3 p3 hB l3 ht0, hmap]
        cases hr : txpool.copyBlobs (txsRlp.map (fun tx => tx.bytes m)) d3 p3 with
        | none => simp only [Option.map_none']
        | some r =>
          obtain ⟨d4, p4⟩ := r
          simp only [Option.map_some']

end txpool.Shared
namespace rlp.Shared

open Go

theorem shared_EncodeHash_eq (m : List Nat) (h to_ : Ref) (hto : to_.In m) (hh : h.In m)
    (hlen : h.len = 32) (hd : h.Disjoint to_) (h33 : 33 ≤ to_.len) :
    EncodeHash m h to_ = some (to_.store m (160 :: h.bytes m ++ (to_.bytes m).drop 33), 33) := by
  obtain ⟨t1, t2⟩ := hto
  obtain ⟨h1, h2⟩ := hh
  have hH : (h.bytes m).length = 32 := by rw [Ref.bytes_length h m (by omega), hlen]
  have hT : (to_.bytes m).length = to_.len := Ref.bytes_length to_ m (by omega)
  have hlen2 : (160 :: h.bytes m ++ (to_.bytes m).drop 33).length = to_.len := by
    simp only [List.length_cons, List.length_append, List.length_drop, hH, hT]; omega
  have hset : m.set to_.off (128 + 32) = (⟨to_.off, 1, 1⟩ : Ref).store m [160] := by
    apply List.ext_getElem?
    intro i
    rw [List.getElem?_set, Ref.store_getElem? _ m [160] (by simp; omega)]
    by_cases hi : to_.off = i
    · subst hi
      rw [if_pos rfl, if_pos (by omega), if_pos ⟨le_refl _, by simp⟩]
      simp
    · rw [if_neg hi, if_neg (by simp; omega)]
  have hlen1 : (m.set to_.off (128 + 32)).length = m.length := List.length_set _ _ _
  have hb : h.bytes (m.set to_.off (128 + 32)) = h.bytes m := by
    rw [hset]
    apply Ref.bytes_store_other _ h m [160] (by simp; omega)
    simp only [List.length_singleton]
    rcases hd with hd | hd
    · left; omega
    · right; omega
  have hcopy : Go.copy ((to_.sub 1 33).bytes (m.set to_.off (128 + 32))) (h.bytes m) =
      h.bytes m := by
    unfold Go.copy
    rw [Ref.bytes_length _ _ (by simp only [Ref.sub, hlen1]; omega)]
    simp only [Ref.sub]
    rw [List.take_of_length_le (by omega), List.drop_of_length_le (by
      rw [Ref.bytes_length _ _ (by simp only [hlen1]; omega), hH]), List.append_nil]
  have h32 : ¬ to_.len ≤ 32 := by omega
  simp only [EncodeHash, h32, if_false, copyRef, hb, hcopy]
  congr 2
  apply List.ext_getElem?
  intro i
  rw [Ref.store_getElem? _ _ _ (by simp only [Ref.sub, hH, hlen1]; omega),
    Ref.store_getElem? to_ m _ (by rw [hlen2]; omega), hH, hlen2, hset,
    Ref.store_getElem? _ m [160] (by simp; omega)]
  simp only [Ref.sub, List.length_singleton]
  by_cases c1 : to_.off + 1 ≤ i ∧ i < to_.off + 1 + 32
  · rw [if_pos c1, if_pos ⟨by omega, by omega⟩]
    have e : i - to_.off = (i - (to_.off + 1)) + 1 := by omega
    rw [e, List.cons_append, List.getElem?_cons_succ,
      List.getElem?_append_left (by rw [hH]; omega)]
  · rw [if_neg c1]
    by_cases c2 : to_.off ≤ i ∧ i < to_.off + 1
    · rw [if_pos c2, if_pos ⟨by omega, by omega⟩]
      have e : i - to_.off = 0 := by omega
      rw [e]
      simp
    · rw [if_neg c2]
      by_cases c3 : to_.off ≤ i ∧ i < to_.off + to_.len
      · rw [if_pos c3]
        have e : i - to_.off = (i - to_.off - 1 - 32) + 32 + 1 := by omega
        rw [e, List.cons_append, List.getElem?_cons_succ,
          List.getElem?_append_right (by rw [hH]; omega), hH, List.getElem?_drop,
          Ref.bytes_getElem?, if_pos (by omega)]
        congr 1
        omega
      · rw [if_neg c3]

end rlp.Shared
namespace Go

/-- A writer that produces `w` run as `pos += f(.., buf[pos:])` on a slice of the memory
whose bytes are `d`. -/
theorem writeAtRef_of_writes (m0 : List Nat) (buf : Ref) (d : List Nat) (pos : Nat)
    (f : List Nat → Option (List Nat × Nat)) (w : List Nat) (room : Nat)
    (h : buf.off + buf.len ≤ m0.length) (hd : d.length = buf.len)
    (hf : ∀ dst t n, f dst = some (t, n) → t.length = dst.length)
    (hw : Writes f w room) (hroom : pos + room ≤ buf.len) :
    ∃ d1, writeAtRef (buf.store m0 d) buf pos f = some (buf.store m0 d1, pos + w.length) ∧
      d1.length = buf.len ∧ d1.take (pos + w.length) = d.take pos ++ w := by
  obtain ⟨b, e, l, t⟩ := writeAt_of_writes f w room hw d pos (by omega)
  rcases writeAtRef_chain m0 buf d pos f h hd hf with ⟨e1, _⟩ | ⟨d1, p, e1, e2, l1⟩
  · rw [e] at e1; cases e1
  · rw [e] at e1
    simp only [Option.some.injEq, Prod.mk.injEq] at e1
    obtain ⟨rfl, rfl⟩ := e1
    exact ⟨b, e2, l1, t⟩

end Go

namespace rlp.Shared

open Go

theorem shared_EncodeHashes_writes (m0 : List Nat) (hashes : Ref) (hin : hashes.In m0)
    (h64 : hashes.len / 32 * 33 < 2 ^ 64) :
    txpool.Shared.WritesHashes EncodeHashes hashes (hashes.bytes m0)
      (txpool.announcement (hashes.bytes m0))
      (rlp.ListPrefixLen (hashes.len / 32 * 33) + hashes.len / 32 * 33) ∧
    (txpool.announcement (hashes.bytes m0)).length =
      rlp.ListPrefixLen (hashes.len / 32 * 33) + hashes.len / 32 * 33 := by
  have hH : (hashes.bytes m0).length = hashes.len :=
    Ref.bytes_length hashes m0 (by have := hin.1; have := hin.2; omega)
  have hal : (txpool.announcement (hashes.bytes m0)).length =
      rlp.ListPrefixLen (hashes.len / 32 * 33) + hashes.len / 32 * 33 := by
    have := txpool.announcement_length (hashes.bytes m0)
    rw [hH] at this
    unfold txpool.announcement
    rw [hH]
    exact this
  refine ⟨?_, hal⟩
  intro m dst hdst _ _ hHm hroom
  have hl := Ref.bytes_length dst m (by have := hdst.1; have := hdst.2; omega)
  obtain ⟨t, e, l, tk⟩ := rlp.EncodeHashes_writes (hashes.bytes m0) (by rw [hH]; exact h64)
    (dst.bytes m) (by rw [hl, hH]; exact hroom)
  refine ⟨t, ?_, by rw [l, hl], tk⟩
  simp only [EncodeHashes, hHm, e]
  rfl

end rlp.Shared

namespace txpool.Shared

open Go

theorem shared_EncodeHashesWith_spec (enc : List Nat → Ref → Ref → Option (List Nat × Nat))
    (m : List Nat) (hashes encodeBuf : Ref) (w : List Nat)
    (hb : encodeBuf.In m) (hh : hashes.In m) (hd : hashes.Disjoint encodeBuf)
    (hw : WritesHashes enc hashes (hashes.bytes m) w
      (rlp.ListPrefixLen (hashes.len / 32 * 33) + hashes.len / 32 * 33))
    (hlen : w.length = rlp.ListPrefixLen (hashes.len / 32 * 33) + hashes.len / 32 * 33) :
    ∃ m1 out, EncodeHashesWith enc m hashes encodeBuf = some (m1, out) ∧
      out.bytes m1 = w ∧
      out.len = rlp.ListPrefixLen (hashes.len / 32 * 33) + hashes.len / 32 * 33 := by
  obtain ⟨s1, s2, _, s4, _, _⟩ := shared_ensureEnoughSize_spec m encodeBuf
    (rlp.ListPrefixLen (hashes.len / 32 * 33) + hashes.len / 32 * 33) hb
  obtain ⟨i1, i2, i3⟩ := shared_ensureEnoughSize_in m encodeBuf
    (rlp.ListPrefixLen (hashes.len / 32 * 33) + hashes.len / 32 * 33) hb
  unfold EncodeHashesWith
  dsimp only
  generalize ensureEnoughSize m encodeBuf
    (rlp.ListPrefixLen (hashes.len / 32 * 33) + hashes.len / 32 * 33) = E at s1 s2 s4 i1 i2 i3 ⊢
  obtain ⟨m0, B⟩ := E
  simp only at s1 s2 s4 i1 i2 i3 ⊢
  have hB : B.off + B.len ≤ m0.length := by rw [s1]; exact s2
  obtain ⟨t, e, l, tk⟩ := hw m0 B i1 (i2 hashes hh) (i3 hashes hh hd)
    (s4 hashes (by have := hh.1; have := hh.2; omega)) (by rw [s1])
  have ht : t = w := by
    rw [← tk, List.take_of_length_le (by rw [l, s1, hlen])]
  subst ht
  refine ⟨B.store m0 t, B, ?_, Ref.bytes_store_self B m0 t hB l, s1⟩
  rw [e]

theorem shared_EncodeGetPooledTransactions66With_spec
    (enc : List Nat → Ref → Ref → Option (List Nat × Nat))
    (m : List Nat) (hashes : Ref) (requestId : Nat) (encodeBuf : Ref) (w : List Nat)
    (hb : encodeBuf.In m) (hh : hashes.In m) (hd : hashes.Disjoint encodeBuf)
    (hw : WritesHashes enc hashes (hashes.bytes m) w
      (rlp.ListPrefixLen (hashes.len / 32 * 33) + hashes.len / 32 * 33))
    (hlen : w.length = rlp.ListPrefixLen (hashes.len / 32 * 33) + hashes.len / 32 * 33)
    (hn : hashes.len / 32 * 33 < 2 ^ 63) (hi : requestId < 2 ^ 64)
    (hroom : requestId ≤ 128 ∨
      9 ≤ rlp.ListPrefixLen (hashes.len / 32 * 33) + hashes.len / 32 * 33 +
        rlp.U64Len requestId) :
    ∃ m1 out, EncodeGetPooledTransactions66With enc m hashes requestId encodeBuf =
        some ((m1, out), none) ∧
      out.bytes m1 = rlp.listPrefix (rlp.ListPrefixLen (hashes.len / 32 * 33) +
          hashes.len / 32 * 33 + rlp.U64Len requestId) ++ (rlp.u64Bytes requestId ++ w) ∧
      out.len = rlp.ListPrefixLen (rlp.ListPrefixLen (hashes.len / 32 * 33) +
          hashes.len / 32 * 33 + rlp.U64Len requestId) +
        (rlp.ListPrefixLen (hashes.len / 32 * 33) + hashes.len / 32 * 33 +
          rlp.U64Len requestId) := by
  have hU := rlp.U64Len_le requestId
  have hP := rlp.ListPrefixLen_le (hashes.len / 32 * 33)
  have hP1 := rlp.ListPrefixLen_pos (hashes.len / 32 * 33)
  have h63 : (2 : Nat) ^ 63 + 18 < 2 ^ 64 := by norm_num
  generalize hD : rlp.ListPrefixLen (hashes.len / 32 * 33) + hashes.len / 32 * 33 +
    rlp.U64Len requestId = D at hroom ⊢
  have hD64 : D < 2 ^ 64 := by omega
  obtain ⟨s1, s2, _, s4, _, _⟩ := shared_ensureEnoughSize_spec m encodeBuf (rlp.ListPrefixLen D + D) hb
  obtain ⟨i1, i2, i3⟩ := shared_ensureEnoughSize_in m encodeBuf (rlp.ListPrefixLen D + D) hb
  unfold EncodeGetPooledTransactions66With
  simp only [hD]
  generalize ensureEnoughSize m encodeBuf (rlp.ListPrefixLen D + D) = E at s1 s2 s4 i1 i2 i3 ⊢
  obtain ⟨m0, B⟩ := E
  simp only at s1 s2 s4 i1 i2 i3 ⊢
  have hB : B.off + B.len ≤ m0.length := by rw [s1]; exact s2
  have hbl := Ref.bytes_length B m0 hB
  have hm0 : m0 = B.store m0 (B.bytes m0) := (Ref.store_bytes B m0 hB).symm
  have hhb : hashes.off + hashes.len ≤ m.length := by have := hh.1; have := hh.2; omega
  rw [hm0]
  obtain ⟨d1, e1, l1, t1⟩ := writeAtRef_of_writes m0 B (B.bytes m0) 0
    (rlp.EncodeListPrefix D) _ _ hB hbl (rlp.EncodeListPrefix_len _)
    (rlp.EncodeListPrefix_writes D hD64)
    (by rw [s1, Nat.zero_add]; exact rlp.listPrefix_room _)
  rw [rlp.listPrefix_length, Nat.zero_add] at e1 t1
  simp only [List.take_zero, List.nil_append] at t1
  obtain ⟨d2, e2, l2, t2⟩ := writeAtRef_of_writes m0 B d1 (rlp.ListPrefixLen D)
    (rlp.EncodeU64 requestId) _ _ hB l1 (rlp.EncodeU64_len _)
    (rlp.EncodeU64_writes requestId hi) (by
      rw [s1]
      have := rlp.u64_room requestId
        (rlp.ListPrefixLen (hashes.len / 32 * 33) + hashes.len / 32 * 33)
        (by
          rcases hroom with h | h
          · exact Or.inl h
          · right; omega)
      omega)
  rw [rlp.u64Bytes_length] at e2 t2
  simp only [e1, e2]
  have hs2 : B.off + d2.length ≤ m0.length := by rw [l2]; exact hB
  have hl2 := Ref.store_length B m0 d2 hs2
  have hB2 : B.off + B.len ≤ (B.store m0 d2).length := by rw [hl2]; exact hB
  have hdisjB := i3 hashes hh hd
  have hcapB := i1.1
  have hcapB2 := i1.2
  obtain ⟨t, e3, l3, tk⟩ := hw (B.store m0 d2)
    (B.sub (rlp.ListPrefixLen D + rlp.U64Len requestId) B.len)
    (by
      constructor
      · show B.len - _ ≤ B.cap - _
        omega
      · show B.off + _ + (B.cap - _) ≤ _
        rw [hl2]; omega)
    (by
      obtain ⟨a1, a2⟩ := i2 hashes hh
      exact ⟨a1, by rw [hl2]; exact a2⟩)
    (by
      rcases hdisjB with c | c
      · left
        show hashes.off + hashes.cap ≤ B.off + _
        omega
      · right
        show B.off + _ + (B.cap - _) ≤ hashes.off
        omega)
    (by
      rw [Ref.bytes_store_other B hashes m0 d2 hs2 (by
        have := hh.1
        rw [l2]
        rcases hdisjB with c | c
        · left; omega
        · right; omega)]
      exact s4 hashes hhb)
    (by
      show _ ≤ B.len - _
      rw [s1]; omega)
  have hdl : (B.sub (rlp.ListPrefixLen D + rlp.U64Len requestId) B.len).len =
      rlp.ListPrefixLen (hashes.len / 32 * 33) + hashes.len / 32 * 33 := by
    show B.len - _ = _
    rw [s1]; omega
  have ht : t = w := by
    rw [← tk, List.take_of_length_le (by rw [l3, hdl, hlen])]
  subst ht
  simp only [e3]
  refine ⟨_, B, rfl, ?_, s1⟩
  rw [Ref.sub_store B (B.store m0 d2) t _ (by rw [s1]; omega) hB2 (by rw [l3, hdl, s1]; omega),
    Ref.bytes_store_self B m0 d2 hB l2,
    Ref.bytes_store_self B (B.store m0 d2) _ hB2 (by
      rw [List.length_append, List.length_take, l2, l3, hdl, s1]; omega),
    t2, t1, List.append_assoc]

end txpool.Shared

namespace txpool.Shared

open Go

theorem shared_blobsLen_sum (txsRlp : List Ref) :
    blobsLen txsRlp = (txsRlp.map (fun tx => tx.len)).sum := by
  have key : ∀ (l : List Ref) (n : Nat),
      l.foldl (fun n tx => n + tx.len) n = n + (l.map (fun tx => tx.len)).sum := by
    intro l
    induction l with
    | nil => intro n; simp
    | cons a l ih => intro n; simp [ih]; omega
  simpa using key txsRlp 0

theorem shared_EncodePooledTransactions65_spec (m : List Nat) (txsRlp : List Ref)
    (encodeBuf : Ref) (hb : encodeBuf.In m)
    (ht : ∀ tx ∈ txsRlp, tx.In m ∧ tx.Disjoint encodeBuf) (h64 : blobsLen txsRlp < 2 ^ 64) :
    ∃ m1 out, EncodePooledTransactions65 m txsRlp encodeBuf = some (m1, out) ∧
      out.bytes m1 = rlp.listPrefix (blobsLen txsRlp) ++
        (txsRlp.map (fun tx => tx.bytes m)).flatten ∧
      out.len = rlp.ListPrefixLen (blobsLen txsRlp) + blobsLen txsRlp ∧
      ∀ tx ∈ txsRlp, tx.bytes m1 = tx.bytes m := by
  have hin : ∀ tx ∈ txsRlp, tx.off + tx.len ≤ m.length := by
    intro tx htx
    have := (ht tx htx).1.1
    have := (ht tx htx).1.2
    omega
  have hL := shared_blobsLen_eq m txsRlp hin
  obtain ⟨s1, s2, _, s4, s5, _⟩ := shared_ensureEnoughSize_spec m encodeBuf
    (rlp.ListPrefixLen (blobsLen txsRlp) + blobsLen txsRlp) hb
  have hdl : (rlp.listPrefix (blobsLen txsRlp) ++
      (txsRlp.map (fun tx => tx.bytes m)).flatten).length =
      rlp.ListPrefixLen (blobsLen txsRlp) + blobsLen txsRlp := by
    rw [List.length_append, rlp.listPrefix_length, ← txpool.blobsLen_eq, ← hL]
  rw [shared_EncodePooledTransactions65_eq m txsRlp encodeBuf hb ht,
    txpool.EncodePooledTransactions65_spec _ _ (by rw [← hL]; exact h64)]
  simp only [Option.map_some', ← hL]
  refine ⟨_, _, rfl, ?_, s1, ?_⟩
  · exact Ref.bytes_store_self _ _ _ (by rw [s1]; exact s2) (by rw [hdl, s1])
  · intro tx htx
    rw [Ref.bytes_store_other _ tx _ _ (by rw [hdl]; exact s2) (by
      rw [hdl]
      exact s5 tx (ht tx htx).1 (ht tx htx).2)]
    exact s4 tx (hin tx htx)

theorem shared_EncodePooledTransactions66_spec (m : List Nat) (txsRlp : List Ref)
    (requestId : Nat) (encodeBuf : Ref) (hb : encodeBuf.In m)
    (ht : ∀ tx ∈ txsRlp, tx.In m ∧ tx.Disjoint encodeBuf) (h63 : blobsLen txsRlp < 2 ^ 63)
    (hi : requestId < 2 ^ 64)
    (hroom : requestId ≤ 128 ∨
      9 ≤ rlp.U64Len requestId + rlp.ListPrefixLen (blobsLen txsRlp) + blobsLen txsRlp) :
    ∃ m1 out, EncodePooledTransactions66 m txsRlp requestId encodeBuf = some (m1, out) ∧
      out.bytes m1 = rlp.listPrefix (rlp.U64Len requestId +
          rlp.ListPrefixLen (blobsLen txsRlp) + blobsLen txsRlp) ++
        (rlp.u64Bytes requestId ++ (rlp.listPrefix (blobsLen txsRlp) ++
          (txsRlp.map (fun tx => tx.bytes m)).flatten)) := by
  have hin : ∀ tx ∈ txsRlp, tx.off + tx.len ≤ m.length := by
    intro tx htx
    have := (ht tx htx).1.1
    have := (ht tx htx).1.2
    omega
  have hL := shared_blobsLen_eq m txsRlp hin
  generalize hS : rlp.ListPrefixLen (rlp.U64Len requestId + rlp.ListPrefixLen (blobsLen txsRlp) +
    blobsLen txsRlp) + (rlp.U64Len requestId +
    rlp.ListPrefixLen (blobsLen txsRlp) + blobsLen txsRlp) = S
  obtain ⟨s1, s2, _, _, _, _⟩ := shared_ensureEnoughSize_spec m encodeBuf S hb
  have hdl : (rlp.listPrefix (rlp.U64Len requestId +
        rlp.ListPrefixLen (blobsLen txsRlp) + blobsLen txsRlp) ++
      (rlp.u64Bytes requestId ++ (rlp.listPrefix (blobsLen txsRlp) ++
        (txsRlp.map (fun tx => tx.bytes m)).flatten))).length = S := by
    simp only [List.length_append, rlp.listPrefix_length, rlp.u64Bytes_length,
      ← txpool.blobsLen_eq, ← hL]
    omega
  rw [shared_EncodePooledTransactions66_eq m txsRlp requestId encodeBuf hb ht,
    txpool.EncodePooledTransactions66_spec _ _ _ (by rw [← hL]; exact h63) hi]
  simp only [← hL, hS]
  rw [if_pos hroom]
  simp only [Option.map_some']
  refine ⟨_, _, rfl, ?_⟩
  exact Ref.bytes_store_self _ _ _ (by rw [s1]; exact s2) (by rw [hdl, s1])

end txpool.Shared

/-! ## Claims about arguments that may share storage -/

/-- C6, as claimed, fails: the blob `[1, 2, 3]` lies in the storage of the scratch buffer
(blob and scratch buffer are the same slice, length 3, capacity 8).
`EncodePooledTransactions65` re-slices the buffer, writes the prefix 195 over the first
byte of the blob and then copies the blob: it returns `[195, 195, 2, 3]`, where the prefix
followed by the blob is `[195, 1, 2, 3]`. -/
theorem EncodePooledTransactions65_blob_in_scratch :
    (⟨0, 3, 8⟩ : Go.Ref).bytes [1, 2, 3, 0, 0, 0, 0, 0] = [1, 2, 3] ∧
    (txpool.Shared.EncodePooledTransactions65 [1, 2, 3, 0, 0, 0, 0, 0] [⟨0, 3, 8⟩]
      ⟨0, 3, 8⟩).map (fun r => r.2.bytes r.1) = some [195, 195, 2, 3] ∧
    rlp.listPrefix 3 ++ [1, 2, 3] = [195, 1, 2, 3] ∧
    ([195, 195, 2, 3] : List Nat) ≠ [195, 1, 2, 3] := by
  decide

/-- C6, amended. Older-variant pull response: for every list of blobs and every scratch
buffer that shares no storage with the blobs, `EncodePooledTransactions65` returns the list
prefix for `L`, the sum of the blob lengths, followed by the blobs concatenated in order,
unchanged; the result has `ListPrefixLen L + L` bytes, so exactly `L` bytes follow the
prefix; the blobs themselves are left as they were. `L < 2 ^ 63` states that `L` is a Go
`int`. -/
theorem EncodePooledTransactions65_layout (m : List Nat) (txsRlp : List Go.Ref)
    (encodeBuf : Go.Ref) (hb : encodeBuf.In m)
    (ht : ∀ tx ∈ txsRlp, tx.In m ∧ tx.Disjoint encodeBuf)
    (hint : (txsRlp.map (fun tx => tx.len)).sum < 2 ^ 63) :
    ∃ m1 out, txpool.Shared.EncodePooledTransactions65 m txsRlp encodeBuf = some (m1, out) ∧
      out.bytes m1 = rlp.listPrefix (txsRlp.map (fun tx => tx.len)).sum ++
        (txsRlp.map (fun tx => tx.bytes m)).flatten ∧
      (rlp.listPrefix (txsRlp.map (fun tx => tx.len)).sum).length =
        rlp.ListPrefixLen (txsRlp.map (fun tx => tx.len)).sum ∧
      (out.bytes m1).length =
        rlp.ListPrefixLen (txsRlp.map (fun tx => tx.len)).sum +
          (txsRlp.map (fun tx => tx.len)).sum ∧
      ((out.bytes m1).drop (rlp.ListPrefixLen (txsRlp.map (fun tx => tx.len)).sum)).length =
        (txsRlp.map (fun tx => tx.len)).sum ∧
      ∀ tx ∈ txsRlp, tx.bytes m1 = tx.bytes m := by
  have hL := txpool.Shared.shared_blobsLen_sum txsRlp
  have h64 : txpool.Shared.blobsLen txsRlp < 2 ^ 64 := by
    have : (2 : Nat) ^ 63 < 2 ^ 64 := by norm_num
    omega
  obtain ⟨m1, out, e, hbytes, _, hun⟩ :=
    txpool.Shared.shared_EncodePooledTransactions65_spec m txsRlp encodeBuf hb ht h64
  have hf : ((txsRlp.map (fun tx => tx.bytes m)).flatten).length =
      (txsRlp.map (fun tx => tx.len)).sum := by
    rw [← txpool.blobsLen_eq, ← txpool.Shared.shared_blobsLen_eq m txsRlp (by
      intro tx htx
      have := (ht tx htx).1.1
      have := (ht tx htx).1.2
      omega), hL]
  rw [hL] at hbytes
  refine ⟨m1, out, e, hbytes, rlp.listPrefix_length _, ?_, ?_, hun⟩
  · rw [hbytes, List.length_append, rlp.listPrefix_length, hf]
  · rw [hbytes, List.length_drop, List.length_append, rlp.listPrefix_length, hf]
    omega

/-- C6, amended, at three blobs, one of them empty, and a used scratch buffer of capacity 5
behind them in the memory. -/
theorem EncodePooledTransactions65_layout_witness :
    ∃ m1 out, txpool.Shared.EncodePooledTransactions65 [1, 2, 3, 4, 5, 9, 9, 8, 8, 8]
        [⟨0, 3, 3⟩, ⟨3, 0, 0⟩, ⟨3, 2, 2⟩] ⟨5, 2, 5⟩ = some (m1, out) ∧
      out.bytes m1 = [197, 1, 2, 3, 4, 5] := by
  obtain ⟨m1, out, h1, h2, -⟩ := EncodePooledTransactions65_layout
    [1, 2, 3, 4, 5, 9, 9, 8, 8, 8] [⟨0, 3, 3⟩, ⟨3, 0, 0⟩, ⟨3, 2, 2⟩] ⟨5, 2, 5⟩
    (by decide) (by decide) (by decide)
  exact ⟨m1, out, h1, by rw [h2]; decide⟩

/-- C16, as claimed, fails, in two ways. On a destination of 32 bytes the bounds check
`to[32]` of `EncodeHash` is out of range. And when `h` lies in the storage of `to` (here
`h = to[:32]`, the bytes 1 to 32), `to[0]` is set to 160 before `h` is copied: the bytes
`to[1..32]` are then 160, 2, ..., 32, not the 32 bytes of `h`. -/
theorem EncodeHash_32_bytes_or_shared_storage :
    rlp.EncodeHash (List.replicate 32 1) (List.replicate 32 0) = none ∧
    rlp.Shared.EncodeHash (List.replicate 32 1 ++ List.replicate 32 0) ⟨0, 32, 32⟩
      ⟨32, 32, 32⟩ = none ∧
    (⟨0, 32, 33⟩ : Go.Ref).bytes ((List.range 33).map (fun i => i + 1)) =
      (List.range 32).map (fun i => i + 1) ∧
    rlp.Shared.EncodeHash ((List.range 33).map (fun i => i + 1)) ⟨0, 32, 33⟩ ⟨0, 33, 33⟩ =
      some (160 :: 160 :: (List.range 31).map (fun i => i + 2), 33) ∧
    (160 :: (List.range 31).map (fun i => i + 2) : List Nat) ≠
      (List.range 32).map (fun i => i + 1) := by
  decide

/-- C16, amended. `EncodeHash` needs a 33-byte destination that shares no storage with
`h`: for every 32-byte hash `h` and every such destination `to` of at least 33 bytes it
completes, with `to[0]` equal to 160 (128 + 32), `to[1..32]` the 32 bytes of `h`, every
byte of `to` from index 33 on unchanged, the length of `to` unchanged and `h` unchanged;
on a destination shorter than 33 bytes it stops at the bounds check. -/
theorem EncodeHash_needs_33_bytes (m : List Nat) (h to_ : Go.Ref) (hto : to_.In m)
    (hh : h.In m) (hlen : h.len = 32) (hd : h.Disjoint to_) :
    (33 ≤ to_.len →
      ∃ m1, rlp.Shared.EncodeHash m h to_ = some (m1, 33) ∧ m1.length = m.length ∧
        (to_.bytes m1).length = to_.len ∧
        (to_.bytes m1).getD 0 0 = 160 ∧ ((to_.bytes m1).drop 1).take 32 = h.bytes m ∧
        (to_.bytes m1).drop 33 = (to_.bytes m).drop 33 ∧ h.bytes m1 = h.bytes m) ∧
    (to_.len < 33 → rlp.Shared.EncodeHash m h to_ = none) := by
  have hH : (h.bytes m).length = 32 := by
    rw [Go.Ref.bytes_length h m (by have := hh.1; have := hh.2; omega), hlen]
  have hT : (to_.bytes m).length = to_.len :=
    Go.Ref.bytes_length to_ m (by have := hto.1; have := hto.2; omega)
  constructor
  · intro h33
    have hl : (160 :: h.bytes m ++ (to_.bytes m).drop 33).length = to_.len := by
      simp only [List.length_cons, List.length_append, List.length_drop, hH, hT]; omega
    have hs : to_.off + (160 :: h.bytes m ++ (to_.bytes m).drop 33).length ≤ m.length := by
      rw [hl]; have := hto.1; have := hto.2; omega
    have hb : to_.bytes (to_.store m (160 :: h.bytes m ++ (to_.bytes m).drop 33)) =
        160 :: h.bytes m ++ (to_.bytes m).drop 33 :=
      Go.Ref.bytes_store_self to_ m _ (by have := hto.1; have := hto.2; omega) hl
    refine ⟨_, rlp.Shared.shared_EncodeHash_eq m h to_ hto hh hlen hd h33,
      Go.Ref.store_length to_ m _ hs, ?_, ?_, ?_, ?_, ?_⟩
    · rw [hb, hl]
    · rw [hb]; rfl
    · rw [hb]
      simp only [List.cons_append, List.drop_succ_cons, List.drop_zero]
      rw [List.take_append_of_le_length (by omega), List.take_of_length_le (by omega)]
    · rw [hb]
      have e : (160 :: h.bytes m ++ (to_.bytes m).drop 33) =
          (160 :: h.bytes m) ++ (to_.bytes m).drop 33 := rfl
      rw [e, List.drop_left' (by simp [hH])]
    · apply Go.Ref.bytes_store_other to_ h m _ hs
      rw [hl]
      have := hh.1
      have := hto.1
      rcases hd with c | c
      · left; omega
      · right; omega
  · intro hshort
    have : to_.len ≤ 32 := by omega
    simp only [rlp.Shared.EncodeHash, this, if_true]

/-- C16, amended, on a hash of 32 bytes 7 and a destination of 35 bytes behind it in the
memory. -/
theorem EncodeHash_needs_33_bytes_witness :
    ∃ m1, rlp.Shared.EncodeHash (List.replicate 32 7 ++ List.replicate 35 9) ⟨0, 32, 32⟩
        ⟨32, 35, 35⟩ = some (m1, 33) ∧
      (⟨32, 35, 35⟩ : Go.Ref).bytes m1 = 160 :: List.replicate 32 7 ++ [9, 9] := by
  obtain ⟨m1, h1, -⟩ := (EncodeHash_needs_33_bytes (List.replicate 32 7 ++ List.replicate 35 9)
    ⟨0, 32, 32⟩ ⟨32, 35, 35⟩ (by decide) (by decide) rfl (by decide)).1 (by decide)
  have e : rlp.Shared.EncodeHash (List.replicate 32 7 ++ List.replicate 35 9) ⟨0, 32, 32⟩
      ⟨32, 35, 35⟩ = some (List.replicate 32 7 ++ 160 :: List.replicate 32 7 ++ [9, 9], 33) := by
    decide
  rw [e] at h1
  simp only [Option.some.injEq, Prod.mk.injEq, and_true] at h1
  subst h1
  exact ⟨_, e, by decide⟩

/-- C17, as claimed, fails. The result depends on the scratch buffer when the input lies
in its storage: with the blob `[1, 2, 3]` as scratch buffer `EncodePooledTransactions65`
returns `[195, 195, 2, 3]`, with the `nil` scratch buffer `[195, 1, 2, 3]`. And the
request-tagged encoders do not return on every input: with nothing to encode and request
id 129 both panic (the defect of C18). -/
theorem encoders_depend_on_shared_scratch :
    (txpool.Shared.EncodePooledTransactions65 [1, 2, 3, 0, 0, 0, 0, 0] [⟨0, 3, 8⟩]
      ⟨0, 3, 8⟩).map (fun r => r.2.bytes r.1) = some [195, 195, 2, 3] ∧
    (txpool.Shared.EncodePooledTransactions65 [1, 2, 3, 0, 0, 0, 0, 0] [⟨0, 3, 8⟩]
      ⟨0, 0, 0⟩).map (fun r => r.2.bytes r.1) = some [195, 1, 2, 3] ∧
    txpool.Shared.EncodePooledTransactions66 [1, 2, 3, 0, 0, 0, 0, 0] [] 129 ⟨0, 0, 0⟩ = none ∧
    txpool.Shared.EncodeGetPooledTransactions66With rlp.Shared.EncodeHashes
      [1, 2, 3, 0, 0, 0, 0, 0] ⟨0, 0, 0⟩ 129 ⟨0, 0, 0⟩ = none := by
  decide

/-- C17, amended. Encoders are insensitive to a scratch buffer that shares no storage
with the input: for every input and every two such scratch buffers (any length, capacity
and contents) `EncodeHashes` and `EncodePooledTransactions65` return byte-for-byte equal
results, and so do `EncodeGetPooledTransactions66` and `EncodePooledTransactions66` when
the request id is at most 128 or at least 9 bytes follow the outer list prefix; the
result is a byte string fixed by the input, no byte of it comes from the buffer. The
encoder `rlp.EncodeHashes` the first two call is any encoder that writes the encoding `w`
of the hashes (`ListPrefixLen (33 * n) + 33 * n` bytes, `n = len(hashes) / 32`) at the
start of a destination sharing no storage with the hashes. The bounds state that the
lengths are Go `int`s and `requestId` a `uint64`. -/
theorem encoders_ignore_scratch (enc : List Nat → Go.Ref → Go.Ref → Option (List Nat × Nat))
    (m w : List Nat) (hashes : Go.Ref) (txsRlp : List Go.Ref) (requestId : Nat)
    (b1 b2 : Go.Ref)
    (hb1 : b1.In m) (hb2 : b2.In m) (hh : hashes.In m)
    (hd1 : hashes.Disjoint b1) (hd2 : hashes.Disjoint b2)
    (ht : ∀ tx ∈ txsRlp, tx.In m ∧ tx.Disjoint b1 ∧ tx.Disjoint b2)
    (hw : txpool.Shared.WritesHashes enc hashes (hashes.bytes m) w
      (rlp.ListPrefixLen (hashes.len / 32 * 33) + hashes.len / 32 * 33))
    (hlen : w.length = rlp.ListPrefixLen (hashes.len / 32 * 33) + hashes.len / 32 * 33)
    (hn : 33 * (hashes.len / 32) < 2 ^ 63)
    (hL : (txsRlp.map (fun tx => tx.len)).sum < 2 ^ 63) (hi : requestId < 2 ^ 64) :
    (∃ m1 o1 m2 o2,
      txpool.Shared.EncodeHashesWith enc m hashes b1 = some (m1, o1) ∧
      txpool.Shared.EncodeHashesWith enc m hashes b2 = some (m2, o2) ∧
      o1.bytes m1 = o2.bytes m2 ∧ o1.bytes m1 = w) ∧
    (requestId ≤ 128 ∨
        9 ≤ rlp.ListPrefixLen (hashes.len / 32 * 33) + hashes.len / 32 * 33 +
          rlp.U64Len requestId →
      ∃ m1 o1 m2 o2,
        txpool.Shared.EncodeGetPooledTransactions66With enc m hashes requestId b1 =
          some ((m1, o1), none) ∧
        txpool.Shared.EncodeGetPooledTransactions66With enc m hashes requestId b2 =
          some ((m2, o2), none) ∧
        o1.bytes m1 = o2.bytes m2 ∧
        o1.bytes m1 = rlp.listPrefix (rlp.ListPrefixLen (hashes.len / 32 * 33) +
          hashes.len / 32 * 33 + rlp.U64Len requestId) ++ (rlp.u64Bytes requestId ++ w)) ∧
    (∃ m1 o1 m2 o2,
      txpool.Shared.EncodePooledTransactions65 m txsRlp b1 = some (m1, o1) ∧
      txpool.Shared.EncodePooledTransactions65 m txsRlp b2 = some (m2, o2) ∧
      o1.bytes m1 = o2.bytes m2 ∧
      o1.bytes m1 = rlp.listPrefix (txsRlp.map (fun tx => tx.len)).sum ++
        (txsRlp.map (fun tx => tx.bytes m)).flatten) ∧
    (requestId ≤ 128 ∨
        9 ≤ rlp.U64Len requestId + rlp.ListPrefixLen (txsRlp.map (fun tx => tx.len)).sum +
          (txsRlp.map (fun tx => tx.len)).sum →
      ∃ m1 o1 m2 o2,
        txpool.Shared.EncodePooledTransactions66 m txsRlp requestId b1 = some (m1, o1) ∧
        txpool.Shared.EncodePooledTransactions66 m txsRlp requestId b2 = some (m2, o2) ∧
        o1.bytes m1 = o2.bytes m2 ∧
        o1.bytes m1 = rlp.listPrefix (rlp.U64Len requestId +
            rlp.ListPrefixLen (txsRlp.map (fun tx => tx.len)).sum +
            (txsRlp.map (fun tx => tx.len)).sum) ++
          (rlp.u64Bytes requestId ++ (rlp.listPrefix (txsRlp.map (fun tx => tx.len)).sum ++
            (txsRlp.map (fun tx => tx.bytes m)).flatten))) := by
  have h63 : (2 : Nat) ^ 63 < 2 ^ 64 := by norm_num
  have hn' : hashes.len / 32 * 33 < 2 ^ 63 := by rw [Nat.mul_comm]; exact hn
  have hsum := txpool.Shared.shared_blobsLen_sum txsRlp
  have ht1 : ∀ tx ∈ txsRlp, tx.In m ∧ tx.Disjoint b1 := fun tx htx =>
    ⟨(ht tx htx).1, (ht tx htx).2.1⟩
  have ht2 : ∀ tx ∈ txsRlp, tx.In m ∧ tx.Disjoint b2 := fun tx htx =>
    ⟨(ht tx htx).1, (ht tx htx).2.2⟩
  refine ⟨?_, ?_, ?_, ?_⟩
  · obtain ⟨m1, o1, e1, a1, _⟩ :=
      txpool.Shared.shared_EncodeHashesWith_spec enc m hashes b1 w hb1 hh hd1 hw hlen
    obtain ⟨m2, o2, e2, a2, _⟩ :=
      txpool.Shared.shared_EncodeHashesWith_spec enc m hashes b2 w hb2 hh hd2 hw hlen
    exact ⟨m1, o1, m2, o2, e1, e2, by rw [a1, a2], a1⟩
  · intro hroom
    obtain ⟨m1, o1, e1, a1, _⟩ := txpool.Shared.shared_EncodeGetPooledTransactions66With_spec
      enc m hashes requestId b1 w hb1 hh hd1 hw hlen hn' hi hroom
    obtain ⟨m2, o2, e2, a2, _⟩ := txpool.Shared.shared_EncodeGetPooledTransactions66With_spec
      enc m hashes requestId b2 w hb2 hh hd2 hw hlen hn' hi hroom
    exact ⟨m1, o1, m2, o2, e1, e2, by rw [a1, a2], a1⟩
  · obtain ⟨m1, o1, e1, a1, _⟩ := txpool.Shared.shared_EncodePooledTransactions65_spec
      m txsRlp b1 hb1 ht1 (by omega)
    obtain ⟨m2, o2, e2, a2, _⟩ := txpool.Shared.shared_EncodePooledTransactions65_spec
      m txsRlp b2 hb2 ht2 (by omega)
    rw [hsum] at a1 a2
    exact ⟨m1, o1, m2, o2, e1, e2, by rw [a1, a2], a1⟩
  · intro hroom
    rw [← hsum] at hroom
    obtain ⟨m1, o1, e1, a1⟩ := txpool.Shared.shared_EncodePooledTransactions66_spec
      m txsRlp requestId b1 hb1 ht1 (by omega) hi hroom
    obtain ⟨m2, o2, e2, a2⟩ := txpool.Shared.shared_EncodePooledTransactions66_spec
      m txsRlp requestId b2 hb2 ht2 (by omega) hi hroom
    rw [hsum] at a1 a2
    exact ⟨m1, o1, m2, o2, e1, e2, by rw [a1, a2], a1⟩

set_option maxRecDepth 20000 in
/-- C17, amended, with the encoder of the codec: one hash and the blobs `[1, 2]`, `[3]` at
the start of the memory, then a used scratch buffer of capacity 100, against the `nil`
scratch buffer; request id 1000 with the hash, request id 5 with the blobs. -/
theorem encoders_ignore_scratch_witness :
    (∃ m1 o1 m2 o2,
      txpool.Shared.EncodeHashesWith rlp.Shared.EncodeHashes
        (List.replicate 32 7 ++ [1, 2, 3] ++ List.replicate 100 9) ⟨0, 32, 32⟩
        ⟨35, 3, 100⟩ = some (m1, o1) ∧
      txpool.Shared.EncodeHashesWith rlp.Shared.EncodeHashes
        (List.replicate 32 7 ++ [1, 2, 3] ++ List.replicate 100 9) ⟨0, 32, 32⟩
        ⟨0, 0, 0⟩ = some (m2, o2) ∧
      o1.bytes m1 = o2.bytes m2) ∧
    (∃ m1 o1 m2 o2,
      txpool.Shared.EncodeGetPooledTransactions66With rlp.Shared.EncodeHashes
        (List.replicate 32 7 ++ [1, 2, 3] ++ List.replicate 100 9) ⟨0, 32, 32⟩ 1000
        ⟨35, 3, 100⟩ = some ((m1, o1), none) ∧
      txpool.Shared.EncodeGetPooledTransactions66With rlp.Shared.EncodeHashes
        (List.replicate 32 7 ++ [1, 2, 3] ++ List.replicate 100 9) ⟨0, 32, 32⟩ 1000
        ⟨0, 0, 0⟩ = some ((m2, o2), none) ∧
      o1.bytes m1 = o2.bytes m2) ∧
    (∃ m1 o1 m2 o2,
      txpool.Shared.EncodePooledTransactions65
        (List.replicate 32 7 ++ [1, 2, 3] ++ List.replicate 100 9) [⟨32, 2, 2⟩, ⟨34, 1, 1⟩]
        ⟨35, 3, 100⟩ = some (m1, o1) ∧
      txpool.Shared.EncodePooledTransactions65
        (List.replicate 32 7 ++ [1, 2, 3] ++ List.replicate 100 9) [⟨32, 2, 2⟩, ⟨34, 1, 1⟩]
        ⟨0, 0, 0⟩ = some (m2, o2) ∧
      o1.bytes m1 = o2.bytes m2 ∧ o1.bytes m1 = [195, 1, 2, 3]) ∧
    (∃ m1 o1 m2 o2,
      txpool.Shared.EncodePooledTransactions66
        (List.replicate 32 7 ++ [1, 2, 3] ++ List.replicate 100 9) [⟨32, 2, 2⟩, ⟨34, 1, 1⟩] 5
        ⟨35, 3, 100⟩ = some (m1, o1) ∧
      txpool.Shared.EncodePooledTransactions66
        (List.replicate 32 7 ++ [1, 2, 3] ++ List.replicate 100 9) [⟨32, 2, 2⟩, ⟨34, 1, 1⟩] 5
        ⟨0, 0, 0⟩ = some (m2, o2) ∧
      o1.bytes m1 = o2.bytes m2 ∧ o1.bytes m1 = [197, 5, 195, 1, 2, 3]) := by
  have hw := rlp.Shared.shared_EncodeHashes_writes
    (List.replicate 32 7 ++ [1, 2, 3] ++ List.replicate 100 9) ⟨0, 32, 32⟩ (by decide)
    (by decide)
  obtain ⟨a, -, c, -⟩ := encoders_ignore_scratch rlp.Shared.EncodeHashes
    (List.replicate 32 7 ++ [1, 2, 3] ++ List.replicate 100 9) _ ⟨0, 32, 32⟩
    [⟨32, 2, 2⟩, ⟨34, 1, 1⟩] 1000 ⟨35, 3, 100⟩ ⟨0, 0, 0⟩
    (by decide) (by decide) (by decide) (by decide) (by decide) (by decide)
    hw.1 hw.2 (by decide) (by decide) (by decide)
  obtain ⟨-, b, -, d⟩ := encoders_ignore_scratch rlp.Shared.EncodeHashes
    (List.replicate 32 7 ++ [1, 2, 3] ++ List.replicate 100 9) _ ⟨0, 32, 32⟩
    [⟨32, 2, 2⟩, ⟨34, 1, 1⟩] 5 ⟨35, 3, 100⟩ ⟨0, 0, 0⟩
    (by decide) (by decide) (by decide) (by decide) (by decide) (by decide)
    hw.1 hw.2 (by decide) (by decide) (by decide)
  obtain ⟨-, b', -, -⟩ := encoders_ignore_scratch rlp.Shared.EncodeHashes
    (List.replicate 32 7 ++ [1, 2, 3] ++ List.replicate 100 9) _ ⟨0, 32, 32⟩
    [⟨32, 2, 2⟩, ⟨34, 1, 1⟩] 1000 ⟨35, 3, 100⟩ ⟨0, 0, 0⟩
    (by decide) (by decide) (by decide) (by decide) (by decide) (by decide)
    hw.1 hw.2 (by decide) (by decide) (by decide)
  refine ⟨?_, ?_, ?_, ?_⟩
  · obtain ⟨m1, o1, m2, o2, e1, e2, e3, -⟩ := a
    exact ⟨m1, o1, m2, o2, e1, e2, e3⟩
  · obtain ⟨m1, o1, m2, o2, e1, e2, e3, -⟩ := b' (Or.inr (by decide))
    exact ⟨m1, o1, m2, o2, e1, e2, e3⟩
  · obtain ⟨m1, o1, m2, o2, e1, e2, e3, e4⟩ := c
    exact ⟨m1, o1, m2, o2, e1, e2, e3, by rw [e4]; decide⟩
  · obtain ⟨m1, o1, m2, o2, e1, e2, e3, e4⟩ := d (Or.inl (by decide))
    exact ⟨m1, o1, m2, o2, e1, e2, e3, by rw [e4]; decide⟩

/-! ## Targeted propagation -/

